import Mathlib

/-!
cacheGambler: the LRU cache, the consistent-hash ring, the coalescer, the
group and the peer picker.

A shallow embedding of `distributedCache/lru/lru.go`,
`distributedCache/consistentHash/consistentHash.go`,
`distributedCache/singleFlight/singleFlight.go`, `distributedCache/cache.go`,
`distributedCache/distributedCache.go` and the picker and the handler of
`distributedCache/http.go`, with the properties of the design document stated
and settled against the code.

Conventions of the embedding.

* Go strings are Lean `String`s; Go's `len(s)` is the number of bytes,
  `String.utf8ByteSize`.
* `int64` / `int` quantities are `Int`. The byte counts of the cache are
  built from lengths of strings held in memory, far below the 64-bit range,
  and no wrap-around is modelled for them. The `uint32` result of the ring's
  hash function is reduced modulo `2^32` explicitly; `int` has 64 bits.
* `container/list` is a sequence of element addresses (front first) over a
  memory that maps an element address to the `*node` stored in it; the
  `map[string]*list.Element` index is an association list from keys to element
  addresses.
* The `for` loop of `Add` can run forever; it is modelled with a fuel argument
  that bounds the number of iterations, `none` meaning that the fuel ran out.
* The coalescer and the group are run by one caller at a time: the mutexes are
  left out, and a call that waits for a call still in flight never returns. What a group
  asks of its loader, its picker and its peers is recorded as a list of events,
  and their answers may depend on the events so far.
* A call of the handler `ServeHTTP` is the list of its effects on the response
  writer, the log and the directory of the groups, with the way it ends: a
  return, a panic, or no return. A Go index expression out of range is a
  panic. `proto.Marshal` is an argument of the handler.
-/

namespace lru

/-- Go's `len(s)` for a string: its length in bytes. -/
def len (s : String) : Int := s.utf8ByteSize

/-- The values stored in the cache: byte strings, as the `String` type of
`lru_test.go` and `ByteView`. -/
abbrev Value := String

/-- The method `Len() int` of the interface `Value`. -/
def Value.Len (v : Value) : Int := v.utf8ByteSize

/-- The payload of a list element: `type node struct { key; value }`. -/
structure node where
  key : String
  value : Value
deriving DecidableEq, Repr, Inhabited

/-- One invocation of the `OnEvicted` callback: its two arguments, and what the
cache looked like to the callback when it was called (the keys of `cacheMap`
and the length of the list). -/
structure Evicted where
  key : String
  value : Value
  index : List String
  count : Nat
deriving DecidableEq, Repr

/-- The struct `CacheLRU`. `ll` lists the addresses of the elements of the
linked list, front first; `mem` is the memory holding the `*node` of every
element, `next` the next unused address. `OnEvicted` tells whether a callback
was given, and `calls` records its invocations, oldest first. -/
structure CacheLRU where
  maxBytes : Int
  nbytes : Int
  ll : List Nat
  cacheMap : List (String × Nat)
  OnEvicted : Bool
  mem : Nat → node
  next : Nat
  calls : List Evicted

/-- Go's `delete(m, key)`. -/
def mapDelete (m : List (String × Nat)) (key : String) : List (String × Nat) :=
  m.filter (fun p => p.1 != key)

/-- Go's `m[key] = elem`. -/
def mapSet (m : List (String × Nat)) (key : String) (elem : Nat) : List (String × Nat) :=
  (key, elem) :: mapDelete m key

/-- Go's `list.MoveToBack(e)`: nothing happens when `e` is not an element of the
list; otherwise `e` becomes the last element. -/
def MoveToBack (l : List Nat) (e : Nat) : List Nat :=
  if e ∈ l then l.erase e ++ [e] else l

/-- The constructor `lru.New(maxBytes, OnEvicted)`. -/
def New (maxBytes : Int) (OnEvicted : Bool) : CacheLRU :=
  { maxBytes := maxBytes, nbytes := 0, ll := [], cacheMap := [],
    OnEvicted := OnEvicted, mem := fun _ => default, next := 0, calls := [] }

/-- The method `CacheLRU.Find`: the cache afterwards and `(value, ok)` as an option. -/
def CacheLRU.Find (c : CacheLRU) (key : String) : CacheLRU × Option Value :=
  match c.cacheMap.lookup key with
  | some elem => ({ c with ll := MoveToBack c.ll elem }, some (c.mem elem).value)
  | none => (c, none)

/-- The method `CacheLRU.Remove`: drop the front element, if there is one. -/
def CacheLRU.Remove (c : CacheLRU) : CacheLRU :=
  match c.ll.head? with
  | none => c
  | some elem =>
    let kv := c.mem elem
    let ll := c.ll.erase elem
    let cacheMap := mapDelete c.cacheMap kv.key
    let nbytes := c.nbytes - (len kv.key + kv.value.Len)
    { c with
      ll := ll, cacheMap := cacheMap, nbytes := nbytes,
      calls := if c.OnEvicted then
          c.calls ++ [⟨kv.key, kv.value, cacheMap.map Prod.fst, ll.length⟩]
        else c.calls }

/-- The first half of `CacheLRU.Add` (the `if`/`else` before the loop). -/
def CacheLRU.store (c : CacheLRU) (key : String) (value : Value) : CacheLRU :=
  match c.cacheMap.lookup key with
  | some elem =>
    let kv := c.mem elem
    { c with
      ll := MoveToBack c.ll elem
      nbytes := c.nbytes + (len kv.key + kv.value.Len)
      mem := Function.update c.mem elem { kv with value := value } }
  | none =>
    let elem := c.next
    { c with
      ll := c.ll ++ [elem]
      mem := Function.update c.mem elem ⟨key, value⟩
      next := c.next + 1
      cacheMap := mapSet c.cacheMap key elem
      nbytes := c.nbytes + (len key + value.Len) }

/-- The loop of `CacheLRU.Add`:
`for c.maxBytes != 0 && c.maxBytes < c.nbytes { c.Remove() }`, run for at most
`fuel` iterations. -/
def CacheLRU.evict : Nat → CacheLRU → Option CacheLRU
  | fuel, c =>
    if c.maxBytes ≠ 0 ∧ c.maxBytes < c.nbytes then
      match fuel with
      | 0 => none
      | fuel + 1 => CacheLRU.evict fuel c.Remove
    else some c

/-- The method `CacheLRU.Add`, the loop running for at most `fuel` iterations. -/
def CacheLRU.Add (fuel : Nat) (c : CacheLRU) (key : String) (value : Value) :
    Option CacheLRU :=
  (c.store key value).evict fuel

/-- The method `CacheLRU.GetRecord`. -/
def CacheLRU.GetRecord (c : CacheLRU) : Nat := c.ll.length

/-- A call on the cache. -/
inductive Op where
  | add (key : String) (value : Value)
  | find (key : String)
deriving DecidableEq, Repr

/-- Run one call; every `Add` gets `fuel` iterations for its loop. -/
def step (fuel : Nat) (c : CacheLRU) : Op → Option CacheLRU
  | .add key value => c.Add fuel key value
  | .find key => some (c.Find key).1

/-- Run a sequence of calls, first to last. -/
def run (fuel : Nat) : CacheLRU → List Op → Option CacheLRU
  | c, [] => some c
  | c, op :: ops => (step fuel c op).bind (fun c1 => run fuel c1 ops)

/-- The resident entries, least recently used first. -/
def CacheLRU.entries (c : CacheLRU) : List node := c.ll.map c.mem

/-- The keys of the resident entries, least recently used first. -/
def CacheLRU.keys (c : CacheLRU) : List String := c.ll.map (fun e => (c.mem e).key)

/-- The memory an entry is accounted for: `len(key) + value.Len()`. -/
def node.size (kv : node) : Int := len kv.key + kv.value.Len

/-- The sum of `len(key) + value.Len()` over the resident entries. -/
def CacheLRU.residentBytes (c : CacheLRU) : Int := (c.entries.map node.size).sum

/-- Consistency of the index with the list: the list holds every element once,
every element was allocated, the index maps a key to an element of the list
that carries this key, every element of the list is indexed under its key, and
the index holds every key once. -/
structure Inv (c : CacheLRU) : Prop where
  nodup : c.ll.Nodup
  fresh : ∀ e ∈ c.ll, e < c.next
  index : ∀ k e, c.cacheMap.lookup k = some e → e ∈ c.ll ∧ (c.mem e).key = k
  listed : ∀ e ∈ c.ll, c.cacheMap.lookup (c.mem e).key = some e
  mapNodup : (c.cacheMap.map Prod.fst).Nodup

/-- The key a call names. -/
def Op.key : Op → String
  | .add key _ => key
  | .find key => key

/-- The key a call uses, in a given cache: `Add` uses its key (it inserts or
replaces it), `Find` uses its key when it is a hit. -/
def useOf (c : CacheLRU) : Op → Option String
  | .add key _ => some key
  | .find key => if (c.Find key).2.isSome then some key else none

/-- The uses made by a sequence of calls, first to last; the calls after one
whose loop does not end are not made. -/
def uses (fuel : Nat) : CacheLRU → List Op → List (Option String)
  | _, [] => []
  | c, op :: ops =>
    useOf c op :: (match step fuel c op with
      | some c1 => uses fuel c1 ops
      | none => [])

/-- The time of the last use of `k` in a sequence of uses: the position,
counted from 1, of the last `some k`, and 0 when `k` was never used. -/
def lastUse : List (Option String) → String → Nat
  | [], _ => 0
  | u :: us, k =>
    if lastUse us k ≠ 0 then lastUse us k + 1 else if u = some k then 1 else 0

/-- The value a call gives for `k`: `Add(k, value)` gives `value`. -/
def Op.stored : Op → String → Option Value
  | .add key value, k => if key = k then some value else none
  | .find _, _ => none

/-- The value given by the most recent `Add` for `k` in a sequence of calls. -/
def lastAdd : List Op → String → Option Value
  | [], _ => none
  | op :: ops, k =>
    match lastAdd ops k with
    | some v => some v
    | none => op.stored k

/-- The keys passed to `Add` by a sequence of calls. -/
def addedKeys : List Op → List String
  | [] => []
  | .add key _ :: ops => key :: addedKeys ops
  | .find _ :: ops => addedKeys ops

/-- The invocations of the callback made by `n` successive calls of `Remove`
on a cache with list `l`, index `m` and memory `mem`. -/
def evictCalls (mem : Nat → node) : Nat → List Nat → List (String × Nat) → List Evicted
  | 0, _, _ => []
  | _ + 1, [], _ => []
  | n + 1, e :: rest, m =>
    ⟨(mem e).key, (mem e).value, (mapDelete m (mem e).key).map Prod.fst, rest.length⟩ ::
      evictCalls mem n rest (mapDelete m (mem e).key)

/-- What `n` evictions from the cache `c` leave, `c1` being the result: the
`n` front elements are gone from the list, the memory is untouched, their
sizes are taken off `nbytes`, and the callback, if there is one, was called
once for each of them, front first. -/
structure Evicts (c c1 : CacheLRU) (n : Nat) : Prop where
  le : n ≤ c.ll.length
  ll : c1.ll = c.ll.drop n
  mem : c1.mem = c.mem
  maxBytes : c1.maxBytes = c.maxBytes
  OnEvicted : c1.OnEvicted = c.OnEvicted
  next : c1.next = c.next
  nbytes : c1.nbytes = c.nbytes - (((c.ll.take n).map c.mem).map node.size).sum
  calls : c1.calls =
    c.calls ++ (if c.OnEvicted then evictCalls c.mem n c.ll c.cacheMap else [])

/-- The recency list is ordered by last use: of two resident keys, the one
nearer the front was last used earlier. -/
def Recency (us : List (Option String)) (c : CacheLRU) : Prop :=
  c.keys.Pairwise (fun a b => lastUse us a < lastUse us b)

/-- The entries a call takes out of the list: for an `Add` that leads from `c`
to `c1`, the front entries of the list, as it is once the key is stored, that
are no longer there in `c1`. -/
def evictedBy (c c1 : CacheLRU) : Op → List node
  | .add key value =>
    (c.store key value).entries.take ((c.store key value).ll.length - c1.ll.length)
  | .find _ => []

/-- The sequence of evictions of a sequence of calls, in order. -/
def evictions (fuel : Nat) : CacheLRU → List Op → List node
  | _, [] => []
  | c, op :: ops =>
    match step fuel c op with
    | some c1 => evictedBy c c1 op ++ evictions fuel c1 ops
    | none => []

/-- The two arguments of an invocation of the callback. -/
def Evicted.args (x : Evicted) : node := ⟨x.key, x.value⟩

/-- Every resident entry holds the value given by the most recent `Add` for
its key. -/
def Stored (ops : List Op) (c : CacheLRU) : Prop :=
  ∀ e ∈ c.ll, lastAdd ops (c.mem e).key = some (c.mem e).value

end lru

namespace consistentHash

/-- The type `Hash func(data []byte) uint32`: a function of the bytes of a string;
its `uint32` result is the value of the function modulo `2^32`. -/
abbrev Hash := String → Nat

/-- The struct `Map`. `keys` is the ring, `hashMap` maps a ring position to a
peer. The positions are `int(uint32)`, with `int` of 64 bits: never negative. -/
structure Map where
  hash : Hash
  replicas : Int
  keys : List Nat
  hashMap : List (Nat × String)

/-- The constructor `New(replicas, fn)`; `ChecksumIEEE` stands for `crc32.ChecksumIEEE` of the
standard library, the hash used when `fn` is `nil`. -/
def New (replicas : Int) (fn : Option Hash) (ChecksumIEEE : Hash) : Map :=
  { hash := fn.getD ChecksumIEEE, replicas := replicas, keys := [], hashMap := [] }

/-- Go's `strconv.Itoa(i)` for `i >= 0`: the decimal digits of `i`. -/
def Itoa (i : Nat) : String := Nat.repr i

/-- The expression `int(m.hash([]byte(s)))`: the position of `s` on the ring. -/
def Map.pos (m : Map) (s : String) : Nat := m.hash s % 4294967296

/-- Go's `sort.Ints`. -/
def sortInts (l : List Nat) : List Nat := l.insertionSort (fun a b => a ≤ b)

/-- Go's `m.hashMap[hash] = addr`. -/
def hashMapSet (h : List (Nat × String)) (hash : Nat) (addr : String) : List (Nat × String) :=
  (hash, addr) :: h.filter (fun p => p.1 != hash)

/-- Go's `m.hashMap[hash]`: the empty string when `hash` is not a key. -/
def hashMapGet (h : List (Nat × String)) (hash : Nat) : String :=
  (h.lookup hash).getD ""

/-- The body of the inner loop of `Map.Add`, for the copy `i` of `addr`. -/
def Map.addReplica (addr : String) (m : Map) (i : Nat) : Map :=
  let hash := m.pos (Itoa i ++ addr)
  { m with keys := m.keys ++ [hash], hashMap := hashMapSet m.hashMap hash addr }

/-- The inner loop of `Map.Add`: `for i := 0; i < m.replicas; i++`. -/
def Map.addAddr (m : Map) (addr : String) : Map :=
  (List.range m.replicas.toNat).foldl (Map.addReplica addr) m

/-- The method `Map.Add(addrs...)`. -/
def Map.Add (m : Map) (addrs : List String) : Map :=
  let m1 := addrs.foldl Map.addAddr m
  { m1 with keys := sortInts m1.keys }

/-- The loop of `sort.Search`, on `i` and `j`; `fuel` bounds the number of
iterations, and `j - i` iterations are enough. -/
def searchLoop (f : Nat → Bool) : Nat → Nat → Nat → Nat
  | 0, i, _ => i
  | fuel + 1, i, j =>
    if i < j then
      let h := (i + j) / 2
      if !f h then searchLoop f fuel (h + 1) j else searchLoop f fuel i h
    else i

/-- Go's `sort.Search(n, f)`: binary search for the least `i` in `[0, n]` with
`f(i)` true, `f` being false up to some index and true from it on. -/
def Search (n : Nat) (f : Nat → Bool) : Nat := searchLoop f n 0 n

/-- The method `Map.Get(key)`. The indices that `sort.Search` passes to its function
and `index % len(m.keys)` are within the ring; `getD` gives 0 outside. -/
def Map.Get (m : Map) (key : String) : String :=
  if m.keys.length = 0 then ""
  else
    let hash := m.pos key
    let index := Search m.keys.length (fun i => decide (m.keys.getD i 0 ≥ hash))
    hashMapGet m.hashMap (m.keys.getD (index % m.keys.length) 0)

/-- The ring made by `New(replicas, hash)` followed by one `Add` call for each
list of `adds`. -/
def ring (replicas : Int) (hash : Hash) (adds : List (List String)) : Map :=
  adds.foldl Map.Add (New replicas (some hash) hash)

/-- The positions of the copies of the peers `addrs`: `hash(Itoa(i) ++ addr)`
for each `addr` in turn and `i` from 0 to `replicas - 1`. -/
def positions (hash : Hash) (replicas : Nat) (addrs : List String) : List Nat :=
  addrs.flatMap (fun addr =>
    (List.range replicas).map (fun i => hash (Itoa i ++ addr) % 4294967296))

/-- The loop of the library function `strconv.ParseUint(s, 10, 64)` on the
characters left to read, `n` being the number read so far: `none` for a
syntax error (a character that is not a decimal digit), and the largest
`uint64` as soon as the number leaves the range of `uint64`. -/
def parseUintLoop : List Char → Nat → Option Nat
  | [], n => some n
  | c :: cs, n =>
    if ¬ (48 ≤ c.toNat ∧ c.toNat ≤ 57) then none
    else if 1844674407370955162 ≤ n then some 18446744073709551615
    else if 18446744073709551615 < n * 10 + (c.toNat - 48) then some 18446744073709551615
    else parseUintLoop cs (n * 10 + (c.toNat - 48))

/-- The library function `strconv.Atoi(s)` with its error dropped, as in
`i, _ := strconv.Atoi(s)`, for an `int` of 64 bits: an optional sign and
decimal digits; 0 on a syntax error (no digit at all, or a character that is
not a digit), and the nearest `int64` when the number is out of range. -/
def Atoi (s : String) : Int :=
  let neg := s.data.head? = some '-'
  let digits := match s.data with
    | '+' :: r => r
    | '-' :: r => r
    | r => r
  match digits with
  | [] => 0
  | c :: cs =>
    match parseUintLoop (c :: cs) 0 with
    | none => 0
    | some un =>
      if neg then (if 9223372036854775808 < un then -9223372036854775808 else -(un : Int))
      else (if 9223372036854775808 ≤ un then 9223372036854775807 else (un : Int))

/-- The hash function of `TestHashing`: `strconv.Atoi` of the key, its error
dropped, then the conversion of the `int` to `uint32`. -/
def testHash : Hash := fun s => (Atoi s % 4294967296).toNat

end consistentHash


namespace consistentHash

/-- The clockwise successor of the hash `h` on the ring `keys`: a position of
the ring that is the smallest one at or after `h`, or, when `h` is beyond
every position, the lowest one. -/
def IsSuccessor (keys : List Nat) (h p : Nat) : Prop :=
  p ∈ keys ∧
    ((h ≤ p ∧ ∀ q ∈ keys, h ≤ q → p ≤ q) ∨ ((∀ q ∈ keys, q < h) ∧ ∀ q ∈ keys, p ≤ q))

/-- No two different peers of `addrs` have copies at the same ring position. -/
def CollisionFree (hash : Hash) (replicas : Nat) (addrs : List String) : Prop :=
  ∀ a ∈ addrs, ∀ b ∈ addrs, ∀ p, p ∈ positions hash replicas [a] →
    p ∈ positions hash replicas [b] → a = b

end consistentHash

namespace gomap

/-- Go's `m[key] = value` on a map held as an association list. -/
def set {α β : Type} [BEq α] (m : List (α × β)) (key : α) (value : β) : List (α × β) :=
  (key, value) :: m.filter (fun p => p.1 != key)

/-- Go's `delete(m, key)` on a map held as an association list. -/
def delete {α β : Type} [BEq α] (m : List (α × β)) (key : α) : List (α × β) :=
  m.filter (fun p => p.1 != key)

end gomap

namespace crc32

/-- One bit of the table-free CRC-32 computation, with the reversed IEEE
polynomial `0xedb88320`. -/
def round (crc : Nat) : Nat :=
  if crc % 2 = 1 then (crc / 2) ^^^ 0xEDB88320 else crc / 2

/-- Feed one byte to the checksum. -/
def update (crc : Nat) (b : UInt8) : Nat := round^[8] (crc ^^^ b.toNat)

/-- Go's `crc32.ChecksumIEEE` of the standard library, on the bytes of a
string: the hash of a ring made with a `nil` hash function. -/
def ChecksumIEEE : consistentHash.Hash := fun s =>
  (s.toUTF8.data.toList.foldl update 0xFFFFFFFF) ^^^ 0xFFFFFFFF

end crc32

namespace singleFlight

/-- The struct `call`: `wg` is the counter of the `sync.WaitGroup`, `res` the
pair `(val, err)` once it has been assigned. -/
structure call (R : Type) where
  wg : Nat
  res : Option R

/-- The struct `SingleFlight`: the map `m`, `none` while it is `nil`. -/
structure SingleFlight (R : Type) where
  m : Option (List (String × call R))

/-- The entries of the call map; a `nil` map has none. -/
def SingleFlight.entries {R : Type} (sf : SingleFlight R) : List (String × call R) :=
  sf.m.getD []

/-- The method `SingleFlight.Do(key, fn)`, run by one goroutine with no other
goroutine running. `fn` is a thunk acting on an environment `E` (it does not
use the `SingleFlight`), `none` when it does not return. The result is `none`
when `Do` does not return: `fn` does not, or `Do` waits for a call in the map
that nobody completes. -/
def SingleFlight.Do {R E : Type} (sf : SingleFlight R) (key : String)
    (fn : E → Option (R × E)) (env : E) : Option (R × SingleFlight R × E) :=
  -- if sf.m == nil { sf.m = make(map[string]*call) }
  let m := sf.m.getD []
  match m.lookup key with
  | some c =>
    -- c.wg.Wait(); return c.val, c.err
    if c.wg = 0 then c.res.map (fun r => (r, ⟨some m⟩, env)) else none
  | none =>
    -- c := new(call); c.wg.Add(1); sf.m[key] = c
    let m1 := gomap.set m key { wg := 1, res := none }
    -- c.val, c.err = fn()
    match fn env with
    | none => none
    | some (r, env1) =>
      let m2 := gomap.set m1 key { wg := 1, res := some r }
      -- c.wg.Done()
      let m3 := gomap.set m2 key { wg := 0, res := some r }
      -- delete(sf.m, key); return c.val, c.err
      some (r, ⟨some (gomap.delete m3 key)⟩, env1)

end singleFlight

namespace distributedCache

/-- The constant `defaultBasePath`. -/
def defaultBasePath : String := "/_cache/"

/-- The constant `defaultReplicas`. -/
def defaultReplicas : Int := 50

/-- The struct `httpClient`. -/
structure httpClient where
  baseUrl : String
deriving DecidableEq, Repr

/-- The struct `HTTPPool`, without its mutex: `peers` is `none` while the
pointer is `nil`, that is before `Set`. -/
structure HTTPPool where
  self : String
  basePath : String
  peers : Option consistentHash.Map
  httpClients : List (String × httpClient)

/-- The constructor `NewHTTPPool(self)`. -/
def NewHTTPPool (self : String) : HTTPPool :=
  { self := self, basePath := defaultBasePath, peers := none, httpClients := [] }

/-- The method `HTTPPool.Set(addrs...)`. -/
def HTTPPool.Set (p : HTTPPool) (addrs : List String) : HTTPPool :=
  { p with
    peers := some ((consistentHash.New defaultReplicas none crc32.ChecksumIEEE).Add addrs)
    httpClients :=
      addrs.foldl (fun m addr => gomap.set m addr ⟨addr ++ p.basePath⟩) [] }

/-- The method `HTTPPool.PickPeer(key)`: `(client, ok)`, the client being
`none` for `nil`; the whole result is `none` when the call panics, on the
`nil` ring of a pool on which `Set` was not called. -/
def HTTPPool.PickPeer (p : HTTPPool) (key : String) : Option (Option httpClient × Bool) :=
  match p.peers with
  | none => none
  | some peers =>
    let peer := peers.Get key
    if peer ≠ "" ∧ peer ≠ p.self then some (p.httpClients.lookup peer, true)
    else some (none, false)

end distributedCache

namespace pb

/-- Modelled from the spec: the message `Request` of the package `pb`, which
is not among the sources: `{ group: string, key: string }`. -/
structure Request where
  Group : String
  Key : String
deriving DecidableEq, Repr

/-- Modelled from the spec: the message `Response` of the package `pb`, which
is not among the sources: `{ value: bytes }`. -/
structure Response where
  Value : String
deriving DecidableEq, Repr

end pb

namespace distributedCache

/-- The struct `ByteView`: the bytes of a cached value. -/
abbrev ByteView := lru.Value

/-- What a group asks of its collaborators: the origin loader for a key
(`g.getter.Get(key)`), the picker for a key (`g.peers.PickPeer(key)`), a peer
for a key of a group (`peer.Get(req, res)`). -/
inductive Event where
  | load (key : String)
  | pick (key : String)
  | fetch (group key : String)
deriving DecidableEq, Repr

/-- The interface `Getter`: the bytes or the error that `Get(key)` returns,
which may depend on what was asked before. -/
abbrev Getter := List Event → String → Except String String

/-- The interface `PeerGetter`: the response or the error of
`Get(in, out)`. -/
abbrev PeerGetter := List Event → pb.Request → Except String pb.Response

/-- The interface `PeerPicker`: `PickPeer(key)` returns `(peer, true)`, here
`some peer`, or `ok = false`, here `none`. -/
abbrev PeerPicker := List Event → String → Option PeerGetter

/-- The struct `cache`, without its mutex; `lru` is `none` while the pointer
is `nil`. -/
structure cache where
  lru : Option lru.CacheLRU
  cacheBytes : Int

/-- The method `cache.add`; `none` when the loop of `lru.Add` does not end
within `fuel` iterations. -/
def cache.add (fuel : Nat) (c : cache) (key : String) (value : ByteView) : Option cache :=
  -- if c.lru == nil { c.lru = lru.New(c.cacheBytes, nil) }
  let l := c.lru.getD (lru.New c.cacheBytes false)
  (l.Add fuel key value).map (fun l1 => { c with lru := some l1 })

/-- The method `cache.find`: the cache afterwards and `(value, ok)`. -/
def cache.find (c : cache) (key : String) : cache × Option ByteView :=
  match c.lru with
  | none => (c, none)
  | some l => ({ c with lru := some (l.Find key).1 }, (l.Find key).2)

/-- The struct `Group`. `loader` holds results `(value, err)` as
`Except String ByteView`; `events` records what the group asked of its
collaborators, oldest first. -/
structure Group where
  name : String
  getter : Getter
  mainCache : cache
  peers : Option PeerPicker
  loader : singleFlight.SingleFlight (Except String ByteView)
  events : List Event

/-- The group that `NewGroup(name, cacheBytes, getter)` makes, for a getter
that is not `nil`. -/
def NewGroup (name : String) (cacheBytes : Int) (getter : Getter) : Group :=
  { name := name, getter := getter, mainCache := { lru := none, cacheBytes := cacheBytes },
    peers := none, loader := ⟨none⟩, events := [] }

/-- The method `Group.RegisterPeers`; `none` when it panics, a picker being
registered already. -/
def Group.RegisterPeers (g : Group) (peers : PeerPicker) : Option Group :=
  match g.peers with
  | some _ => none
  | none => some { g with peers := some peers }

/-- The method `Group.getFromPeer`. -/
def Group.getFromPeer (g : Group) (peer : PeerGetter) (key : String) :
    Except String ByteView × Group :=
  let req : pb.Request := { Group := g.name, Key := key }
  let g1 := { g with events := g.events ++ [Event.fetch req.Group req.Key] }
  match peer g.events req with
  | .error err => (.error err, g1)
  | .ok res => (.ok res.Value, g1)

/-- The method `Group.populateCache`. -/
def Group.populateCache (fuel : Nat) (g : Group) (key : String) (value : ByteView) :
    Option Group :=
  (g.mainCache.add fuel key value).map (fun c => { g with mainCache := c })

/-- The method `Group.getLocally`. -/
def Group.getLocally (fuel : Nat) (g : Group) (key : String) :
    Option (Except String ByteView × Group) :=
  let g1 := { g with events := g.events ++ [Event.load key] }
  match g.getter g.events key with
  | .error err => some (.error err, g1)
  | .ok bytes => (g1.populateCache fuel key bytes).map (fun g2 => (.ok bytes, g2))

/-- The function that `Group.load` passes to `Do`. -/
def Group.loadFn (fuel : Nat) (key : String) (g : Group) :
    Option (Except String ByteView × Group) :=
  match g.peers with
  | some picker =>
    let g1 := { g with events := g.events ++ [Event.pick key] }
    match picker g.events key with
    | some peer =>
      match g1.getFromPeer peer key with
      | (.ok value, g2) => some (.ok value, g2)
      | (.error _, g2) => g2.getLocally fuel key
    | none => g1.getLocally fuel key
  | none => g.getLocally fuel key

/-- The method `Group.load`. -/
def Group.load (fuel : Nat) (g : Group) (key : String) :
    Option (Except String ByteView × Group) :=
  match g.loader.Do key (Group.loadFn fuel key) g with
  | none => none
  | some (r, sf, g1) => some (r, { g1 with loader := sf })

/-- The method `Group.Get`, for one caller at a time; `none` when it does not
return. -/
def Group.Get (fuel : Nat) (g : Group) (key : String) :
    Option (Except String ByteView × Group) :=
  if key = "" then some (.error "key is required", g)
  else
    match (g.mainCache.find key).2 with
    | some v => some (.ok v, { g with mainCache := (g.mainCache.find key).1 })
    | none => ({ g with mainCache := (g.mainCache.find key).1 }).load fuel key

/-- What the peers do for a key before the origin loader is asked: the events
this adds, and the result of the peer when the picker names one (`none` when
no picker is registered or the picker names no peer). -/
def Group.peerOutcome (g : Group) (key : String) :
    List Event × Option (Except String ByteView) :=
  match g.peers with
  | none => ([], none)
  | some picker =>
    match picker g.events key with
    | none => ([Event.pick key], none)
    | some peer =>
      ([Event.pick key, Event.fetch g.name key],
        some (match peer (g.events ++ [Event.pick key]) { Group := g.name, Key := key } with
          | .error err => .error err
          | .ok res => .ok res.Value))

/-- The keys and values resident in the cache of a group, least recently used
first. -/
def cache.entries (c : cache) : List lru.node :=
  match c.lru with
  | none => []
  | some l => l.entries

/-- The cache of a group is in order: its index is consistent with its list,
its byte count is exact and its capacity is the one of the group. -/
def cache.OK (c : cache) : Prop :=
  ∀ l, c.lru = some l → lru.Inv l ∧ l.nbytes = l.residentBytes ∧ l.maxBytes = c.cacheBytes

/-- The number of iterations that the loop of `lru.Add` may need on the cache
of a group. -/
def cache.fuel (c : cache) : Nat :=
  match c.lru with
  | none => 1
  | some l => l.ll.length + 1

/-- The pair `(ByteView, error)` that Go returns for a result: the value and
no error, or the empty `ByteView` and the error. -/
def returned (r : Except String ByteView) : ByteView × Option String :=
  match r with
  | .ok v => (v, none)
  | .error e => ("", some e)

/-- The map `db` of `distributedCache_test.go`. -/
def db : List (String × String) := [("Tom", "630"), ("Jack", "589"), ("Sam", "567")]

/-- The getter of the test `TestGet`: the value of `db`, or the error
"<key> not exist"; its load counter is the number of `load` events. -/
def testGetter : Getter := fun _ key =>
  match db.lookup key with
  | some v => .ok v
  | none => .error (key ++ " not exist")

end distributedCache

namespace lru

/-- The counter `nbytes` as `n` evictions from the front leave it: the sizes
`len(key) + value.Len()` of the `n` entries at the front are taken off. -/
def CacheLRU.bytesAfter (c : CacheLRU) (n : Nat) : Int :=
  c.nbytes - (((c.ll.take n).map c.mem).map node.size).sum

/-- A call of one of the public methods `Add`, `Find` and `Remove`. -/
inductive Call where
  | add (key : String) (value : Value)
  | find (key : String)
  | remove
deriving DecidableEq, Repr

/-- Run one call of a public method; every `Add` gets `fuel` iterations for
its loop, and the result is `none` when that is not enough. -/
def perform (fuel : Nat) (c : CacheLRU) : Call → Option CacheLRU
  | .add key value => c.Add fuel key value
  | .find key => some (c.Find key).1
  | .remove => some c.Remove

/-- Run a sequence of calls of the public methods, first to last. -/
def performAll (fuel : Nat) : CacheLRU → List Call → Option CacheLRU
  | c, [] => some c
  | c, x :: xs => (perform fuel c x).bind (fun c1 => performAll fuel c1 xs)

end lru

namespace strings

/-- The library function `strings.HasPrefix(s, prefix)`. -/
def HasPrefix (s pre : String) : Bool := pre.data.isPrefixOf s.data

/-- The library function `strings.Cut` for a separator of one character: the
text before and after the first separator, `none` when there is none. -/
def cut (sep : Char) : List Char → Option (List Char × List Char)
  | [] => none
  | c :: cs => if c = sep then some ([], cs) else (cut sep cs).map (fun x => (c :: x.1, x.2))

/-- The loop of `strings.SplitN` on the characters, for a separator of one
character and `n ≥ 0`: at most `n` pieces, the last one unsplit. -/
def splitN (sep : Char) : Nat → List Char → List (List Char)
  | 0, _ => []
  | 1, s => [s]
  | n + 2, s =>
    match cut sep s with
    | none => [s]
    | some (a, b) => a :: splitN sep (n + 1) b

/-- The library function `strings.SplitN(s, sep, n)` for a separator of one
character and `n ≥ 0`. -/
def SplitN (s : String) (sep : Char) (n : Nat) : List String :=
  (splitN sep n s.data).map String.mk

end strings

namespace distributedCache

/-- The function `GetGroup(name)` on the package variable `groups`, the
directory of the groups by name: `none` for `nil`. -/
def GetGroup (groups : List (String × Group)) (name : String) : Option Group :=
  groups.lookup name

/-- What `ServeHTTP` does to the world, in order: the line it logs
(`p.Log`), an answer through `http.Error(w, error, code)`, a look-up
`GetGroup(name)`, `w.Header().Set(key, value)` and `w.Write(body)`. -/
inductive Effect where
  | log (method path : String)
  | httpError (error : String) (code : Nat)
  | getGroup (name : String)
  | setHeader (key value : String)
  | write (body : String)
deriving DecidableEq, Repr

/-- How a call of `ServeHTTP` ends: it returns, it panics with a message, or
it does not return because `group.Get` does not. -/
inductive Outcome where
  | returned
  | panicked (message : String)
  | noReturn
deriving DecidableEq, Repr

/-- A call of `ServeHTTP` as seen from outside: its effects in order, how it
ends, and the directory of the groups afterwards. -/
structure Served where
  effects : List Effect
  outcome : Outcome
  groups : List (String × Group)

/-- The method `HTTPPool.ServeHTTP(w, req)` for a request with method `method`
and path `path` (`req.URL.Path`). `Marshal` is the library function
`proto.Marshal` on a response. The two index expressions `parts[0]` and
`parts[1]` panic when the index is out of range; the `if` before them answers
400 and, having no `return`, goes on. -/
def HTTPPool.ServeHTTP (fuel : Nat) (Marshal : pb.Response → Except String String)
    (p : HTTPPool) (groups : List (String × Group)) (method path : String) : Served :=
  if ¬ strings.HasPrefix path p.basePath then
    ⟨[], .panicked ("HTTPPool serving unexpected path: " ++ path), groups⟩
  else
    let parts := strings.SplitN (String.mk (path.data.drop p.basePath.length)) '/' 2
    let w := [Effect.log method path] ++
      (if parts.length ≠ 2 then [Effect.httpError "bad request" 400] else [])
    match parts with
    | [] => ⟨w, .panicked "runtime error: index out of range [0] with length 0", groups⟩
    | [_] => ⟨w, .panicked "runtime error: index out of range [1] with length 1", groups⟩
    | groupName :: key :: _ =>
      match GetGroup groups groupName with
      | none =>
        ⟨w ++ [Effect.getGroup groupName,
            Effect.httpError ("no such group: " ++ groupName) 404], .returned, groups⟩
      | some group =>
        match group.Get fuel key with
        | none => ⟨w ++ [Effect.getGroup groupName], .noReturn, groups⟩
        | some (.error err, g1) =>
          ⟨w ++ [Effect.getGroup groupName, Effect.httpError err 500], .returned,
            gomap.set groups groupName g1⟩
        | some (.ok view, g1) =>
          match Marshal ⟨view⟩ with
          | .error err =>
            ⟨w ++ [Effect.getGroup groupName, Effect.httpError err 500,
                Effect.setHeader "Content-Type" "application/octet-stream", Effect.write ""],
              .returned, gomap.set groups groupName g1⟩
          | .ok body =>
            ⟨w ++ [Effect.getGroup groupName,
                Effect.setHeader "Content-Type" "application/octet-stream", Effect.write body],
              .returned, gomap.set groups groupName g1⟩

end distributedCache
namespace lru

theorem lookup_cons_ne (m : List (String × Nat)) (k a : String) (b : Nat) (h : k ≠ a) :
    List.lookup k ((a, b) :: m) = List.lookup k m := by
  have : (k == a) = false := by simpa using h
  simp [List.lookup_cons, this]

theorem lookup_cons_self (m : List (String × Nat)) (k : String) (b : Nat) :
    List.lookup k ((k, b) :: m) = some b := by
  simp [List.lookup_cons]

theorem lookup_mapDelete (m : List (String × Nat)) (k key : String) :
    (mapDelete m key).lookup k = if k = key then none else m.lookup k := by
  induction m with
  | nil => simp [mapDelete]
  | cons p m ih =>
    obtain ⟨a, b⟩ := p
    by_cases hak : a = key
    · have hf : mapDelete ((a, b) :: m) key = mapDelete m key := by
        simp [mapDelete, List.filter_cons, hak]
      rw [hf, ih]
      by_cases hk : k = key
      · simp [hk]
      · rw [if_neg hk, if_neg hk, lookup_cons_ne _ _ _ _ (by rw [hak]; exact hk)]
    · have hf : mapDelete ((a, b) :: m) key = (a, b) :: mapDelete m key := by
        simp [mapDelete, List.filter_cons, hak]
      rw [hf]
      by_cases hka : k = a
      · subst hka
        rw [lookup_cons_self, if_neg hak, lookup_cons_self]
      · rw [lookup_cons_ne _ _ _ _ hka, ih, lookup_cons_ne _ _ _ _ hka]

theorem lookup_mapSet (m : List (String × Nat)) (k key : String) (e : Nat) :
    (mapSet m key e).lookup k = if k = key then some e else m.lookup k := by
  unfold mapSet
  by_cases hk : k = key
  · subst hk; rw [lookup_cons_self, if_pos rfl]
  · rw [lookup_cons_ne _ _ _ _ hk, lookup_mapDelete, if_neg hk, if_neg hk]

theorem lookup_isSome_iff (m : List (String × Nat)) (k : String) :
    (∃ e, m.lookup k = some e) ↔ k ∈ m.map Prod.fst := by
  induction m with
  | nil => simp
  | cons p m ih =>
    obtain ⟨a, b⟩ := p
    by_cases hka : k = a
    · subst hka; simp [lookup_cons_self]
    · rw [lookup_cons_ne _ _ _ _ hka, ih]; simp [hka]

theorem mapDelete_keys (m : List (String × Nat)) (key : String) :
    (mapDelete m key).map Prod.fst = (m.map Prod.fst).filter (fun k => k != key) := by
  induction m with
  | nil => rfl
  | cons p m ih =>
    unfold mapDelete at ih ⊢
    by_cases h : p.1 = key <;> simp [List.filter_cons, h, ih]

theorem mem_MoveToBack (l : List Nat) (e x : Nat) : x ∈ MoveToBack l e ↔ x ∈ l := by
  unfold MoveToBack
  split
  · rename_i h
    have := (List.perm_cons_erase h).mem_iff (a := x)
    simp only [List.mem_append, List.mem_singleton, List.mem_cons] at this ⊢
    tauto
  · rfl

theorem perm_MoveToBack (l : List Nat) (e : Nat) : (MoveToBack l e).Perm l := by
  unfold MoveToBack
  split
  · rename_i h
    exact (List.perm_append_comm.trans (List.perm_cons_erase h).symm)
  · exact List.Perm.refl _

theorem Remove_nil (c : CacheLRU) (h : c.ll = []) : c.Remove = c := by
  simp [CacheLRU.Remove, h]

theorem Remove_cons (c : CacheLRU) (e : Nat) (rest : List Nat) (h : c.ll = e :: rest) :
    c.Remove =
      { c with
        ll := rest
        cacheMap := mapDelete c.cacheMap (c.mem e).key
        nbytes := c.nbytes - (c.mem e).size
        calls := if c.OnEvicted then
            c.calls ++ [⟨(c.mem e).key, (c.mem e).value,
              (mapDelete c.cacheMap (c.mem e).key).map Prod.fst, rest.length⟩]
          else c.calls } := by
  simp [CacheLRU.Remove, h, node.size]

theorem Inv_New (maxBytes : Int) (cb : Bool) : Inv (New maxBytes cb) := by
  constructor <;> simp [New]

theorem Inv_Find (c : CacheLRU) (key : String) (h : Inv c) : Inv (c.Find key).1 := by
  unfold CacheLRU.Find
  split
  · rename_i elem _
    exact
      { nodup := (perm_MoveToBack c.ll elem).nodup_iff.2 h.nodup
        fresh := fun e he => h.fresh e ((mem_MoveToBack _ _ _).1 he)
        index := fun k e hk =>
          ⟨(mem_MoveToBack _ _ _).2 (h.index k e hk).1, (h.index k e hk).2⟩
        listed := fun e he => h.listed e ((mem_MoveToBack _ _ _).1 he)
        mapNodup := h.mapNodup }
  · exact h

theorem Inv_Remove (c : CacheLRU) (h : Inv c) : Inv c.Remove := by
  cases hl : c.ll with
  | nil => rw [Remove_nil c hl]; exact h
  | cons e rest =>
    rw [Remove_cons c e rest hl]
    have hnd : e ∉ rest ∧ rest.Nodup := by
      have := h.nodup; rw [hl] at this; exact List.nodup_cons.1 this
    have hmem : ∀ x ∈ rest, x ∈ c.ll := fun x hx => by rw [hl]; exact List.mem_cons_of_mem _ hx
    have hkey : ∀ x ∈ rest, (c.mem x).key ≠ (c.mem e).key := by
      intro x hx heq
      have h1 := h.listed x (hmem x hx)
      have h2 := h.listed e (by rw [hl]; exact List.mem_cons_self _ _)
      rw [heq, h2] at h1
      exact hnd.1 (by cases h1; exact hx)
    exact
      { nodup := hnd.2
        fresh := fun x hx => h.fresh x (hmem x hx)
        index := by
          intro k x hk
          simp only [lookup_mapDelete] at hk
          split at hk
          · cases hk
          · rename_i hne
            obtain ⟨hx, hxk⟩ := h.index k x hk
            refine ⟨?_, hxk⟩
            rw [hl] at hx
            rcases List.mem_cons.1 hx with rfl | hx
            · exact absurd hxk.symm hne
            · exact hx
        listed := by
          intro x hx
          simp only [lookup_mapDelete, if_neg (hkey x hx)]
          exact h.listed x (hmem x hx)
        mapNodup := by
          simp only [mapDelete_keys]
          exact h.mapNodup.filter _ }

theorem store_hit (c : CacheLRU) (key : String) (value : Value) (elem : Nat)
    (h : c.cacheMap.lookup key = some elem) :
    c.store key value =
      { c with
        ll := MoveToBack c.ll elem
        nbytes := c.nbytes + (c.mem elem).size
        mem := Function.update c.mem elem ⟨(c.mem elem).key, value⟩ } := by
  simp [CacheLRU.store, h, node.size]

theorem store_miss (c : CacheLRU) (key : String) (value : Value)
    (h : c.cacheMap.lookup key = none) :
    c.store key value =
      { c with
        ll := c.ll ++ [c.next]
        mem := Function.update c.mem c.next ⟨key, value⟩
        next := c.next + 1
        cacheMap := mapSet c.cacheMap key c.next
        nbytes := c.nbytes + (len key + value.Len) } := by
  simp [CacheLRU.store, h]

theorem update_key (mem : Nat → node) (elem x : Nat) (value : Value) :
    (Function.update mem elem ⟨(mem elem).key, value⟩ x).key = (mem x).key := by
  by_cases hx : x = elem
  · subst hx; simp
  · simp [Function.update_noteq hx]

theorem Inv_store (c : CacheLRU) (key : String) (value : Value) (h : Inv c) :
    Inv (c.store key value) := by
  cases hl : c.cacheMap.lookup key with
  | some elem =>
    rw [store_hit c key value elem hl]
    exact
      { nodup := (perm_MoveToBack c.ll elem).nodup_iff.2 h.nodup
        fresh := fun e he => h.fresh e ((mem_MoveToBack _ _ _).1 he)
        index := fun k e hk => by
          refine ⟨(mem_MoveToBack _ _ _).2 (h.index k e hk).1, ?_⟩
          simp only [update_key]
          exact (h.index k e hk).2
        listed := fun e he => by
          simp only [update_key]
          exact h.listed e ((mem_MoveToBack _ _ _).1 he)
        mapNodup := h.mapNodup }
  | none =>
    rw [store_miss c key value hl]
    have hne : ∀ e ∈ c.ll, e ≠ c.next := fun e he => Nat.ne_of_lt (h.fresh e he)
    exact
      { nodup := by
          refine List.Nodup.append h.nodup (List.nodup_singleton _) ?_
          intro x hx hx2
          rw [List.mem_singleton] at hx2
          exact hne x hx hx2
        fresh := by
          intro e he
          rcases List.mem_append.1 he with he | he
          · exact Nat.lt_succ_of_lt (h.fresh e he)
          · rw [List.mem_singleton] at he; subst he; exact Nat.lt_succ_self _
        index := by
          intro k e hk
          simp only [lookup_mapSet] at hk
          split at hk
          · rename_i hkk
            cases hk
            exact ⟨List.mem_append_right _ (List.mem_singleton_self _), by simp [hkk]⟩
          · obtain ⟨he, hek⟩ := h.index k e hk
            refine ⟨List.mem_append_left _ he, ?_⟩
            simp only [Function.update_noteq (hne e he)]
            exact hek
        listed := by
          intro e he
          rcases List.mem_append.1 he with he | he
          · simp only [Function.update_noteq (hne e he), lookup_mapSet]
            have := h.listed e he
            rw [if_neg]
            · exact this
            · intro heq; rw [heq, hl] at this; cases this
          · rw [List.mem_singleton] at he; subst he
            simp [lookup_mapSet]
        mapNodup := by
          simp only [mapSet, List.map_cons, mapDelete_keys]
          refine List.nodup_cons.2 ⟨?_, h.mapNodup.filter _⟩
          simp }

theorem evict_zero_of_not (c : CacheLRU) (fuel : Nat)
    (h : ¬ (c.maxBytes ≠ 0 ∧ c.maxBytes < c.nbytes)) : c.evict fuel = some c := by
  unfold CacheLRU.evict
  rw [if_neg h]

theorem evict_succ (c : CacheLRU) (fuel : Nat)
    (h : c.maxBytes ≠ 0 ∧ c.maxBytes < c.nbytes) :
    c.evict (fuel + 1) = c.Remove.evict fuel := by
  conv => lhs; unfold CacheLRU.evict
  rw [if_pos h]

theorem evict_none_zero (c : CacheLRU)
    (h : c.maxBytes ≠ 0 ∧ c.maxBytes < c.nbytes) : c.evict 0 = none := by
  unfold CacheLRU.evict
  rw [if_pos h]

/-- Once the list is empty and the loop condition holds, the loop never ends. -/
theorem evict_diverges (c : CacheLRU) (hl : c.ll = [])
    (h : c.maxBytes ≠ 0 ∧ c.maxBytes < c.nbytes) (fuel : Nat) : c.evict fuel = none := by
  induction fuel with
  | zero => exact evict_none_zero c h
  | succ n ih => rw [evict_succ c n h, Remove_nil c hl]; exact ih

theorem Evicts_zero (c : CacheLRU) : Evicts c c 0 := by
  constructor <;> simp [evictCalls]

theorem Evicts_succ (c c1 : CacheLRU) (e : Nat) (rest : List Nat) (n : Nat)
    (hl : c.ll = e :: rest) (h : Evicts c.Remove c1 n) : Evicts c c1 (n + 1) := by
  rw [Remove_cons c e rest hl] at h
  obtain ⟨h1, h2, h3, h4, h5, h6, h7, h8⟩ := h
  simp only at h1 h2 h3 h4 h5 h6 h7 h8
  constructor
  · rw [hl]; simpa using h1
  · rw [hl]; simpa using h2
  · exact h3
  · exact h4
  · exact h5
  · exact h6
  · rw [h7, hl]; simp [h3]; ring
  · rw [h8, hl]
    cases hcb : c.OnEvicted <;> simp [evictCalls]

/-- The loop of `Add`, when it ends, has evicted some number of front elements
and stopped on a false loop condition. -/
theorem evict_spec (fuel : Nat) (c c1 : CacheLRU) (h : c.evict fuel = some c1) :
    ∃ n, n ≤ fuel ∧ Evicts c c1 n ∧ ¬ (c1.maxBytes ≠ 0 ∧ c1.maxBytes < c1.nbytes) := by
  induction fuel generalizing c with
  | zero =>
    by_cases hc : c.maxBytes ≠ 0 ∧ c.maxBytes < c.nbytes
    · rw [evict_none_zero c hc] at h; cases h
    · rw [evict_zero_of_not c 0 hc] at h; cases h
      exact ⟨0, Nat.le_refl _, Evicts_zero _, hc⟩
  | succ fuel ih =>
    by_cases hc : c.maxBytes ≠ 0 ∧ c.maxBytes < c.nbytes
    · cases hl : c.ll with
      | nil => rw [evict_diverges c hl hc] at h; cases h
      | cons e rest =>
        rw [evict_succ c fuel hc] at h
        obtain ⟨n, hn, hev, hstop⟩ := ih c.Remove h
        exact ⟨n + 1, Nat.succ_le_succ hn, Evicts_succ c c1 e rest n hl hev, hstop⟩
    · rw [evict_zero_of_not c _ hc] at h; cases h
      exact ⟨0, Nat.zero_le _, Evicts_zero _, hc⟩

theorem Inv_evict (fuel : Nat) (c c1 : CacheLRU) (hi : Inv c) (h : c.evict fuel = some c1) :
    Inv c1 := by
  induction fuel generalizing c with
  | zero =>
    by_cases hc : c.maxBytes ≠ 0 ∧ c.maxBytes < c.nbytes
    · rw [evict_none_zero c hc] at h; cases h
    · rw [evict_zero_of_not c 0 hc] at h; cases h; exact hi
  | succ fuel ih =>
    by_cases hc : c.maxBytes ≠ 0 ∧ c.maxBytes < c.nbytes
    · rw [evict_succ c fuel hc] at h
      exact ih c.Remove (Inv_Remove c hi) h
    · rw [evict_zero_of_not c _ hc] at h; cases h; exact hi

theorem Inv_Add (fuel : Nat) (c c1 : CacheLRU) (key : String) (value : Value) (hi : Inv c)
    (h : c.Add fuel key value = some c1) : Inv c1 :=
  Inv_evict fuel _ c1 (Inv_store c key value hi) h

theorem Inv_step (fuel : Nat) (c c1 : CacheLRU) (op : Op) (hi : Inv c)
    (h : step fuel c op = some c1) : Inv c1 := by
  cases op with
  | add key value => exact Inv_Add fuel c c1 key value hi h
  | find key => simp only [step, Option.some.injEq] at h; rw [← h]; exact Inv_Find c key hi

theorem Inv_run (fuel : Nat) (c c1 : CacheLRU) (ops : List Op) (hi : Inv c)
    (h : run fuel c ops = some c1) : Inv c1 := by
  induction ops generalizing c with
  | nil => simp only [run, Option.some.injEq] at h; rw [← h]; exact hi
  | cons op ops ih =>
    simp only [run] at h
    cases hs : step fuel c op with
    | none => rw [hs] at h; cases h
    | some c2 => rw [hs] at h; exact ih c2 (Inv_step fuel c c2 op hi hs) h

/-- If the loop condition holds and one eviction empties the list while the
condition still holds, `Add`'s loop never ends. -/
theorem evict_diverges_after_one (c : CacheLRU)
    (h : c.maxBytes ≠ 0 ∧ c.maxBytes < c.nbytes) (hl : c.Remove.ll = [])
    (h1 : c.Remove.maxBytes ≠ 0 ∧ c.Remove.maxBytes < c.Remove.nbytes) (fuel : Nat) :
    c.evict fuel = none := by
  cases fuel with
  | zero => exact evict_none_zero c h
  | succ n => rw [evict_succ c n h]; exact evict_diverges _ hl h1 n

/-- C1 (the code breaks the claim): on a cache of capacity 10, `Add("k", "v")`
twice leaves the single entry `("k", "v")`, of 2 bytes, resident, while
`nbytes` is 4: the second `Add`, on a resident key with a value of the same
length, should change `nbytes` by 0 and adds `len(key) + old.Len()`. -/
theorem add_resident_key_breaks_accounting :
    (run 0 (New 10 false) [.add "k" "v", .add "k" "v"]).map
        (fun c => (c.entries, c.residentBytes, c.nbytes)) =
      some ([⟨"k", "v"⟩], 2, 4) := by
  decide

/-- C2 (the code breaks the claim): `Add` does not always return. On a cache
of capacity 10, `Add("k", "vvvvvvvv")` followed by `Add("k", "")` never
returns, whatever the number of iterations allowed: the second `Add` raises
`nbytes` to 18, the only entry is evicted, `nbytes` is 17 and the loop goes on
calling `Remove` on the empty list. The same happens with a negative capacity:
on `New(-1)`, `Add("a", "b")` never returns. -/
theorem add_does_not_return (fuel : Nat) :
    run fuel (New 10 false) [.add "k" "vvvvvvvv", .add "k" ""] = none ∧
      run fuel (New (-1) false) [.add "a" "b"] = none := by
  constructor
  · have h1 : step fuel (New 10 false) (.add "k" "vvvvvvvv") =
        some ((New 10 false).store "k" "vvvvvvvv") :=
      evict_zero_of_not _ fuel (by decide)
    have h2 : step fuel ((New 10 false).store "k" "vvvvvvvv") (.add "k" "") = none :=
      evict_diverges_after_one _ (by decide) (by decide) (by decide) fuel
    simp [run, h1, h2]
  · have h1 : step fuel (New (-1) false) (.add "a" "b") = none :=
      evict_diverges_after_one _ (by decide) (by decide) (by decide) fuel
    simp [run, h1]

theorem size_nonneg (kv : node) : 0 ≤ kv.size := by
  unfold node.size len Value.Len
  positivity

theorem residentBytes_eq (c : CacheLRU) :
    c.residentBytes = ((c.ll.map c.mem).map node.size).sum := rfl

theorem evict_mono (fuel fuel1 : Nat) (c c1 : CacheLRU) (h : c.evict fuel = some c1)
    (hle : fuel ≤ fuel1) : c.evict fuel1 = some c1 := by
  induction fuel generalizing c fuel1 with
  | zero =>
    by_cases hc : c.maxBytes ≠ 0 ∧ c.maxBytes < c.nbytes
    · rw [evict_none_zero c hc] at h; cases h
    · rw [evict_zero_of_not c 0 hc] at h; rw [evict_zero_of_not c _ hc]; exact h
  | succ fuel ih =>
    by_cases hc : c.maxBytes ≠ 0 ∧ c.maxBytes < c.nbytes
    · obtain ⟨m, rfl⟩ : ∃ m, fuel1 = m + 1 := ⟨fuel1 - 1, by omega⟩
      rw [evict_succ c fuel hc] at h
      rw [evict_succ c m hc]
      exact ih m c.Remove h (by omega)
    · rw [evict_zero_of_not c _ hc] at h; rw [evict_zero_of_not c _ hc]; exact h

/-- When `nbytes` is the sum of the resident sizes and the capacity is not
negative, the loop of `Add` ends within as many iterations as the list has
elements. -/
theorem evict_terminates (c : CacheLRU) (hx : c.nbytes = c.residentBytes)
    (hmax : 0 ≤ c.maxBytes) : ∃ c1, c.evict c.ll.length = some c1 := by
  generalize hn : c.ll.length = n
  induction n generalizing c with
  | zero =>
    have hl : c.ll = [] := List.length_eq_zero.1 hn
    have : ¬ (c.maxBytes ≠ 0 ∧ c.maxBytes < c.nbytes) := by
      rw [hx, residentBytes_eq, hl]
      simp only [List.map_nil, List.sum_nil]
      omega
    exact ⟨c, evict_zero_of_not c 0 this⟩
  | succ n ih =>
    by_cases hc : c.maxBytes ≠ 0 ∧ c.maxBytes < c.nbytes
    · cases hl : c.ll with
      | nil => rw [hl] at hn; cases hn
      | cons e rest =>
        rw [evict_succ c n hc]
        apply ih
        · rw [Remove_cons c e rest hl, residentBytes_eq]
          simp only
          rw [hx, residentBytes_eq, hl]
          simp
        · rw [Remove_cons c e rest hl]; exact hmax
        · rw [Remove_cons c e rest hl]; rw [hl] at hn; simpa using hn
    · exact ⟨c, evict_zero_of_not c _ hc⟩

theorem store_miss_residentBytes (c : CacheLRU) (key : String) (value : Value) (hi : Inv c)
    (hnew : c.cacheMap.lookup key = none) :
    (c.store key value).residentBytes = c.residentBytes + (len key + value.Len) := by
  rw [store_miss c key value hnew, residentBytes_eq, residentBytes_eq]
  simp only [List.map_append, List.map_cons, List.map_nil, List.sum_append, List.sum_cons,
    List.sum_nil, Function.update_same, add_zero]
  have : c.ll.map (Function.update c.mem c.next ⟨key, value⟩) = c.ll.map c.mem := by
    apply List.map_congr_left
    intro e he
    exact Function.update_noteq (Nat.ne_of_lt (hi.fresh e he)) _ _
  rw [this]
  rfl

theorem sum_take_add_sum_drop (l : List Int) (n : Nat) :
    (l.take n).sum + (l.drop n).sum = l.sum := by
  rw [← List.sum_append, List.take_append_drop]

theorem Find_none_of_empty (c : CacheLRU) (key : String) (hi : Inv c) (hl : c.ll = []) :
    (c.Find key).2 = none := by
  cases hk : c.cacheMap.lookup key with
  | none => simp [CacheLRU.Find, hk]
  | some e =>
    have := (hi.index key e hk).1
    rw [hl] at this
    cases this

/-- What is left of `nbytes` after `n` evictions, when it was exact before:
the sizes of the elements that stay. -/
theorem Evicts_nbytes (c c1 : CacheLRU) (n : Nat) (hx : c.nbytes = c.residentBytes)
    (h : Evicts c c1 n) : c1.nbytes = (((c.ll.drop n).map c.mem).map node.size).sum := by
  rw [h.nbytes, hx, residentBytes_eq]
  have := sum_take_add_sum_drop ((c.ll.map c.mem).map node.size) n
  simp only [List.map_take, List.map_drop] at this ⊢
  omega

/-- C3 (the counterexample): on a cache of capacity 5, `Add("key1", "123456")`
inserts a new entry of 10 bytes; when `Add` returns the entry count is 0 and
`Find("key1")` finds nothing. -/
theorem oversized_entry_is_evicted :
    (0 : Int) < (New 5 false).maxBytes ∧
      (New 5 false).cacheMap.lookup "key1" = none ∧
      (New 5 false).maxBytes < len "key1" + Value.Len "123456" ∧
      ((New 5 false).Add 1 "key1" "123456").map
        (fun c => (c.GetRecord, (c.Find "key1").2)) = some (0, none) := by
  decide

/-- C3 (as amended): on a cache with a positive capacity, a consistent index
and an exact `nbytes`, `Add` of a key that is not resident with
`len(key) + value.Len() > maxBytes` returns (its loop needs at most one
iteration per element) and has evicted every entry, the new one included: the
entry count is 0, `Find(key)` finds nothing and `nbytes` is 0. -/
theorem add_oversized_evicts_all (c : CacheLRU) (key : String) (value : Value) (fuel : Nat)
    (hi : Inv c) (hx : c.nbytes = c.residentBytes) (hmax : 0 < c.maxBytes)
    (hnew : c.cacheMap.lookup key = none) (hbig : c.maxBytes < len key + value.Len)
    (hfuel : c.ll.length + 1 ≤ fuel) :
    ∃ c1, c.Add fuel key value = some c1 ∧ c1.GetRecord = 0 ∧
      (c1.Find key).2 = none ∧ c1.nbytes = 0 := by
  have hsx : (c.store key value).nbytes = (c.store key value).residentBytes := by
    rw [store_miss_residentBytes c key value hi hnew, ← hx, store_miss c key value hnew]
  have hsl : (c.store key value).ll = c.ll ++ [c.next] := by
    rw [store_miss c key value hnew]
  have hsm : (c.store key value).maxBytes = c.maxBytes := by
    rw [store_miss c key value hnew]
  have hsn : (c.store key value).mem c.next = ⟨key, value⟩ := by
    rw [store_miss c key value hnew]; simp
  obtain ⟨c1, h1⟩ := evict_terminates (c.store key value) hsx (by rw [hsm]; omega)
  have hadd : c.Add fuel key value = some c1 :=
    evict_mono _ fuel _ c1 h1 (by rw [hsl]; simpa using hfuel)
  obtain ⟨n, -, hev, hstop⟩ := evict_spec _ _ _ h1
  have hnb := Evicts_nbytes _ _ _ hsx hev
  have hle : c1.nbytes ≤ c.maxBytes := by
    rw [hev.maxBytes, hsm] at hstop
    by_contra hlt
    exact hstop ⟨by omega, by omega⟩
  have hn : n = (c.store key value).ll.length := by
    by_contra hne
    have hlt : n ≤ c.ll.length := by
      have := hev.le
      rw [hsl] at this hne
      simp only [List.length_append, List.length_singleton] at this hne
      omega
    rw [hsl, List.drop_append_of_le_length hlt] at hnb
    simp only [List.map_append, List.map_cons, List.map_nil, List.sum_append, List.sum_cons,
      List.sum_nil, add_zero, hsn] at hnb
    have hnonneg : 0 ≤ (((c.ll.drop n).map (c.store key value).mem).map node.size).sum :=
      List.sum_nonneg (by
        intro x hx
        simp only [List.mem_map] at hx
        obtain ⟨kv, -, rfl⟩ := hx
        exact size_nonneg kv)
    have : node.size ⟨key, value⟩ = len key + value.Len := rfl
    omega
  have hl1 : c1.ll = [] := by rw [hev.ll, hn]; simp
  refine ⟨c1, hadd, ?_, ?_, ?_⟩
  · simp [CacheLRU.GetRecord, hl1]
  · exact Find_none_of_empty c1 key (Inv_evict _ _ _ (Inv_store c key value hi) h1) hl1
  · rw [hnb, hn]; simp

/-- C3 (as amended), on the empty cache of capacity 5 and the entry
`("key1", "123456")`. -/
theorem add_oversized_evicts_all_witness :
    ∃ c1, (New 5 false).Add 1 "key1" "123456" = some c1 ∧ c1.GetRecord = 0 ∧
      (c1.Find "key1").2 = none ∧ c1.nbytes = 0 :=
  add_oversized_evicts_all (New 5 false) "key1" "123456" 1 (Inv_New 5 false) (by decide)
    (by decide) (by decide) (by decide) (by decide)

/-- C4: on a cache with a positive capacity, every `Add` that returns leaves
`nbytes <= maxBytes` (whether or not the entry just inserted is by itself
larger than `maxBytes`); and `Add` does return, within one iteration per
element, when the index is consistent, `nbytes` is exact and the key is not
resident, `nbytes` then being exact again. -/
theorem add_capacity_bound (c : CacheLRU) (key : String) (value : Value)
    (hmax : 0 < c.maxBytes) :
    (∀ fuel c1, c.Add fuel key value = some c1 →
        c1.maxBytes = c.maxBytes ∧ c1.nbytes ≤ c1.maxBytes) ∧
      (Inv c → c.nbytes = c.residentBytes → c.cacheMap.lookup key = none →
        ∃ c1, c.Add (c.ll.length + 1) key value = some c1 ∧ c1.nbytes ≤ c1.maxBytes ∧
          c1.nbytes = c1.residentBytes) := by
  have hsm : (c.store key value).maxBytes = c.maxBytes := by
    unfold CacheLRU.store; split <;> rfl
  have hbound : ∀ fuel c1, c.Add fuel key value = some c1 →
      c1.maxBytes = c.maxBytes ∧ c1.nbytes ≤ c1.maxBytes := by
    intro fuel c1 h
    obtain ⟨n, -, hev, hstop⟩ := evict_spec _ _ _ h
    have hm : c1.maxBytes = c.maxBytes := by rw [hev.maxBytes, hsm]
    refine ⟨hm, ?_⟩
    by_contra hlt
    exact hstop ⟨by omega, by omega⟩
  refine ⟨hbound, ?_⟩
  intro hi hx hnew
  have hsx : (c.store key value).nbytes = (c.store key value).residentBytes := by
    rw [store_miss_residentBytes c key value hi hnew, ← hx, store_miss c key value hnew]
  have hsl : (c.store key value).ll.length = c.ll.length + 1 := by
    rw [store_miss c key value hnew]; simp
  obtain ⟨c1, h1⟩ := evict_terminates (c.store key value) hsx (by rw [hsm]; omega)
  rw [hsl] at h1
  refine ⟨c1, h1, (hbound _ c1 h1).2, ?_⟩
  obtain ⟨n, -, hev, -⟩ := evict_spec _ _ _ h1
  rw [Evicts_nbytes _ _ _ hsx hev, residentBytes_eq, hev.ll, hev.mem]

/-- C4 on the cache of the test `TestOnEvicted`: capacity 10 and the entry
`("key1", "123456")`. -/
theorem add_capacity_bound_witness :
    ∃ c1, (New 10 true).Add 1 "key1" "123456" = some c1 ∧ c1.nbytes ≤ c1.maxBytes ∧
      c1.nbytes = c1.residentBytes :=
  (add_capacity_bound (New 10 true) "key1" "123456" (by decide)).2 (Inv_New 10 true)
    (by decide) (by decide)

theorem lastUse_le (us : List (Option String)) (k : String) : lastUse us k ≤ us.length := by
  induction us with
  | nil => simp [lastUse]
  | cons u us ih =>
    simp only [lastUse, List.length_cons]
    split
    · omega
    · split <;> omega

theorem lastUse_snoc (us : List (Option String)) (u : Option String) (k : String) :
    lastUse (us ++ [u]) k = if u = some k then us.length + 1 else lastUse us k := by
  induction us with
  | nil => simp [lastUse]
  | cons a us ih =>
    have hc : lastUse (a :: (us ++ [u])) k =
        if lastUse (us ++ [u]) k ≠ 0 then lastUse (us ++ [u]) k + 1
        else if a = some k then 1 else 0 := rfl
    have hd : lastUse (a :: us) k =
        if lastUse us k ≠ 0 then lastUse us k + 1 else if a = some k then 1 else 0 := rfl
    rw [List.cons_append, hc, hd, ih, List.length_cons]
    by_cases hu : u = some k
    · simp [hu]
    · simp [hu]

/-- Using `k` puts it last in the order by last use: if `l1` is what is left
of an ordered list of keys without `k`, then `l1 ++ [k]` is ordered after the
use. -/
theorem pairwise_touch (us : List (Option String)) (l l1 : List String) (k : String)
    (hp : l.Pairwise (fun a b => lastUse us a < lastUse us b)) (hsub : l1.Sublist l)
    (hk : k ∉ l1) :
    (l1 ++ [k]).Pairwise
      (fun a b => lastUse (us ++ [some k]) a < lastUse (us ++ [some k]) b) := by
  have hne : ∀ a ∈ l1, lastUse (us ++ [some k]) a = lastUse us a := by
    intro a ha
    rw [lastUse_snoc, if_neg]
    intro h
    cases h
    exact hk ha
  rw [List.pairwise_append]
  refine ⟨?_, List.pairwise_singleton _ _, ?_⟩
  · refine (hp.sublist hsub).imp_of_mem ?_
    intro a b ha hb hab
    rw [hne a ha, hne b hb]
    exact hab
  · intro a ha b hb
    rw [List.mem_singleton] at hb
    subst hb
    rw [hne a ha, lastUse_snoc, if_pos rfl]
    exact Nat.lt_succ_of_le (lastUse_le us a)

theorem pairwise_no_use (us : List (Option String)) (l : List String)
    (hp : l.Pairwise (fun a b => lastUse us a < lastUse us b)) :
    l.Pairwise (fun a b => lastUse (us ++ [none]) a < lastUse (us ++ [none]) b) := by
  refine hp.imp ?_
  intro a b hab
  simpa [lastUse_snoc] using hab

/-- The keys of the list once the element indexed under `k` was moved to the
back, the keys being read by any `f` that agrees with the memory on keys. -/
theorem keys_touch (c : CacheLRU) (hi : Inv c) (k : String) (e : Nat)
    (hk : c.cacheMap.lookup k = some e) (f : Nat → String) (hf : ∀ x, f x = (c.mem x).key) :
    (MoveToBack c.ll e).map f = (c.ll.erase e).map f ++ [k] ∧
      ((c.ll.erase e).map f).Sublist c.keys ∧ k ∉ (c.ll.erase e).map f := by
  obtain ⟨he, hek⟩ := hi.index k e hk
  have hfe : f = fun x => (c.mem x).key := funext hf
  refine ⟨?_, ?_, ?_⟩
  · simp [MoveToBack, he, hf, hek]
  · rw [hfe]; exact (List.erase_sublist e c.ll).map _
  · intro hmem
    obtain ⟨x, hx, hxk⟩ := List.mem_map.1 hmem
    obtain ⟨hxe, hxl⟩ := (hi.nodup.mem_erase_iff).1 hx
    have := hi.listed x hxl
    rw [← hf, hxk, hk] at this
    cases this
    exact hxe rfl

theorem keys_store_miss (c : CacheLRU) (hi : Inv c) (key : String) (value : Value)
    (hnew : c.cacheMap.lookup key = none) :
    (c.store key value).keys = c.keys ++ [key] ∧ key ∉ c.keys := by
  constructor
  · rw [store_miss c key value hnew]
    simp only [CacheLRU.keys, List.map_append, List.map_cons, List.map_nil,
      Function.update_same]
    congr 1
    apply List.map_congr_left
    intro e he
    rw [Function.update_noteq (Nat.ne_of_lt (hi.fresh e he))]
  · intro hmem
    obtain ⟨x, hx, hxk⟩ := List.mem_map.1 hmem
    have := hi.listed x hx
    rw [hxk, hnew] at this
    cases this

theorem Recency_store (us : List (Option String)) (c : CacheLRU) (key : String)
    (value : Value) (hi : Inv c) (hr : Recency us c) :
    Recency (us ++ [some key]) (c.store key value) := by
  unfold Recency at hr ⊢
  cases hl : c.cacheMap.lookup key with
  | some e =>
    obtain ⟨h1, h2, h3⟩ := keys_touch c hi key e hl
      (fun x => (Function.update c.mem e ⟨(c.mem e).key, value⟩ x).key)
      (fun x => update_key c.mem e x value)
    have hk : (c.store key value).keys =
        (c.ll.erase e).map
          (fun x => (Function.update c.mem e ⟨(c.mem e).key, value⟩ x).key) ++ [key] := by
      rw [store_hit c key value e hl]; exact h1
    rw [hk]
    exact pairwise_touch us c.keys _ key hr h2 h3
  | none =>
    obtain ⟨h1, h2⟩ := keys_store_miss c hi key value hl
    rw [h1]
    exact pairwise_touch us c.keys c.keys key hr (List.Sublist.refl _) h2

theorem Recency_Find (us : List (Option String)) (c : CacheLRU) (key : String)
    (hi : Inv c) (hr : Recency us c) :
    Recency (us ++ [useOf c (.find key)]) (c.Find key).1 := by
  unfold Recency at hr ⊢
  cases hl : c.cacheMap.lookup key with
  | some e =>
    obtain ⟨h1, h2, h3⟩ := keys_touch c hi key e hl (fun x => (c.mem x).key) (fun _ => rfl)
    have hk : (c.Find key).1.keys = (c.ll.erase e).map (fun x => (c.mem x).key) ++ [key] := by
      simp only [CacheLRU.Find, hl, CacheLRU.keys]; exact h1
    have hu : useOf c (.find key) = some key := by
      simp [useOf, CacheLRU.Find, hl]
    rw [hk, hu]
    exact pairwise_touch us c.keys _ key hr h2 h3
  | none =>
    have hk : (c.Find key).1 = c := by simp [CacheLRU.Find, hl]
    have hu : useOf c (.find key) = none := by
      simp [useOf, CacheLRU.Find, hl]
    rw [hk, hu]
    exact pairwise_no_use us c.keys hr

/-- Every eviction removes the front of the recency list. -/
theorem Remove_keys (c : CacheLRU) : c.Remove.keys = c.keys.tail := by
  cases hl : c.ll with
  | nil => rw [Remove_nil c hl]; simp [CacheLRU.keys, hl]
  | cons e rest => rw [Remove_cons c e rest hl]; simp [CacheLRU.keys, hl]

theorem iterate_Remove_keys (n : Nat) (c : CacheLRU) :
    (CacheLRU.Remove^[n] c).keys = c.keys.drop n := by
  induction n generalizing c with
  | zero => rfl
  | succ n ih =>
    rw [Function.iterate_succ_apply, ih, Remove_keys]
    cases c.keys <;> simp

/-- The loop of `Add`, when it ends, has called `Remove` some number of
times. -/
theorem evict_iterate (fuel : Nat) (c c1 : CacheLRU) (h : c.evict fuel = some c1) :
    ∃ n, n ≤ fuel ∧ c1 = CacheLRU.Remove^[n] c := by
  induction fuel generalizing c with
  | zero =>
    by_cases hc : c.maxBytes ≠ 0 ∧ c.maxBytes < c.nbytes
    · rw [evict_none_zero c hc] at h; cases h
    · rw [evict_zero_of_not c 0 hc] at h; cases h; exact ⟨0, Nat.le_refl _, rfl⟩
  | succ fuel ih =>
    by_cases hc : c.maxBytes ≠ 0 ∧ c.maxBytes < c.nbytes
    · rw [evict_succ c fuel hc] at h
      obtain ⟨n, hn, hc1⟩ := ih c.Remove h
      exact ⟨n + 1, Nat.succ_le_succ hn, by rw [Function.iterate_succ_apply]; exact hc1⟩
    · rw [evict_zero_of_not c _ hc] at h; cases h; exact ⟨0, Nat.zero_le _, rfl⟩

theorem Recency_evict (us : List (Option String)) (fuel : Nat) (c c1 : CacheLRU)
    (hr : Recency us c) (h : c.evict fuel = some c1) : Recency us c1 := by
  obtain ⟨n, -, rfl⟩ := evict_iterate fuel c c1 h
  unfold Recency at hr ⊢
  rw [iterate_Remove_keys]
  exact hr.sublist (List.drop_sublist n _)

theorem Recency_step (us : List (Option String)) (fuel : Nat) (c c1 : CacheLRU) (op : Op)
    (hi : Inv c) (hr : Recency us c) (hs : step fuel c op = some c1) :
    Recency (us ++ [useOf c op]) c1 := by
  cases op with
  | add key value =>
    exact Recency_evict _ fuel _ c1 (Recency_store us c key value hi hr) hs
  | find key =>
    simp only [step, Option.some.injEq] at hs
    rw [← hs]
    exact Recency_Find us c key hi hr

theorem run_snoc (fuel : Nat) (c : CacheLRU) (ops : List Op) (op : Op) :
    run fuel c (ops ++ [op]) = (run fuel c ops).bind (fun c1 => step fuel c1 op) := by
  induction ops generalizing c with
  | nil => simp [run]
  | cons o ops ih =>
    simp only [List.cons_append, run]
    cases step fuel c o with
    | none => rfl
    | some c2 => simpa using ih c2

theorem uses_snoc (fuel : Nat) (c c1 : CacheLRU) (ops : List Op) (op : Op)
    (h : run fuel c ops = some c1) :
    uses fuel c (ops ++ [op]) = uses fuel c ops ++ [useOf c1 op] := by
  induction ops generalizing c with
  | nil =>
    simp only [run, Option.some.injEq] at h
    subst h
    simp only [List.nil_append, uses]
    cases step fuel c op <;> rfl
  | cons o ops ih =>
    simp only [run] at h
    cases hs : step fuel c o with
    | none => rw [hs] at h; cases h
    | some c2 =>
      rw [hs] at h
      have hu : uses fuel c (o :: (ops ++ [op])) = useOf c o :: uses fuel c2 (ops ++ [op]) := by
        simp only [uses, hs]
      have hv : uses fuel c (o :: ops) = useOf c o :: uses fuel c2 ops := by
        simp only [uses, hs]
      rw [List.cons_append, hu, hv, ih c2 h, List.cons_append]

theorem run_snoc_some (fuel : Nat) (c c1 : CacheLRU) (ops : List Op) (op : Op)
    (h : run fuel c (ops ++ [op]) = some c1) :
    ∃ c2, run fuel c ops = some c2 ∧ step fuel c2 op = some c1 := by
  rw [run_snoc] at h
  cases hr : run fuel c ops with
  | none => rw [hr] at h; cases h
  | some c2 => rw [hr] at h; exact ⟨c2, rfl, h⟩

theorem Recency_run (fuel : Nat) (maxBytes : Int) (cb : Bool) (ops : List Op) (c : CacheLRU)
    (h : run fuel (New maxBytes cb) ops = some c) :
    Recency (uses fuel (New maxBytes cb) ops) c := by
  induction ops using List.reverseRecOn generalizing c with
  | nil =>
    simp only [run, Option.some.injEq] at h
    subst h
    simp [Recency, CacheLRU.keys, New]
  | append_singleton ops op ih =>
    obtain ⟨c2, h2, hs⟩ := run_snoc_some fuel _ c ops op h
    rw [uses_snoc fuel _ c2 ops op h2]
    exact Recency_step _ fuel c2 c op (Inv_run fuel _ c2 ops (Inv_New maxBytes cb) h2)
      (ih c2 h2) hs

theorem Evicts_iterate (n : Nat) (c : CacheLRU) (h : n ≤ c.ll.length) :
    Evicts c (CacheLRU.Remove^[n] c) n := by
  induction n generalizing c with
  | zero => exact Evicts_zero c
  | succ n ih =>
    cases hl : c.ll with
    | nil => rw [hl] at h; simp at h
    | cons e rest =>
      rw [Function.iterate_succ_apply]
      apply Evicts_succ c _ e rest n hl
      apply ih
      rw [Remove_cons c e rest hl]
      rw [hl] at h
      simpa using h

theorem iterate_Remove_of_length_le (n : Nat) (c : CacheLRU) (h : c.ll.length ≤ n) :
    CacheLRU.Remove^[n] c = CacheLRU.Remove^[c.ll.length] c := by
  obtain ⟨k, rfl⟩ := Nat.exists_eq_add_of_le h
  rw [Nat.add_comm, Function.iterate_add_apply]
  have hnil : (CacheLRU.Remove^[c.ll.length] c).ll = [] := by
    rw [(Evicts_iterate c.ll.length c (Nat.le_refl _)).ll]
    simp
  exact Function.iterate_fixed (Remove_nil _ hnil) k

/-- The loop condition after `n` evictions, for `n` up to the length of the
list, is the condition on the counter with the sizes of the `n` front entries
taken off. -/
theorem loop_condition_iterate (n : Nat) (c : CacheLRU) (h : n ≤ c.ll.length) :
    ((CacheLRU.Remove^[n] c).maxBytes ≠ 0 ∧
        (CacheLRU.Remove^[n] c).maxBytes < (CacheLRU.Remove^[n] c).nbytes) ↔
      (c.maxBytes ≠ 0 ∧ c.maxBytes < c.bytesAfter n) := by
  have he := Evicts_iterate n c h
  rw [he.maxBytes, he.nbytes]
  rfl

/-- The loop of `Add` returns exactly when, after some number `n` of calls of
`Remove` within the fuel, the loop condition fails for the first time; it then
returns the cache after these `n` calls. -/
theorem evict_iff_iterate (fuel : Nat) (c c1 : CacheLRU) :
    c.evict fuel = some c1 ↔
      ∃ n, n ≤ fuel ∧
        (∀ m, m < n → ((CacheLRU.Remove^[m] c).maxBytes ≠ 0 ∧
          (CacheLRU.Remove^[m] c).maxBytes < (CacheLRU.Remove^[m] c).nbytes)) ∧
        ¬ ((CacheLRU.Remove^[n] c).maxBytes ≠ 0 ∧
          (CacheLRU.Remove^[n] c).maxBytes < (CacheLRU.Remove^[n] c).nbytes) ∧
        c1 = CacheLRU.Remove^[n] c := by
  induction fuel generalizing c with
  | zero =>
    by_cases hc : c.maxBytes ≠ 0 ∧ c.maxBytes < c.nbytes
    · rw [evict_none_zero c hc]
      constructor
      · intro h; cases h
      · rintro ⟨n, hn, -, h2, -⟩
        have : n = 0 := by omega
        subst this
        exact absurd hc h2
    · rw [evict_zero_of_not c 0 hc]
      constructor
      · intro h
        cases h
        exact ⟨0, Nat.le_refl _, fun m hm => absurd hm (Nat.not_lt_zero m), hc, rfl⟩
      · rintro ⟨n, hn, -, -, h3⟩
        have : n = 0 := by omega
        subst this
        rw [h3]
        rfl
  | succ fuel ih =>
    by_cases hc : c.maxBytes ≠ 0 ∧ c.maxBytes < c.nbytes
    · rw [evict_succ c fuel hc, ih c.Remove]
      constructor
      · rintro ⟨n, hn, h1, h2, h3⟩
        refine ⟨n + 1, by omega, ?_, ?_, ?_⟩
        · intro m hm
          cases m with
          | zero => exact hc
          | succ m =>
            rw [Function.iterate_succ_apply]
            exact h1 m (by omega)
        · rw [Function.iterate_succ_apply]; exact h2
        · rw [Function.iterate_succ_apply]; exact h3
      · rintro ⟨n, hn, h1, h2, h3⟩
        cases n with
        | zero => exact absurd hc h2
        | succ n =>
          refine ⟨n, by omega, ?_, ?_, ?_⟩
          · intro m hm
            have := h1 (m + 1) (by omega)
            rw [Function.iterate_succ_apply] at this
            exact this
          · rw [Function.iterate_succ_apply] at h2; exact h2
          · rw [Function.iterate_succ_apply] at h3; exact h3
    · rw [evict_zero_of_not c _ hc]
      constructor
      · intro h
        cases h
        exact ⟨0, Nat.zero_le _, fun m hm => absurd hm (Nat.not_lt_zero m), hc, rfl⟩
      · rintro ⟨n, hn, h1, -, h3⟩
        cases n with
        | zero => rw [h3]; rfl
        | succ n => exact absurd (h1 0 (Nat.succ_pos n)) hc

/-- The loop of `Add` returns exactly when the counter, with the sizes of the
`n` front entries taken off, is within the capacity for the first time at some
`n` within the fuel and the length of the list; it then returns the cache
after `n` calls of `Remove`. -/
theorem evict_iff (fuel : Nat) (c c1 : CacheLRU) :
    c.evict fuel = some c1 ↔
      ∃ n, n ≤ fuel ∧ n ≤ c.ll.length ∧
        (∀ m, m < n → (c.maxBytes ≠ 0 ∧ c.maxBytes < c.bytesAfter m)) ∧
        ¬ (c.maxBytes ≠ 0 ∧ c.maxBytes < c.bytesAfter n) ∧
        c1 = CacheLRU.Remove^[n] c := by
  rw [evict_iff_iterate]
  constructor
  · rintro ⟨n, hn, h1, h2, h3⟩
    have hlen : n ≤ c.ll.length := by
      by_contra hlt
      have hlt : c.ll.length < n := by omega
      have h4 := h1 c.ll.length hlt
      rw [← iterate_Remove_of_length_le n c (by omega)] at h4
      exact h2 h4
    refine ⟨n, hn, hlen, ?_, ?_, h3⟩
    · intro m hm
      exact (loop_condition_iterate m c (by omega)).1 (h1 m hm)
    · intro h
      exact h2 ((loop_condition_iterate n c hlen).2 h)
  · rintro ⟨n, hn, hlen, h1, h2, h3⟩
    refine ⟨n, hn, ?_, ?_, h3⟩
    · intro m hm
      exact (loop_condition_iterate m c (by omega)).2 (h1 m hm)
    · intro h
      exact h2 ((loop_condition_iterate n c hlen).1 h)

/-- C5: after every sequence of `Add` and `Find` calls on a cache made by
`New`, the recency list is strictly ordered by last use (a `Find` hit, an
insertion or a replacement by `Add`), the least recently used key at the
front. A further `Add` first makes its key the most recently used one, the
list staying ordered by last use (with this use counted). Every eviction takes
the front of the list: `n` calls of `Remove` leave the keys but the first `n`,
and each of these `n` keys was last used before each key that is left. `Add`
returns exactly when the counter `nbytes`, with the sizes of the `n` front
entries taken off, is within the capacity for the first time at some `n` within
the fuel and the length of the list, and it returns the cache after these `n`
evictions, no fewer and no more. -/
theorem eviction_is_least_recently_used (maxBytes : Int) (cb : Bool) (fuel : Nat)
    (ops : List Op) (c : CacheLRU) (h : run fuel (New maxBytes cb) ops = some c) :
    c.keys.Pairwise (fun a b =>
        lastUse (uses fuel (New maxBytes cb) ops) a <
          lastUse (uses fuel (New maxBytes cb) ops) b) ∧
      ∀ key value,
        (c.store key value).keys.Pairwise (fun a b =>
            lastUse (uses fuel (New maxBytes cb) (ops ++ [.add key value])) a <
              lastUse (uses fuel (New maxBytes cb) (ops ++ [.add key value])) b) ∧
          (∀ n, (CacheLRU.Remove^[n] (c.store key value)).keys =
                (c.store key value).keys.drop n ∧
              ∀ a ∈ (c.store key value).keys.take n,
                ∀ b ∈ (CacheLRU.Remove^[n] (c.store key value)).keys,
                  lastUse (uses fuel (New maxBytes cb) (ops ++ [.add key value])) a <
                    lastUse (uses fuel (New maxBytes cb) (ops ++ [.add key value])) b) ∧
          ∀ c1, c.Add fuel key value = some c1 ↔
            ∃ n, n ≤ fuel ∧ n ≤ (c.store key value).ll.length ∧
              (∀ m, m < n → ((c.store key value).maxBytes ≠ 0 ∧
                (c.store key value).maxBytes < (c.store key value).bytesAfter m)) ∧
              ¬ ((c.store key value).maxBytes ≠ 0 ∧
                (c.store key value).maxBytes < (c.store key value).bytesAfter n) ∧
              c1 = CacheLRU.Remove^[n] (c.store key value) := by
  have hi := Inv_run fuel _ c ops (Inv_New maxBytes cb) h
  have hr := Recency_run fuel maxBytes cb ops c h
  refine ⟨hr, ?_⟩
  intro key value
  have hs : (c.store key value).keys.Pairwise (fun a b =>
      lastUse (uses fuel (New maxBytes cb) (ops ++ [.add key value])) a <
        lastUse (uses fuel (New maxBytes cb) (ops ++ [.add key value])) b) := by
    rw [uses_snoc fuel _ c ops (.add key value) h]
    exact Recency_store _ c key value hi hr
  refine ⟨hs, ?_, fun c1 => evict_iff fuel (c.store key value) c1⟩
  intro n
  refine ⟨iterate_Remove_keys n _, ?_⟩
  intro a ha b hb
  rw [iterate_Remove_keys] at hb
  rw [← List.take_append_drop n (c.store key value).keys, List.pairwise_append] at hs
  exact hs.2.2 a ha b hb

/-- C5 on `Add("key1")`, `Add("key2")`, `Find("key1")` with room for these two
entries only: the list is then `key2`, `key1`, ordered by last use. The call
`Add("k3", "v3")` that follows raises the counter to 24, above the capacity 20;
it returns after one eviction, which takes `key2`, the key that was used before
`key1` and `k3`. -/
theorem eviction_is_least_recently_used_witness :
    ∃ c, run 1 (New 20 false)
        [.add "key1" "value1", .add "key2" "value2", .find "key1"] = some c ∧
      c.keys = ["key2", "key1"] ∧
      (c.store "k3" "v3").bytesAfter 0 = 24 ∧ (c.store "k3" "v3").bytesAfter 1 = 14 ∧
      c.Add 1 "k3" "v3" = some (CacheLRU.Remove^[1] (c.store "k3" "v3")) ∧
      (CacheLRU.Remove^[1] (c.store "k3" "v3")).keys = ["key1", "k3"] ∧
      ∀ a ∈ ["key2"], ∀ b ∈ ["key1", "k3"],
        lastUse (uses 1 (New 20 false)
            ([.add "key1" "value1", .add "key2" "value2", .find "key1"] ++
              [.add "k3" "v3"])) a <
          lastUse (uses 1 (New 20 false)
            ([.add "key1" "value1", .add "key2" "value2", .find "key1"] ++
              [.add "k3" "v3"])) b :=
  ⟨((((New 20 false).store "key1" "value1").store "key2" "value2").Find "key1").1, rfl,
    by decide, by decide, by decide,
    (((eviction_is_least_recently_used 20 false 1
      [.add "key1" "value1", .add "key2" "value2", .find "key1"] _ rfl).2
        "k3" "v3").2.2 _).2 ⟨1, by decide, by decide, by decide, by decide, rfl⟩,
    by decide,
    (((eviction_is_least_recently_used 20 false 1
      [.add "key1" "value1", .add "key2" "value2", .find "key1"] _ rfl).2
        "k3" "v3").2.1 1).2⟩

/-- The test `TestCacheLRU_Remove`: with room for `key1` and `key2` only,
adding `k3` evicts `key1`. -/
theorem TestCacheLRU_Remove :
    (run 1 (New (len ("key1" ++ "key2" ++ "value1" ++ "value2")) false)
        [.add "key1" "value1", .add "key2" "value2", .add "k3" "v3"]).map
        (fun c => ((c.Find "key1").2, c.GetRecord, c.keys)) =
      some (none, 2, ["key2", "k3"]) := by
  decide

/-- A variant of `TestCacheLRU_Remove` with a `Find("key1")` before the third
`Add`: `key2` is then the least recently used key, and it is evicted. -/
theorem TestCacheLRU_Remove_after_Find :
    (run 1 (New (len ("key1" ++ "key2" ++ "value1" ++ "value2")) false)
        [.add "key1" "value1", .add "key2" "value2", .find "key1", .add "k3" "v3"]).map
        (fun c => ((c.Find "key2").2, c.GetRecord, c.keys)) =
      some (none, 2, ["key1", "k3"]) := by
  decide

theorem evictCalls_args (mem : Nat → node) (n : Nat) (l : List Nat) (m : List (String × Nat)) :
    (evictCalls mem n l m).map Evicted.args = (l.take n).map mem := by
  induction n generalizing l m with
  | zero => simp [evictCalls]
  | succ n ih =>
    cases l with
    | nil => simp [evictCalls]
    | cons e rest => simp [evictCalls, ih, Evicted.args]

theorem evictCalls_removed (mem : Nat → node) (n : Nat) (l : List Nat)
    (m : List (String × Nat)) : ∀ x ∈ evictCalls mem n l m, x.key ∉ x.index := by
  induction n generalizing l m with
  | zero => simp [evictCalls]
  | succ n ih =>
    cases l with
    | nil => simp [evictCalls]
    | cons e rest =>
      intro x hx
      simp only [evictCalls, List.mem_cons] at hx
      rcases hx with rfl | hx
      · simp [mapDelete_keys]
      · exact ih rest _ x hx

theorem store_calls (c : CacheLRU) (key : String) (value : Value) :
    (c.store key value).calls = c.calls ∧ (c.store key value).OnEvicted = c.OnEvicted := by
  unfold CacheLRU.store; split <;> exact ⟨rfl, rfl⟩

theorem Find_calls (c : CacheLRU) (key : String) :
    (c.Find key).1.calls = c.calls ∧ (c.Find key).1.OnEvicted = c.OnEvicted := by
  unfold CacheLRU.Find; split <;> exact ⟨rfl, rfl⟩

/-- One call adds to the record of the callback one invocation for each entry
it evicts, in order, each made after the key left the index; without a
callback nothing is recorded. -/
theorem step_calls (fuel : Nat) (c c1 : CacheLRU) (op : Op) (h : step fuel c op = some c1) :
    c1.OnEvicted = c.OnEvicted ∧
      c1.calls.map Evicted.args =
        c.calls.map Evicted.args ++ (if c.OnEvicted then evictedBy c c1 op else []) ∧
      ((∀ x ∈ c.calls, x.key ∉ x.index) → ∀ x ∈ c1.calls, x.key ∉ x.index) := by
  cases op with
  | add key value =>
    obtain ⟨n, -, hev, -⟩ := evict_spec fuel _ c1 h
    obtain ⟨hsc, hso⟩ := store_calls c key value
    have hn : (c.store key value).ll.length - c1.ll.length = n := by
      have := hev.le
      rw [hev.ll, List.length_drop]
      omega
    refine ⟨by rw [hev.OnEvicted, hso], ?_, ?_⟩
    · rw [hev.calls, hsc, hso]
      cases c.OnEvicted
      · simp
      · simp only [if_true, List.map_append, evictCalls_args, evictedBy, hn,
          CacheLRU.entries, List.map_take]
    · intro hall x hx
      rw [hev.calls, hsc, List.mem_append] at hx
      rcases hx with hx | hx
      · exact hall x hx
      · split at hx
        · exact evictCalls_removed _ _ _ _ x hx
        · cases hx
  | find key =>
    simp only [step, Option.some.injEq] at h
    subst h
    obtain ⟨h1, h2⟩ := Find_calls c key
    refine ⟨h2, ?_, ?_⟩
    · rw [h1]; simp [evictedBy]
    · intro hall x hx; rw [h1] at hx; exact hall x hx

theorem run_calls (fuel : Nat) (c c1 : CacheLRU) (ops : List Op)
    (h : run fuel c ops = some c1) :
    c1.calls.map Evicted.args =
        c.calls.map Evicted.args ++ (if c.OnEvicted then evictions fuel c ops else []) ∧
      ((∀ x ∈ c.calls, x.key ∉ x.index) → ∀ x ∈ c1.calls, x.key ∉ x.index) := by
  induction ops generalizing c with
  | nil =>
    simp only [run, Option.some.injEq] at h
    subst h
    simp [evictions]
  | cons op ops ih =>
    simp only [run] at h
    cases hs : step fuel c op with
    | none => rw [hs] at h; cases h
    | some c2 =>
      rw [hs] at h
      obtain ⟨ho, hc, hp⟩ := step_calls fuel c c2 op hs
      obtain ⟨hc2, hp2⟩ := ih c2 h
      refine ⟨?_, fun hall => hp2 (hp hall)⟩
      rw [hc2, hc, ho]
      cases c.OnEvicted <;> simp [evictions, hs]

/-- C6: on a cache made by `New` with a callback, after every sequence of
calls that returns, the record of the callback's invocations, read as
(key, value) pairs, is the sequence of the evicted entries in the order of
their eviction, one invocation per eviction; and every invocation was made
once the key had left the index. -/
theorem callback_once_per_eviction (maxBytes : Int) (fuel : Nat) (ops : List Op)
    (c : CacheLRU) (h : run fuel (New maxBytes true) ops = some c) :
    c.calls.map Evicted.args = evictions fuel (New maxBytes true) ops ∧
      ∀ x ∈ c.calls, x.key ∉ x.index := by
  obtain ⟨h1, h2⟩ := run_calls fuel _ c ops h
  refine ⟨?_, h2 (by simp [New])⟩
  rw [h1]
  simp [New]

/-- C6 on the test `TestOnEvicted`: capacity 10 and the adds `("key1",
"123456")`, `("k2", "k2")`, `("k3", "k3")`, `("k4", "k4")`; the callback is
called for `key1`, then for `k2`, and `k3`, `k4` stay. -/
theorem callback_once_per_eviction_witness :
    ∃ c, run 1 (New 10 true)
        [.add "key1" "123456", .add "k2" "k2", .add "k3" "k3", .add "k4" "k4"] = some c ∧
      c.keys = ["k3", "k4"] ∧
      c.calls.map Evicted.args = [⟨"key1", "123456"⟩, ⟨"k2", "k2"⟩] ∧
      evictions 1 (New 10 true)
        [.add "key1" "123456", .add "k2" "k2", .add "k3" "k3", .add "k4" "k4"] =
        [⟨"key1", "123456"⟩, ⟨"k2", "k2"⟩] ∧
      ∀ x ∈ c.calls, x.key ∉ x.index :=
  ⟨(((((New 10 true).store "key1" "123456").store "k2" "k2").Remove.store "k3" "k3").store
      "k4" "k4").Remove,
    rfl, by decide, by decide, by decide,
    (callback_once_per_eviction 10 1
      [.add "key1" "123456", .add "k2" "k2", .add "k3" "k3", .add "k4" "k4"] _ rfl).2⟩

/-- The test `TestOnEvicted`. -/
theorem TestOnEvicted :
    (run 1 (New 10 true)
        [.add "key1" "123456", .add "k2" "k2", .add "k3" "k3", .add "k4" "k4"]).map
        (fun c => (c.calls.map Evicted.key, c.keys)) =
      some (["key1", "k2"], ["k3", "k4"]) := by
  decide

theorem keys_inj (c : CacheLRU) (hi : Inv c) :
    ∀ x ∈ c.ll, ∀ y ∈ c.ll, (c.mem x).key = (c.mem y).key → x = y := by
  intro x hx y hy hxy
  have h1 := hi.listed x hx
  have h2 := hi.listed y hy
  rw [hxy, h2] at h1
  cases h1
  rfl

theorem keys_nodup (c : CacheLRU) (hi : Inv c) : c.keys.Nodup :=
  List.Nodup.map_on (keys_inj c hi) hi.nodup

theorem mem_keys_iff (c : CacheLRU) (hi : Inv c) (key : String) :
    key ∈ c.keys ↔ ∃ e, c.cacheMap.lookup key = some e := by
  constructor
  · intro h
    obtain ⟨x, hx, hxk⟩ := List.mem_map.1 h
    exact ⟨x, by rw [← hxk]; exact hi.listed x hx⟩
  · rintro ⟨e, he⟩
    obtain ⟨h1, h2⟩ := hi.index key e he
    exact List.mem_map.2 ⟨e, h1, h2⟩

theorem map_erase_of_inj (f : Nat → String) (l : List Nat) (e : Nat) (he : e ∈ l)
    (hinj : ∀ x ∈ l, ∀ y ∈ l, f x = f y → x = y) :
    (l.erase e).map f = (l.map f).erase (f e) := by
  induction l with
  | nil => cases he
  | cons a t ih =>
    by_cases hae : a = e
    · subst hae; simp
    · have hfa : f a ≠ f e := fun h =>
        hae (hinj a (List.mem_cons_self _ _) e he h)
      have het : e ∈ t := by
        rcases List.mem_cons.1 he with h | h
        · exact absurd h.symm hae
        · exact h
      rw [List.erase_cons_tail (by simpa using hae), List.map_cons, List.map_cons,
        List.erase_cons_tail (by simpa using hfa),
        ih het (fun x hx y hy => hinj x (List.mem_cons_of_mem _ hx) y (List.mem_cons_of_mem _ hy))]

theorem lastAdd_cons (o : Op) (ops : List Op) (k : String) :
    lastAdd (o :: ops) k =
      match lastAdd ops k with
      | some v => some v
      | none => o.stored k := rfl

theorem lastAdd_snoc (ops : List Op) (op : Op) (k : String) :
    lastAdd (ops ++ [op]) k =
      match op.stored k with
      | some v => some v
      | none => lastAdd ops k := by
  induction ops with
  | nil => rw [List.nil_append, lastAdd_cons]; cases op.stored k <;> rfl
  | cons o ops ih =>
    rw [List.cons_append, lastAdd_cons, lastAdd_cons, ih]
    cases op.stored k <;> rfl

theorem lastAdd_snoc_add (ops : List Op) (key k : String) (value : Value) :
    lastAdd (ops ++ [.add key value]) k = if key = k then some value else lastAdd ops k := by
  rw [lastAdd_snoc]
  by_cases h : key = k <;> simp [Op.stored, h]

theorem lastAdd_snoc_find (ops : List Op) (key k : String) :
    lastAdd (ops ++ [.find key]) k = lastAdd ops k := by
  rw [lastAdd_snoc]; rfl

theorem Stored_store (ops : List Op) (c : CacheLRU) (key : String) (value : Value)
    (hi : Inv c) (hs : Stored ops c) :
    Stored (ops ++ [.add key value]) (c.store key value) := by
  intro x hx
  rw [lastAdd_snoc_add]
  cases hl : c.cacheMap.lookup key with
  | some e =>
    rw [store_hit c key value e hl] at hx ⊢
    simp only at hx ⊢
    obtain ⟨he, hek⟩ := hi.index key e hl
    have hxl : x ∈ c.ll := (mem_MoveToBack _ _ _).1 hx
    by_cases hxe : x = e
    · subst hxe; simp [hek]
    · have hne : key ≠ (c.mem x).key := by
        intro h
        have := hi.listed x hxl
        rw [← h, hl] at this
        cases this
        exact hxe rfl
      rw [Function.update_noteq hxe, if_neg hne]
      exact hs x hxl
  | none =>
    rw [store_miss c key value hl] at hx ⊢
    simp only at hx ⊢
    rcases List.mem_append.1 hx with hxl | hxn
    · have hxe : x ≠ c.next := Nat.ne_of_lt (hi.fresh x hxl)
      have hne : key ≠ (c.mem x).key := by
        intro h
        have := hi.listed x hxl
        rw [← h, hl] at this
        cases this
      rw [Function.update_noteq hxe, if_neg hne]
      exact hs x hxl
    · rw [List.mem_singleton] at hxn
      subst hxn
      simp

theorem Stored_Find (ops : List Op) (c : CacheLRU) (key : String) (hs : Stored ops c) :
    Stored (ops ++ [.find key]) (c.Find key).1 := by
  intro x hx
  rw [lastAdd_snoc_find]
  unfold CacheLRU.Find at hx ⊢
  split at hx
  · rename_i e he
    simp only [he]
    exact hs x ((mem_MoveToBack _ _ _).1 hx)
  · rename_i he
    simp only [he]
    exact hs x hx

theorem Stored_evict (ops : List Op) (fuel : Nat) (c c1 : CacheLRU) (hs : Stored ops c)
    (h : c.evict fuel = some c1) : Stored ops c1 := by
  obtain ⟨n, -, hev, -⟩ := evict_spec fuel c c1 h
  intro x hx
  rw [hev.ll] at hx
  rw [hev.mem]
  exact hs x (List.mem_of_mem_drop hx)

theorem Stored_run (fuel : Nat) (maxBytes : Int) (cb : Bool) (ops : List Op) (c : CacheLRU)
    (h : run fuel (New maxBytes cb) ops = some c) : Stored ops c := by
  induction ops using List.reverseRecOn generalizing c with
  | nil =>
    simp only [run, Option.some.injEq] at h
    subst h
    intro x hx
    simp [New] at hx
  | append_singleton ops op ih =>
    obtain ⟨c2, h2, hs⟩ := run_snoc_some fuel _ c ops op h
    have hi2 := Inv_run fuel _ c2 ops (Inv_New maxBytes cb) h2
    cases op with
    | add key value =>
      exact Stored_evict _ fuel _ c (Stored_store ops c2 key value hi2 (ih c2 h2)) hs
    | find key =>
      simp only [step, Option.some.injEq] at hs
      rw [← hs]
      exact Stored_Find ops c2 key (ih c2 h2)

/-- A call of `Find` changes nothing but the order of the list. -/
theorem Find_frame (c : CacheLRU) (key : String) :
    (c.Find key).1.ll.Perm c.ll ∧ (c.Find key).1.mem = c.mem ∧
      (c.Find key).1.cacheMap = c.cacheMap ∧ (c.Find key).1.nbytes = c.nbytes ∧
      (c.Find key).1.maxBytes = c.maxBytes ∧ (c.Find key).1.calls = c.calls := by
  unfold CacheLRU.Find
  split
  · exact ⟨perm_MoveToBack _ _, rfl, rfl, rfl, rfl, rfl⟩
  · exact ⟨List.Perm.refl _, rfl, rfl, rfl, rfl, rfl⟩

/-- C7: after every sequence of calls on a cache made by `New`, `Find(key)`
on a resident key returns the value given by the most recent `Add` for that
key, which is the value of the resident entry, and moves the key to the
most recently used position, the other keys keeping their order; on a key that
is not resident it returns not-found and leaves the cache as it is. In both
cases the resident entries are the same up to their order, and `nbytes`, the
index and the record of the callback are unchanged. -/
theorem Find_returns_last_Add (maxBytes : Int) (cb : Bool) (fuel : Nat) (ops : List Op)
    (c : CacheLRU) (key : String) (h : run fuel (New maxBytes cb) ops = some c) :
    (key ∈ c.keys → ∃ v, lastAdd ops key = some v ∧ (c.Find key).2 = some v ∧
        (⟨key, v⟩ : node) ∈ c.entries ∧
        (c.Find key).1.keys = c.keys.erase key ++ [key]) ∧
      (key ∉ c.keys → (c.Find key).2 = none ∧ (c.Find key).1 = c) ∧
      (c.Find key).1.entries.Perm c.entries ∧
      (c.Find key).1.nbytes = c.nbytes ∧
      (c.Find key).1.residentBytes = c.residentBytes ∧
      (c.Find key).1.cacheMap = c.cacheMap ∧
      (c.Find key).1.calls = c.calls := by
  have hi := Inv_run fuel _ c ops (Inv_New maxBytes cb) h
  have hs := Stored_run fuel maxBytes cb ops c h
  obtain ⟨f1, f2, f3, f4, -, f6⟩ := Find_frame c key
  have hperm : (c.Find key).1.entries.Perm c.entries := by
    unfold CacheLRU.entries
    rw [f2]
    exact f1.map _
  refine ⟨?_, ?_, hperm, f4, ?_, f3, f6⟩
  · intro hk
    obtain ⟨e, he⟩ := (mem_keys_iff c hi key).1 hk
    obtain ⟨hel, hek⟩ := hi.index key e he
    refine ⟨(c.mem e).value, ?_, ?_, ?_, ?_⟩
    · rw [← hek]; exact hs e hel
    · simp [CacheLRU.Find, he]
    · exact List.mem_map.2 ⟨e, hel, by rw [← hek]⟩
    · obtain ⟨h1, -, -⟩ := keys_touch c hi key e he (fun x => (c.mem x).key) (fun _ => rfl)
      have hk1 : (c.Find key).1.keys = (c.ll.erase e).map (fun x => (c.mem x).key) ++ [key] := by
        simp only [CacheLRU.Find, he, CacheLRU.keys]; exact h1
      rw [hk1, map_erase_of_inj _ c.ll e hel (keys_inj c hi), hek]
      rfl
  · intro hk
    have hn : c.cacheMap.lookup key = none := by
      cases hl : c.cacheMap.lookup key with
      | none => rfl
      | some e => exact absurd ((mem_keys_iff c hi key).2 ⟨e, hl⟩) hk
    simp [CacheLRU.Find, hn]
  · unfold CacheLRU.residentBytes
    exact (hperm.map _).sum_eq

/-- C7 on the test `TestCacheLRU_Find`: after `Add("key1", "1234")` on an
unbounded cache, `Find("key1")` returns `"1234"`. -/
theorem Find_returns_last_Add_witness :
    ∃ c, run 0 (New 0 false) [.add "key1" "1234"] = some c ∧
      (c.Find "key1").2 = some "1234" ∧ (c.Find "key2").2 = none :=
  ⟨(New 0 false).store "key1" "1234", rfl, by
    obtain ⟨v, h1, h2, -⟩ :=
      (Find_returns_last_Add 0 false 0 [.add "key1" "1234"] _ "key1" rfl).1 (by decide)
    rw [h2, ← h1]
    decide,
    ((Find_returns_last_Add 0 false 0 [.add "key1" "1234"] _ "key2" rfl).2.1 (by decide)).1⟩

theorem store_maxBytes (c : CacheLRU) (key : String) (value : Value) :
    (c.store key value).maxBytes = c.maxBytes := by
  unfold CacheLRU.store; split <;> rfl

theorem mem_keys_store (c : CacheLRU) (hi : Inv c) (key : String) (value : Value)
    (k : String) : k ∈ (c.store key value).keys ↔ k ∈ c.keys ∨ k = key := by
  cases hl : c.cacheMap.lookup key with
  | some e =>
    have hk : (c.store key value).keys = (MoveToBack c.ll e).map (fun x => (c.mem x).key) := by
      rw [store_hit c key value e hl]
      simp only [CacheLRU.keys, update_key]
    have hp := (perm_MoveToBack c.ll e).map (fun x => (c.mem x).key)
    rw [hk, hp.mem_iff]
    have hkey : key ∈ c.keys := (mem_keys_iff c hi key).2 ⟨e, hl⟩
    constructor
    · exact fun h => Or.inl h
    · rintro (h | h)
      · exact h
      · rw [h]; exact hkey
  | none =>
    rw [(keys_store_miss c hi key value hl).1]
    simp

theorem mem_keys_Find (c : CacheLRU) (key k : String) :
    k ∈ (c.Find key).1.keys ↔ k ∈ c.keys := by
  obtain ⟨f1, f2, -⟩ := Find_frame c key
  unfold CacheLRU.keys
  rw [f2]
  exact (f1.map _).mem_iff

/-- On an unbounded cache every sequence of calls returns, whatever the fuel,
evicts nothing and keeps every key added. -/
theorem run_unbounded (fuel : Nat) (c0 : CacheLRU) (ops : List Op) (hmax : c0.maxBytes = 0)
    (hi : Inv c0) :
    ∃ c, run fuel c0 ops = some c ∧ Inv c ∧ c.calls = c0.calls ∧
      evictions fuel c0 ops = [] ∧ ∀ k, k ∈ c.keys ↔ (k ∈ c0.keys ∨ k ∈ addedKeys ops) := by
  induction ops generalizing c0 with
  | nil => exact ⟨c0, rfl, hi, rfl, rfl, by simp [addedKeys]⟩
  | cons op ops ih =>
    cases op with
    | add key value =>
      have hs : step fuel c0 (.add key value) = some (c0.store key value) :=
        evict_zero_of_not _ fuel (by rw [store_maxBytes, hmax]; simp)
      obtain ⟨c, h1, h2, h3, h4, h5⟩ :=
        ih (c0.store key value) (by rw [store_maxBytes, hmax]) (Inv_store c0 key value hi)
      refine ⟨c, by simp [run, hs, h1], h2, by rw [h3, (store_calls c0 key value).1], ?_, ?_⟩
      · simp [evictions, hs, h4, evictedBy]
      · intro k
        rw [h5 k, mem_keys_store c0 hi key value k]
        simp only [addedKeys, List.mem_cons]
        tauto
    | find key =>
      have hs : step fuel c0 (.find key) = some (c0.Find key).1 := rfl
      obtain ⟨f1, f2, f3, f4, f5, f6⟩ := Find_frame c0 key
      obtain ⟨c, h1, h2, h3, h4, h5⟩ :=
        ih (c0.Find key).1 (by rw [f5, hmax]) (Inv_Find c0 key hi)
      refine ⟨c, by simp [run, hs, h1], h2, by rw [h3, f6], ?_, ?_⟩
      · simp [evictions, hs, h4, evictedBy]
      · intro k
        rw [h5 k, mem_keys_Find c0 key k]
        simp only [addedKeys]

/-- C8: on a cache created with `maxBytes = 0`, every sequence of `Add` and
`Find` calls returns (the loop of `Add` never runs, whatever the fuel), no
entry is evicted, the callback is never invoked, the resident keys are the
keys added, and the entry count is the number of distinct keys added. -/
theorem unbounded_never_evicts (cb : Bool) (fuel : Nat) (ops : List Op) :
    ∃ c, run fuel (New 0 cb) ops = some c ∧ c.calls = [] ∧
      evictions fuel (New 0 cb) ops = [] ∧ (∀ k, k ∈ c.keys ↔ k ∈ addedKeys ops) ∧
      c.GetRecord = (addedKeys ops).dedup.length := by
  obtain ⟨c, h1, h2, h3, h4, h5⟩ := run_unbounded fuel (New 0 cb) ops rfl (Inv_New 0 cb)
  have hk : ∀ k, k ∈ c.keys ↔ k ∈ addedKeys ops := by
    intro k
    rw [h5 k]
    simp [New, CacheLRU.keys]
  refine ⟨c, h1, h3, h4, hk, ?_⟩
  have hp : c.keys.Perm (addedKeys ops).dedup :=
    (List.perm_ext_iff_of_nodup (keys_nodup c h2) (List.nodup_dedup _)).2
      (fun k => by rw [hk k, List.mem_dedup])
  have := hp.length_eq
  simpa [CacheLRU.keys, CacheLRU.GetRecord] using this


end lru

namespace consistentHash

/-- The loop of `sort.Search` keeps its invariant: `f` is false below `i` and
true from `j` on; with `j - i` iterations allowed it ends on the least index
from which `f` is true. -/
theorem searchLoop_spec (f : Nat → Bool) (n : Nat)
    (hmono : ∀ a b, a ≤ b → b < n → f a = true → f b = true)
    (fuel i j : Nat) (hij : i ≤ j) (hjn : j ≤ n) (hfuel : j - i ≤ fuel)
    (hlo : ∀ k, k < i → f k = false) (hhi : ∀ k, j ≤ k → k < n → f k = true) :
    searchLoop f fuel i j ≤ n ∧ (∀ k, k < searchLoop f fuel i j → f k = false) ∧
      (∀ k, searchLoop f fuel i j ≤ k → k < n → f k = true) := by
  induction fuel generalizing i j with
  | zero =>
    have : i = j := by omega
    subst this
    exact ⟨hjn, hlo, hhi⟩
  | succ fuel ih =>
    unfold searchLoop
    by_cases hlt : i < j
    · have hh : (i + j) / 2 < j := by omega
      have hh2 : i ≤ (i + j) / 2 := by omega
      rw [if_pos hlt]
      simp only
      cases hf : f ((i + j) / 2) with
      | false =>
        simp only [Bool.not_false, if_true]
        refine ih ((i + j) / 2 + 1) j (by omega) hjn (by omega) ?_ hhi
        intro k hk
        by_contra hne
        have hk1 : f k = true := by simpa using hne
        have := hmono k ((i + j) / 2) (by omega) (by omega) hk1
        rw [hf] at this
        cases this
      | true =>
        simp only [Bool.not_true, Bool.false_eq_true, if_false]
        refine ih i ((i + j) / 2) hh2 (by omega) (by omega) hlo ?_
        intro k hk hkn
        exact hmono _ k hk hkn hf
    · have : i = j := by omega
      subst this
      rw [if_neg hlt]
      exact ⟨hjn, hlo, hhi⟩

/-- Go's `sort.Search(n, f)` returns the least index from which `f` is true, and
`n` when there is none. -/
theorem Search_spec (f : Nat → Bool) (n : Nat)
    (hmono : ∀ a b, a ≤ b → b < n → f a = true → f b = true) :
    Search n f ≤ n ∧ (∀ k, k < Search n f → f k = false) ∧
      (∀ k, Search n f ≤ k → k < n → f k = true) :=
  searchLoop_spec f n hmono n 0 n (Nat.zero_le _) (Nat.le_refl _) (by omega)
    (fun k hk => absurd hk (Nat.not_lt_zero k)) (fun k hk hkn => absurd hkn (by omega))

/-- Go's `sort.Search(n, f)` calls `f` on indices below `n` only: two functions
that agree below `n` give the same result. -/
theorem Search_congr (f g : Nat → Bool) (n : Nat) (hfg : ∀ k, k < n → f k = g k) :
    Search n f = Search n g := by
  have hloop : ∀ fuel i j, j ≤ n → searchLoop f fuel i j = searchLoop g fuel i j := by
    intro fuel
    induction fuel with
    | zero => intro i j _; rfl
    | succ fuel ih =>
      intro i j hj
      unfold searchLoop
      by_cases hlt : i < j
      · rw [if_pos hlt, if_pos hlt]
        simp only
        rw [hfg ((i + j) / 2) (by omega), ih ((i + j) / 2 + 1) j hj,
          ih i ((i + j) / 2) (by omega)]
      · rw [if_neg hlt, if_neg hlt]
  exact hloop n 0 n (Nat.le_refl _)

theorem getD_eq (keys : List Nat) (k : Nat) (hk : k < keys.length) :
    keys.getD k 0 = keys.get ⟨k, hk⟩ :=
  List.getD_eq_getElem keys 0 hk

theorem sorted_getD_le (keys : List Nat) (hs : keys.Sorted (fun a b => a ≤ b)) (a b : Nat)
    (hab : a ≤ b) (hb : b < keys.length) : keys.getD a 0 ≤ keys.getD b 0 := by
  rw [getD_eq keys a (lt_of_le_of_lt hab hb), getD_eq keys b hb]
  exact hs.rel_get_of_le (a := ⟨a, lt_of_le_of_lt hab hb⟩) (b := ⟨b, hb⟩) hab

theorem mem_iff_getD (keys : List Nat) (q : Nat) :
    q ∈ keys ↔ ∃ k, k < keys.length ∧ keys.getD k 0 = q := by
  rw [List.mem_iff_get]
  constructor
  · rintro ⟨⟨k, hk⟩, h⟩
    exact ⟨k, hk, by rw [getD_eq keys k hk]; exact h⟩
  · rintro ⟨k, hk, h⟩
    exact ⟨⟨k, hk⟩, by rw [← h, getD_eq keys k hk]⟩

/-- On a sorted, non-empty ring, the position that `Get` reads in `hashMap` is
the clockwise successor of the hash: the smallest position that is at least
the hash, and the lowest position when the hash exceeds every position. -/
theorem Get_sorted (m : Map) (key : String) (hs : m.keys.Sorted (fun a b => a ≤ b))
    (hne : m.keys ≠ []) :
    ∃ p ∈ m.keys, m.Get key = hashMapGet m.hashMap p ∧
      ((m.pos key ≤ p ∧ ∀ q ∈ m.keys, m.pos key ≤ q → p ≤ q) ∨
        ((∀ q ∈ m.keys, q < m.pos key) ∧ ∀ q ∈ m.keys, p ≤ q)) := by
  have hlen : 0 < m.keys.length := List.length_pos.2 hne
  have hmono : ∀ a b, a ≤ b → b < m.keys.length →
      decide (m.keys.getD a 0 ≥ m.pos key) = true →
      decide (m.keys.getD b 0 ≥ m.pos key) = true := by
    intro a b hab hb ha
    have := sorted_getD_le m.keys hs a b hab hb
    simp only [ge_iff_le, decide_eq_true_eq] at ha ⊢
    omega
  obtain ⟨h1, h2, h3⟩ := Search_spec _ m.keys.length hmono
  have hget : m.Get key = hashMapGet m.hashMap (m.keys.getD
      (Search m.keys.length (fun i => decide (m.keys.getD i 0 ≥ m.pos key)) %
        m.keys.length) 0) := by
    unfold Map.Get
    rw [if_neg (by omega)]
  generalize Search m.keys.length (fun i => decide (m.keys.getD i 0 ≥ m.pos key)) = r
    at h1 h2 h3 hget
  by_cases hr : r < m.keys.length
  · rw [Nat.mod_eq_of_lt hr] at hget
    refine ⟨m.keys.getD r 0, (mem_iff_getD _ _).2 ⟨r, hr, rfl⟩, hget, Or.inl ⟨?_, ?_⟩⟩
    · simpa using h3 r (Nat.le_refl _) hr
    · intro q hq hpq
      obtain ⟨k, hk, rfl⟩ := (mem_iff_getD _ _).1 hq
      have hrk : r ≤ k := by
        by_contra hlt
        have := h2 k (by omega)
        simp only [ge_iff_le, decide_eq_false_iff_not] at this
        exact this hpq
      exact sorted_getD_le m.keys hs r k hrk hk
  · have hrn : r = m.keys.length := by omega
    rw [hrn, Nat.mod_self] at hget
    refine ⟨m.keys.getD 0 0, (mem_iff_getD _ _).2 ⟨0, hlen, rfl⟩, hget, Or.inr ⟨?_, ?_⟩⟩
    · intro q hq
      obtain ⟨k, hk, rfl⟩ := (mem_iff_getD _ _).1 hq
      have := h2 k (by omega)
      simp only [ge_iff_le, decide_eq_false_iff_not] at this
      omega
    · intro q hq
      obtain ⟨k, hk, rfl⟩ := (mem_iff_getD _ _).1 hq
      exact sorted_getD_le m.keys hs 0 k (Nat.zero_le _) hk

theorem foldl_addReplica (addr : String) (is : List Nat) (m : Map) :
    (is.foldl (Map.addReplica addr) m).hash = m.hash ∧
      (is.foldl (Map.addReplica addr) m).replicas = m.replicas ∧
      (is.foldl (Map.addReplica addr) m).keys =
        m.keys ++ is.map (fun i => m.hash (Itoa i ++ addr) % 4294967296) := by
  induction is generalizing m with
  | nil => simp
  | cons i is ih =>
    obtain ⟨h1, h2, h3⟩ := ih (Map.addReplica addr m i)
    simp only [List.foldl_cons]
    refine ⟨h1, h2, ?_⟩
    rw [h3]
    simp [Map.addReplica, Map.pos]

theorem foldl_addAddr (addrs : List String) (m : Map) :
    (addrs.foldl Map.addAddr m).hash = m.hash ∧
      (addrs.foldl Map.addAddr m).replicas = m.replicas ∧
      (addrs.foldl Map.addAddr m).keys =
        m.keys ++ positions m.hash m.replicas.toNat addrs := by
  induction addrs generalizing m with
  | nil => simp [positions]
  | cons addr addrs ih =>
    obtain ⟨h1, h2, h3⟩ := ih (m.addAddr addr)
    obtain ⟨g1, g2, g3⟩ := foldl_addReplica addr (List.range m.replicas.toNat) m
    simp only [List.foldl_cons]
    refine ⟨by rw [h1]; exact g1, by rw [h2]; exact g2, ?_⟩
    rw [h3]
    have e1 : (m.addAddr addr).hash = m.hash := g1
    have e2 : (m.addAddr addr).replicas = m.replicas := g2
    have e3 : (m.addAddr addr).keys =
        m.keys ++ (List.range m.replicas.toNat).map
          (fun i => m.hash (Itoa i ++ addr) % 4294967296) := g3
    rw [e1, e2, e3]
    simp [positions, List.flatMap_cons]

/-- What one `Add` does to the ring: the positions of the copies of the new
peers are appended and the ring is sorted. -/
theorem Add_keys (m : Map) (addrs : List String) :
    (m.Add addrs).hash = m.hash ∧ (m.Add addrs).replicas = m.replicas ∧
      (m.Add addrs).keys = sortInts (m.keys ++ positions m.hash m.replicas.toNat addrs) := by
  obtain ⟨h1, h2, h3⟩ := foldl_addAddr addrs m
  refine ⟨h1, h2, ?_⟩
  simp only [Map.Add]
  rw [h3]

theorem ring_snoc (replicas : Int) (hash : Hash) (adds : List (List String))
    (addrs : List String) :
    ring replicas hash (adds ++ [addrs]) = (ring replicas hash adds).Add addrs := by
  simp [ring, List.foldl_append]

theorem positions_append (hash : Hash) (n : Nat) (l1 l2 : List String) :
    positions hash n (l1 ++ l2) = positions hash n l1 ++ positions hash n l2 := by
  simp [positions, List.flatMap_append]

theorem positions_length (hash : Hash) (n : Nat) (l : List String) :
    (positions hash n l).length = n * l.length := by
  induction l with
  | nil => simp [positions]
  | cons a l ih =>
    have : positions hash n (a :: l) = positions hash n [a] ++ positions hash n l :=
      positions_append hash n [a] l
    rw [this, List.length_append, ih]
    simp [positions, List.flatMap_cons, Nat.mul_succ, Nat.add_comm]

/-- The ring after any sequence of `Add` calls: hash and replicas are those of
`New`, the ring is sorted and holds the positions of the copies of all peers
added. -/
theorem ring_keys (replicas : Int) (hash : Hash) (adds : List (List String)) :
    (ring replicas hash adds).hash = hash ∧ (ring replicas hash adds).replicas = replicas ∧
      (ring replicas hash adds).keys.Sorted (fun a b => a ≤ b) ∧
      (ring replicas hash adds).keys.Perm (positions hash replicas.toNat adds.flatten) := by
  induction adds using List.reverseRecOn with
  | nil => simp [ring, New, positions]
  | append_singleton adds addrs ih =>
    obtain ⟨h1, h2, -, h4⟩ := ih
    obtain ⟨g1, g2, g3⟩ := Add_keys (ring replicas hash adds) addrs
    rw [ring_snoc]
    refine ⟨by rw [g1, h1], by rw [g2, h2], ?_, ?_⟩
    · rw [g3]; exact List.sorted_insertionSort _ _
    · rw [g3, h1, h2]
      refine (List.perm_insertionSort _ _).trans ?_
      rw [List.flatten_append, positions_append]
      simpa using h4.append_right _

/-- C10: after `New(replicas, hash)` with `replicas >= 0` and any sequence of
`Add` calls, the ring is sorted ascending, its length is `replicas` times the
number of peer ids passed to `Add`, and its positions are, up to the order,
`hash(Itoa(i) ++ peer)` for every peer passed and every `i` in
`[0, replicas)`. -/
theorem ring_invariant (replicas : Int) (hash : Hash) (adds : List (List String))
    (h : 0 ≤ replicas) :
    (ring replicas hash adds).keys.Sorted (fun a b => a ≤ b) ∧
      ((ring replicas hash adds).keys.length : Int) = replicas * (adds.flatten.length : Int) ∧
      (ring replicas hash adds).keys.Perm
        (adds.flatten.flatMap (fun addr =>
          (List.range replicas.toNat).map (fun i => hash (Itoa i ++ addr) % 4294967296))) := by
  obtain ⟨-, -, h3, h4⟩ := ring_keys replicas hash adds
  refine ⟨h3, ?_, h4⟩
  rw [h4.length_eq, positions_length]
  push_cast
  rw [Int.toNat_of_nonneg h]

/-- C10 on the ring of `TestHashing`: 3 copies of the peers "6", "4", "2". -/
theorem ring_invariant_witness :
    (ring 3 testHash [["6", "4", "2"]]).keys = [2, 4, 6, 12, 14, 16, 22, 24, 26] ∧
      (ring 3 testHash [["6", "4", "2"]]).keys.Sorted (fun a b => a ≤ b) ∧
      ((ring 3 testHash [["6", "4", "2"]]).keys.length : Int) = 3 * 3 :=
  ⟨by decide, (ring_invariant 3 testHash [["6", "4", "2"]] (by decide)).1,
    (ring_invariant 3 testHash [["6", "4", "2"]] (by decide)).2.1⟩

/-- The test `TestHashing`: the owners of "2", "11", "23", "27" on the ring of
the peers "6", "4", "2", and once "8" is added. -/
theorem TestHashing :
    ["2", "11", "23", "27"].map (ring 3 testHash [["6", "4", "2"]]).Get =
        ["2", "2", "4", "2"] ∧
      ["2", "11", "23", "27"].map (ring 3 testHash [["6", "4", "2"], ["8"]]).Get =
        ["2", "2", "4", "8"] := by
  decide

/-- Go's `strconv.Itoa` writes no leading zero: the first copies are numbered
"0", "1", ..., and the eleventh "10". -/
theorem Itoa_examples : Itoa 0 = "0" ∧ Itoa 7 = "7" ∧ Itoa 10 = "10" ∧ Itoa 105 = "105" := by
  decide

end consistentHash

namespace consistentHash

theorem lookup_hashMapSet (h : List (Nat × String)) (p q : Nat) (a : String) :
    (hashMapSet h q a).lookup p = if p = q then some a else h.lookup p := by
  unfold hashMapSet
  by_cases hpq : p = q
  · subst hpq; simp [List.lookup_cons]
  · have hb : (p == q) = false := by simpa using hpq
    rw [if_neg hpq, List.lookup_cons, hb]
    simp only
    induction h with
    | nil => rfl
    | cons x h ih =>
      obtain ⟨k, v⟩ := x
      by_cases hkq : k = q
      · subst hkq
        have hb2 : (p == k) = false := by simpa using hpq
        simp [List.filter_cons, List.lookup_cons, hb2, ih]
      · by_cases hpk : p = k
        · subst hpk; simp [List.filter_cons, hkq, List.lookup_cons]
        · have hb3 : (p == k) = false := by simpa using hpk
          simp [List.filter_cons, hkq, List.lookup_cons, hb3, ih]

theorem mem_positions_single (hash : Hash) (n : Nat) (a : String) (p : Nat) :
    p ∈ positions hash n [a] ↔ ∃ i, i < n ∧ hash (Itoa i ++ a) % 4294967296 = p := by
  simp [positions]

theorem mem_positions (hash : Hash) (n : Nat) (addrs : List String) (p : Nat) :
    p ∈ positions hash n addrs ↔ ∃ a ∈ addrs, p ∈ positions hash n [a] := by
  simp [positions]

/-- The index after the inner loop of `Add` for the peer `addr`: the positions
written map to `addr`, the others are as before. -/
theorem foldl_addReplica_hashMap (addr : String) (is : List Nat) (m : Map) (p : Nat) :
    (is.foldl (Map.addReplica addr) m).hashMap.lookup p =
      if p ∈ is.map (fun i => m.hash (Itoa i ++ addr) % 4294967296) then some addr
      else m.hashMap.lookup p := by
  induction is generalizing m with
  | nil => simp
  | cons i is ih =>
    simp only [List.foldl_cons]
    rw [ih]
    have hh : (Map.addReplica addr m i).hash = m.hash := rfl
    have hm : (Map.addReplica addr m i).hashMap =
        hashMapSet m.hashMap (m.hash (Itoa i ++ addr) % 4294967296) addr := rfl
    rw [hh, hm, lookup_hashMapSet]
    by_cases h1 : p ∈ is.map (fun i => m.hash (Itoa i ++ addr) % 4294967296)
    · simp [h1]
    · by_cases h2 : p = m.hash (Itoa i ++ addr) % 4294967296
      · simp [h2]
      · rw [if_neg h1, if_neg h2, if_neg]
        simp only [List.map_cons, List.mem_cons, not_or]
        exact ⟨h2, h1⟩

theorem addAddr_hashMap (m : Map) (addr : String) (p : Nat) :
    (m.addAddr addr).hashMap.lookup p =
      if p ∈ positions m.hash m.replicas.toNat [addr] then some addr
      else m.hashMap.lookup p := by
  have hpos : positions m.hash m.replicas.toNat [addr] =
      (List.range m.replicas.toNat).map
        (fun i => m.hash (Itoa i ++ addr) % 4294967296) := by
    simp [positions, List.flatMap_cons]
  unfold Map.addAddr
  rw [foldl_addReplica_hashMap, hpos]

/-- The index after the outer loop of `Add`: a position of one of the new
peers maps to a new peer that has a copy there, the others are as before. -/
theorem foldl_addAddr_hashMap (addrs : List String) (m : Map) (p : Nat) :
    (p ∉ positions m.hash m.replicas.toNat addrs →
        (addrs.foldl Map.addAddr m).hashMap.lookup p = m.hashMap.lookup p) ∧
      (p ∈ positions m.hash m.replicas.toNat addrs →
        ∃ a ∈ addrs, p ∈ positions m.hash m.replicas.toNat [a] ∧
          (addrs.foldl Map.addAddr m).hashMap.lookup p = some a) := by
  induction addrs generalizing m with
  | nil => simp [positions]
  | cons a addrs ih =>
    obtain ⟨g1, g2, -⟩ := foldl_addReplica a (List.range m.replicas.toNat) m
    have e1 : (m.addAddr a).hash = m.hash := g1
    have e2 : (m.addAddr a).replicas = m.replicas := g2
    obtain ⟨ihA, ihB⟩ := ih (m.addAddr a)
    rw [e1, e2] at ihA ihB
    have hsplit : positions m.hash m.replicas.toNat (a :: addrs) =
        positions m.hash m.replicas.toNat [a] ++ positions m.hash m.replicas.toNat addrs :=
      positions_append m.hash _ [a] addrs
    simp only [List.foldl_cons]
    constructor
    · intro hp
      rw [hsplit, List.mem_append, not_or] at hp
      rw [ihA hp.2, addAddr_hashMap, if_neg hp.1]
    · intro hp
      by_cases hrest : p ∈ positions m.hash m.replicas.toNat addrs
      · obtain ⟨b, hb, hpb, hl⟩ := ihB hrest
        exact ⟨b, List.mem_cons_of_mem _ hb, hpb, hl⟩
      · have hpa : p ∈ positions m.hash m.replicas.toNat [a] := by
          rw [hsplit, List.mem_append] at hp
          rcases hp with h | h
          · exact h
          · exact absurd h hrest
        refine ⟨a, List.mem_cons_self _ _, hpa, ?_⟩
        rw [ihA hrest, addAddr_hashMap, if_pos hpa]

theorem Add_hashMap (m : Map) (addrs : List String) :
    (m.Add addrs).hashMap = (addrs.foldl Map.addAddr m).hashMap := rfl

theorem mem_Add_keys (m : Map) (addrs : List String) (q : Nat) :
    q ∈ (m.Add addrs).keys ↔ q ∈ m.keys ∨ q ∈ positions m.hash m.replicas.toNat addrs := by
  rw [(Add_keys m addrs).2.2]
  unfold sortInts
  rw [(List.perm_insertionSort _ _).mem_iff, List.mem_append]

theorem Add_sorted (m : Map) (addrs : List String) :
    (m.Add addrs).keys.Sorted (fun a b => a ≤ b) := by
  rw [(Add_keys m addrs).2.2]
  exact List.sorted_insertionSort _ _

theorem Get_isSuccessor (m : Map) (key : String) (hs : m.keys.Sorted (fun a b => a ≤ b))
    (hne : m.keys ≠ []) :
    ∃ p, IsSuccessor m.keys (m.pos key) p ∧ m.Get key = hashMapGet m.hashMap p := by
  obtain ⟨p, hp, hg, hsucc⟩ := Get_sorted m key hs hne
  exact ⟨p, ⟨hp, hsucc⟩, hg⟩

/-- The successor on a ring is the successor on a larger ring as soon as the
latter is a position of the smaller ring. -/
theorem IsSuccessor_unique (keys1 keys2 : List Nat) (h p1 p2 : Nat)
    (h1 : IsSuccessor keys1 h p1) (h2 : IsSuccessor keys2 h p2)
    (hsub : ∀ q, q ∈ keys1 → q ∈ keys2) (hp2 : p2 ∈ keys1) : p1 = p2 := by
  obtain ⟨m1, c1⟩ := h1
  obtain ⟨-, c2⟩ := h2
  rcases c1 with ⟨a1, b1⟩ | ⟨a1, b1⟩ <;> rcases c2 with ⟨a2, b2⟩ | ⟨a2, b2⟩
  · exact Nat.le_antisymm (b1 p2 hp2 a2) (b2 p1 (hsub p1 m1) a1)
  · have := a2 p1 (hsub p1 m1); omega
  · have := a1 p2 hp2; omega
  · exact Nat.le_antisymm (b1 p2 hp2) (b2 p1 (hsub p1 m1))

theorem Get_empty (m : Map) (key : String) (h : m.keys = []) : m.Get key = "" := by
  simp [Map.Get, h]

/-- C20: on every ring and for every key and new peer `n`, `Get(key)` after
`Add(n)` is the peer that `Get(key)` returned before, or `n`. -/
theorem Add_moves_keys_to_new_peer_only (replicas : Int) (hash : Hash)
    (adds : List (List String)) (n key : String) :
    ((ring replicas hash adds).Add [n]).Get key = (ring replicas hash adds).Get key ∨
      ((ring replicas hash adds).Add [n]).Get key = n := by
  obtain ⟨-, -, hs, -⟩ := ring_keys replicas hash adds
  generalize ring replicas hash adds = m at hs ⊢
  have hpos : (m.Add [n]).pos key = m.pos key := by
    unfold Map.pos; rw [(Add_keys m [n]).1]
  by_cases hne1 : (m.Add [n]).keys = []
  · have hne : m.keys = [] := by
      cases hk : m.keys with
      | nil => rfl
      | cons q rest =>
        have : q ∈ (m.Add [n]).keys := (mem_Add_keys m [n] q).2 (Or.inl (by simp [hk]))
        rw [hne1] at this
        cases this
    left
    rw [Get_empty _ key hne1, Get_empty _ key hne]
  · obtain ⟨p1, hsucc1, hg1⟩ := Get_isSuccessor (m.Add [n]) key (Add_sorted m [n]) hne1
    rw [hpos] at hsucc1
    obtain ⟨hA, hB⟩ := foldl_addAddr_hashMap [n] m p1
    by_cases hp : p1 ∈ positions m.hash m.replicas.toNat [n]
    · right
      obtain ⟨a, ha, -, hl⟩ := hB hp
      rw [List.mem_singleton] at ha
      subst ha
      rw [hg1, Add_hashMap, hashMapGet, hl]
      rfl
    · left
      have hp1 : p1 ∈ m.keys := by
        rcases (mem_Add_keys m [n] p1).1 hsucc1.1 with h | h
        · exact h
        · exact absurd h hp
      have hne : m.keys ≠ [] := by
        intro h; rw [h] at hp1; cases hp1
      obtain ⟨p, hsucc, hg⟩ := Get_isSuccessor m key hs hne
      have hpe : p = p1 :=
        IsSuccessor_unique m.keys (m.Add [n]).keys (m.pos key) p p1 hsucc hsucc1
          (fun q hq => (mem_Add_keys m [n] q).2 (Or.inl hq)) hp1
      rw [hg1, hg, hpe, Add_hashMap, hashMapGet, hashMapGet, hA hp]

/-- On the ring made by any sequence of `Add` calls, every position of a peer
added is indexed to a peer added that has a copy at this position. -/
theorem ring_owner (replicas : Int) (hash : Hash) (adds : List (List String)) (p : Nat)
    (hp : p ∈ positions hash replicas.toNat adds.flatten) :
    ∃ a ∈ adds.flatten, p ∈ positions hash replicas.toNat [a] ∧
      (ring replicas hash adds).hashMap.lookup p = some a := by
  induction adds using List.reverseRecOn with
  | nil => simp [positions] at hp
  | append_singleton adds addrs ih =>
    obtain ⟨h1, h2, -, -⟩ := ring_keys replicas hash adds
    obtain ⟨hA, hB⟩ := foldl_addAddr_hashMap addrs (ring replicas hash adds) p
    rw [h1, h2] at hA hB
    rw [ring_snoc, Add_hashMap]
    rw [List.flatten_append, positions_append] at hp
    simp only [List.flatten_append, List.flatten_cons, List.flatten_nil, List.append_nil,
      List.mem_append] at hp ⊢
    by_cases hnew : p ∈ positions hash replicas.toNat addrs
    · obtain ⟨a, ha, hpa, hl⟩ := hB hnew
      exact ⟨a, Or.inr ha, hpa, hl⟩
    · have hold : p ∈ positions hash replicas.toNat adds.flatten := by
        rcases hp with h | h
        · exact h
        · exact absurd h hnew
      obtain ⟨a, ha, hpa, hl⟩ := ih hold
      exact ⟨a, Or.inl ha, hpa, by rw [hA hnew]; exact hl⟩

theorem mem_ring_keys (replicas : Int) (hash : Hash) (adds : List (List String)) (q : Nat) :
    q ∈ (ring replicas hash adds).keys ↔ q ∈ positions hash replicas.toNat adds.flatten :=
  (ring_keys replicas hash adds).2.2.2.mem_iff

/-- C11 (the counterexample): with the hash of `TestHashing` and 3 copies, the
peers "2" and "12" share the position 12 (`"1" ++ "2"` and `"0" ++ "12"`); the
rings made by `Add("2", "12")` and by `Add("12", "2")` hold the same set of
peers and give the key "11" to "12" and to "2". -/
theorem Get_depends_on_insertion_order :
    (∀ a, a ∈ [["2", "12"]].flatten ↔ a ∈ [["12", "2"]].flatten) ∧
      (ring 3 testHash [["2", "12"]]).Get "11" = "12" ∧
      (ring 3 testHash [["12", "2"]]).Get "11" = "2" := by
  refine ⟨?_, by decide, by decide⟩
  intro a
  simp only [List.flatten_cons, List.flatten_nil, List.append_nil, List.mem_cons,
    List.mem_singleton, List.not_mem_nil, or_false]
  exact Or.comm

/-- C11 (as amended): for every injected hash function and replicas count
under which no two different peers have copies at the same ring position, two
rings built by adding the same set of peer ids, in any order and in any
grouping into `Add` calls, return the same peer for every key. -/
theorem Get_determined_by_peer_set (replicas : Int) (hash : Hash)
    (adds1 adds2 : List (List String)) (key : String)
    (hset : ∀ a, a ∈ adds1.flatten ↔ a ∈ adds2.flatten)
    (hcf : CollisionFree hash replicas.toNat adds1.flatten) :
    (ring replicas hash adds1).Get key = (ring replicas hash adds2).Get key := by
  have hmem : ∀ q, q ∈ (ring replicas hash adds1).keys ↔ q ∈ (ring replicas hash adds2).keys := by
    intro q
    rw [mem_ring_keys, mem_ring_keys, mem_positions, mem_positions]
    constructor
    · rintro ⟨a, ha, hq⟩; exact ⟨a, (hset a).1 ha, hq⟩
    · rintro ⟨a, ha, hq⟩; exact ⟨a, (hset a).2 ha, hq⟩
  obtain ⟨e1, -, s1, -⟩ := ring_keys replicas hash adds1
  obtain ⟨e2, -, s2, -⟩ := ring_keys replicas hash adds2
  by_cases hne1 : (ring replicas hash adds1).keys = []
  · have hne2 : (ring replicas hash adds2).keys = [] := by
      cases hk : (ring replicas hash adds2).keys with
      | nil => rfl
      | cons q rest =>
        have : q ∈ (ring replicas hash adds1).keys := (hmem q).2 (by simp [hk])
        rw [hne1] at this
        cases this
    rw [Get_empty _ key hne1, Get_empty _ key hne2]
  · have hne2 : (ring replicas hash adds2).keys ≠ [] := by
      intro h
      obtain ⟨q, hq⟩ := List.exists_mem_of_ne_nil _ hne1
      have := (hmem q).1 hq
      rw [h] at this
      cases this
    obtain ⟨p1, hs1, hg1⟩ := Get_isSuccessor _ key s1 hne1
    obtain ⟨p2, hs2, hg2⟩ := Get_isSuccessor _ key s2 hne2
    have hpos : (ring replicas hash adds1).pos key = (ring replicas hash adds2).pos key := by
      unfold Map.pos; rw [e1, e2]
    rw [hpos] at hs1
    have hp : p1 = p2 :=
      IsSuccessor_unique _ _ _ p1 p2 hs1 hs2 (fun q hq => (hmem q).1 hq) ((hmem p2).2 hs2.1)
    subst hp
    obtain ⟨a, ha, hpa, hla⟩ := ring_owner replicas hash adds1 p1
      ((mem_ring_keys replicas hash adds1 p1).1 hs1.1)
    obtain ⟨b, hb, hpb, hlb⟩ := ring_owner replicas hash adds2 p1
      ((mem_ring_keys replicas hash adds2 p1).1 hs2.1)
    have hab : a = b := hcf a ha b ((hset b).2 hb) p1 hpa hpb
    rw [hg1, hg2, hashMapGet, hashMapGet, hla, hlb, hab]

/-- C11 (as amended) on the peers of `TestHashing`: added as "6", "4", "2" in
one call or as "2", then "4" and "6", they give the key "27" the same owner. -/
theorem Get_determined_by_peer_set_witness :
    (ring 3 testHash [["6", "4", "2"]]).Get "27" =
      (ring 3 testHash [["2"], ["4", "6"]]).Get "27" :=
  Get_determined_by_peer_set 3 testHash [["6", "4", "2"]] [["2"], ["4", "6"]] "27"
    (by
      intro a
      simp only [List.flatten_cons, List.flatten_nil, List.append_nil, List.mem_cons,
        List.mem_singleton, List.not_mem_nil, or_false, List.cons_append, List.nil_append]
      tauto)
    (by unfold CollisionFree; decide)

end consistentHash

namespace gomap

theorem lookup_set {α β : Type} [DecidableEq α] (m : List (α × β)) (key k : α) (value : β) :
    (set m key value).lookup k = if k = key then some value else m.lookup k := by
  unfold set
  by_cases hk : k = key
  · subst hk; simp [List.lookup_cons]
  · have hb : (k == key) = false := by simpa using hk
    rw [if_neg hk, List.lookup_cons, hb]
    simp only
    induction m with
    | nil => rfl
    | cons x m ih =>
      obtain ⟨a, b⟩ := x
      by_cases hak : a = key
      · subst hak
        have hb2 : (k == a) = false := by simpa using hk
        simp [List.filter_cons, List.lookup_cons, hb2, ih]
      · by_cases hka : k = a
        · subst hka; simp [List.filter_cons, hak, List.lookup_cons]
        · have hb3 : (k == a) = false := by simpa using hka
          simp [List.filter_cons, hak, List.lookup_cons, hb3, ih]

theorem delete_set {α β : Type} [DecidableEq α] (m : List (α × β)) (key : α) (value : β) :
    delete (set m key value) key = delete m key := by
  simp [delete, set, List.filter_cons, List.filter_filter]

theorem delete_of_lookup_none {α β : Type} [DecidableEq α] (m : List (α × β)) (key : α)
    (h : m.lookup key = none) : delete m key = m := by
  induction m with
  | nil => rfl
  | cons x m ih =>
    obtain ⟨a, b⟩ := x
    by_cases hak : key = a
    · subst hak; simp [List.lookup_cons] at h
    · have hb : (key == a) = false := by simpa using hak
      rw [List.lookup_cons, hb] at h
      have hne : a ≠ key := fun e => hak e.symm
      simp only [delete, List.filter_cons, bne_iff_ne, ne_eq, hne, not_false_eq_true,
        decide_True, if_true]
      congr 1
      exact ih h

end gomap

namespace singleFlight

/-- A `Do` that finds no call for its key in the map runs `fn` once and
leaves the entries of the map as they were. -/
theorem Do_of_no_entry {R E : Type} (sf : SingleFlight R) (key : String)
    (fn : E → Option (R × E)) (env : E) (h : sf.entries.lookup key = none) :
    sf.Do key fn env = (fn env).map (fun x => (x.1, ⟨some sf.entries⟩, x.2)) := by
  unfold SingleFlight.entries at h
  unfold SingleFlight.Do
  simp only [h]
  cases hf : fn env with
  | none => rfl
  | some x =>
    obtain ⟨r, e1⟩ := x
    simp only [Option.map_some', gomap.delete_set, SingleFlight.entries,
      gomap.delete_of_lookup_none _ key h]

/-- A `Do` that returns has waited for a call of the map, the environment
being untouched, or has run `fn` once. -/
theorem Do_cases {R E : Type} (sf : SingleFlight R) (key : String)
    (fn : E → Option (R × E)) (env : E) (r : R) (sf1 : SingleFlight R) (env1 : E)
    (h : sf.Do key fn env = some (r, sf1, env1)) :
    env1 = env ∨ fn env = some (r, env1) := by
  unfold SingleFlight.Do at h
  cases hl : (sf.m.getD []).lookup key with
  | some c =>
    simp only [hl] at h
    by_cases hwg : c.wg = 0
    · rw [if_pos hwg] at h
      cases hres : c.res with
      | none => rw [hres] at h; cases h
      | some r0 =>
        rw [hres] at h
        simp only [Option.map_some', Option.some.injEq, Prod.mk.injEq] at h
        exact Or.inl h.2.2.symm
    · rw [if_neg hwg] at h; cases h
  | none =>
    simp only [hl] at h
    cases hf : fn env with
    | none => rw [hf] at h; cases h
    | some x =>
      obtain ⟨r0, e0⟩ := x
      rw [hf] at h
      simp only [Option.some.injEq, Prod.mk.injEq] at h
      right
      rw [h.1, h.2.2]

/-- C18: a `Do(key, fn)` that finds no call for `key` in the map returns
exactly when `fn` does, after one invocation of `fn` on the environment: it
returns the result of `fn` unchanged, leaves the environment as this one
invocation left it, and the call map holds the entries it held before. A
second `Do` on the same key after the first has returned is in the same
situation and invokes its own `fn`. -/
theorem Do_holds_no_result {R E : Type} (sf : SingleFlight R) (key : String)
    (fn fn2 : E → Option (R × E)) (env : E) (h : sf.entries.lookup key = none) :
    sf.Do key fn env = (fn env).map (fun x => (x.1, ⟨some sf.entries⟩, x.2)) ∧
      ∀ r sf1 env1, sf.Do key fn env = some (r, sf1, env1) →
        sf1.entries = sf.entries ∧
          sf1.Do key fn2 env1 = (fn2 env1).map (fun x => (x.1, ⟨some sf.entries⟩, x.2)) := by
  refine ⟨Do_of_no_entry sf key fn env h, ?_⟩
  intro r sf1 env1 h1
  rw [Do_of_no_entry sf key fn env h] at h1
  cases hf : fn env with
  | none => rw [hf] at h1; cases h1
  | some x =>
    rw [hf] at h1
    simp only [Option.map_some', Option.some.injEq, Prod.mk.injEq] at h1
    obtain ⟨-, hsf, -⟩ := h1
    have he : sf1.entries = sf.entries := by rw [← hsf]; rfl
    refine ⟨he, ?_⟩
    rw [Do_of_no_entry sf1 key fn2 env1 (by rw [he]; exact h), he]

/-- C18 on a counter: the environment counts the invocations, the first thunk
returns "a" and the second "b"; on the empty `SingleFlight` the first `Do`
returns "a" with the counter at 1 and an empty map, and the second `Do` on
the same key returns "b" with the counter at 2. -/
theorem Do_holds_no_result_witness :
    (⟨none⟩ : SingleFlight String).Do "k" (fun n : Nat => some ("a", n + 1)) 0 =
        some ("a", ⟨some []⟩, 1) ∧
      (⟨some []⟩ : SingleFlight String).Do "k" (fun n : Nat => some ("b", n + 1)) 1 =
        some ("b", ⟨some []⟩, 2) := by
  obtain ⟨h1, h2⟩ := Do_holds_no_result (⟨none⟩ : SingleFlight String) "k"
    (fun n : Nat => some ("a", n + 1)) (fun n : Nat => some ("b", n + 1)) 0 rfl
  exact ⟨h1, (h2 "a" ⟨some []⟩ 1 h1).2⟩

end singleFlight

namespace consistentHash

/-- The owner that `Get` returns is the empty string or one of the peers
added. -/
theorem Get_mem (replicas : Int) (hash : Hash) (adds : List (List String)) (key : String) :
    (ring replicas hash adds).Get key = "" ∨ (ring replicas hash adds).Get key ∈ adds.flatten := by
  obtain ⟨-, -, hs, -⟩ := ring_keys replicas hash adds
  by_cases hne : (ring replicas hash adds).keys = []
  · exact Or.inl (Get_empty _ key hne)
  · right
    obtain ⟨p, hsucc, hg⟩ := Get_isSuccessor _ key hs hne
    obtain ⟨a, ha, -, hl⟩ := ring_owner replicas hash adds p
      ((mem_ring_keys replicas hash adds p).1 hsucc.1)
    rw [hg, hashMapGet, hl]
    exact ha

theorem New_Add_eq_ring (replicas : Int) (hash : Hash) (addrs : List String) :
    (New replicas none hash).Add addrs = ring replicas hash [addrs] := rfl

end consistentHash

namespace distributedCache

open consistentHash in
/-- The clients that `Set` registers: one for each peer, at `addr + basePath`. -/
theorem lookup_clients (basePath : String) (addrs : List String)
    (init : List (String × httpClient)) (a : String) :
    (addrs.foldl (fun m addr => gomap.set m addr ⟨addr ++ basePath⟩) init).lookup a =
      if a ∈ addrs then some ⟨a ++ basePath⟩ else init.lookup a := by
  induction addrs generalizing init with
  | nil => simp
  | cons b addrs ih =>
    simp only [List.foldl_cons]
    rw [ih, gomap.lookup_set]
    by_cases h1 : a ∈ addrs
    · simp [h1]
    · by_cases h2 : a = b
      · subst h2; simp [h1]
      · simp [h1, h2]

theorem PickPeer_Set_eq (p : HTTPPool) (addrs : List String) (key : String) :
    (p.Set addrs).PickPeer key =
      if (consistentHash.ring defaultReplicas crc32.ChecksumIEEE [addrs]).Get key ≠ "" ∧
          (consistentHash.ring defaultReplicas crc32.ChecksumIEEE [addrs]).Get key ≠ p.self
      then some ((p.Set addrs).httpClients.lookup
        ((consistentHash.ring defaultReplicas crc32.ChecksumIEEE [addrs]).Get key), true)
      else some (none, false) := rfl

/-- C19 (as amended): on every pool on which `Set(addrs...)` has been called
and for every key, `PickPeer(key)` returns `(nil, false)` when the ring's
`Get(key)` is the empty string (the ring is empty, or the owner is a peer whose
id is the empty string) or is the pool's own identifier, and otherwise
returns `(client, true)`, the client being the one registered for the peer
that `Get(key)` returns, with `baseUrl` this peer followed by the base path. -/
theorem PickPeer_after_Set (p : HTTPPool) (addrs : List String) (key : String) :
    (p.Set addrs).PickPeer key =
      some (if (consistentHash.ring defaultReplicas crc32.ChecksumIEEE [addrs]).Get key ≠ "" ∧
            (consistentHash.ring defaultReplicas crc32.ChecksumIEEE [addrs]).Get key ≠ p.self
        then
          (some ⟨(consistentHash.ring defaultReplicas crc32.ChecksumIEEE [addrs]).Get key ++
            p.basePath⟩, true)
        else (none, false)) := by
  have hmem := consistentHash.Get_mem defaultReplicas crc32.ChecksumIEEE [addrs] key
  simp only [List.flatten_cons, List.flatten_nil, List.append_nil] at hmem
  have hcl : ∀ a, (p.Set addrs).httpClients.lookup a =
      if a ∈ addrs then some ⟨a ++ p.basePath⟩ else none :=
    fun a => lookup_clients p.basePath addrs [] a
  rw [PickPeer_Set_eq]
  generalize (consistentHash.ring defaultReplicas crc32.ChecksumIEEE [addrs]).Get key = owner
    at hmem ⊢
  by_cases h : owner ≠ "" ∧ owner ≠ p.self
  · have hin : owner ∈ addrs := by
      rcases hmem with h0 | h0
      · exact absurd h0 h.1
      · exact h0
    rw [if_pos h, if_pos h, hcl owner, if_pos hin]
  · rw [if_neg h, if_neg h]

/-- C19 (the counterexample): on the pool of "http://localhost:8001" after
`Set("")`, the ring is not empty (it holds the 50 copies of the peer ""), the
owner of the key "Tom" is the peer "", which is not the pool's own identifier
and for which the client of base URL "/_cache/" is registered; and
`PickPeer("Tom")` returns `(nil, false)`. -/
theorem PickPeer_refuses_empty_peer_id :
    (consistentHash.ring defaultReplicas crc32.ChecksumIEEE [[""]]).keys.length = 50 ∧
      (consistentHash.ring defaultReplicas crc32.ChecksumIEEE [[""]]).Get "Tom" = "" ∧
      (consistentHash.ring defaultReplicas crc32.ChecksumIEEE [[""]]).Get "Tom" ≠
        ((NewHTTPPool "http://localhost:8001").Set [""]).self ∧
      ((NewHTTPPool "http://localhost:8001").Set [""]).httpClients.lookup "" =
        some ⟨"/_cache/"⟩ ∧
      ((NewHTTPPool "http://localhost:8001").Set [""]).PickPeer "Tom" = some (none, false) := by
  have hlen : (consistentHash.ring defaultReplicas crc32.ChecksumIEEE [[""]]).keys.length = 50 := by
    rw [(consistentHash.ring_keys defaultReplicas crc32.ChecksumIEEE [[""]]).2.2.2.length_eq,
      consistentHash.positions_length]
    rfl
  have hown : (consistentHash.ring defaultReplicas crc32.ChecksumIEEE [[""]]).Get "Tom" = "" := by
    rcases consistentHash.Get_mem defaultReplicas crc32.ChecksumIEEE [[""]] "Tom" with h | h
    · exact h
    · simpa using h
  refine ⟨hlen, hown, ?_, ?_, ?_⟩
  · rw [hown]; decide
  · decide
  · rw [PickPeer_Set_eq, hown]; rfl

end distributedCache

namespace lru

theorem Find_lookup_none (c : CacheLRU) (key : String) :
    (c.Find key).2 = none ↔ c.cacheMap.lookup key = none := by
  unfold CacheLRU.Find
  cases c.cacheMap.lookup key <;> simp

theorem Find_of_lookup_none (c : CacheLRU) (key : String) (h : c.cacheMap.lookup key = none) :
    c.Find key = (c, none) := by
  simp [CacheLRU.Find, h]

/-- The loop of `Add` does not evict the last element of the list when the
byte count is exact and this element fits the capacity, or the cache is
unbounded. -/
theorem evict_keeps_last (fuel : Nat) (c c1 : CacheLRU) (front : List Nat) (e : Nat)
    (hx : c.nbytes = c.residentBytes) (hl : c.ll = front ++ [e])
    (hfit : c.maxBytes = 0 ∨ (c.mem e).size ≤ c.maxBytes) (h : c.evict fuel = some c1) :
    e ∈ c1.ll ∧ c1.mem = c.mem := by
  induction fuel generalizing c front with
  | zero =>
    by_cases hc : c.maxBytes ≠ 0 ∧ c.maxBytes < c.nbytes
    · rw [evict_none_zero c hc] at h; cases h
    · rw [evict_zero_of_not c 0 hc] at h; cases h
      exact ⟨by rw [hl]; simp, rfl⟩
  | succ fuel ih =>
    by_cases hc : c.maxBytes ≠ 0 ∧ c.maxBytes < c.nbytes
    · rw [evict_succ c fuel hc] at h
      cases front with
      | nil =>
        exfalso
        rw [hx, residentBytes_eq, hl] at hc
        simp only [List.nil_append, List.map_cons, List.map_nil, List.sum_cons, List.sum_nil,
          add_zero] at hc
        rcases hfit with h0 | h0
        · exact hc.1 h0
        · omega
      | cons a front1 =>
        have hl1 : c.ll = a :: (front1 ++ [e]) := by rw [hl]; rfl
        have hR := Remove_cons c a (front1 ++ [e]) hl1
        have hx1 : c.Remove.nbytes = c.Remove.residentBytes := by
          rw [hR, residentBytes_eq]
          simp only
          rw [hx, residentBytes_eq, hl1]
          simp
        have hl2 : c.Remove.ll = front1 ++ [e] := by rw [hR]
        have hm : c.Remove.mem = c.mem := by rw [hR]
        have hmax : c.Remove.maxBytes = c.maxBytes := by rw [hR]
        obtain ⟨g1, g2⟩ := ih c.Remove front1 hx1 hl2 (by rw [hmax, hm]; exact hfit) h
        exact ⟨g1, by rw [g2, hm]⟩
    · rw [evict_zero_of_not c _ hc] at h; cases h
      exact ⟨by rw [hl]; simp, rfl⟩

/-- On a cache with a consistent index, an exact byte count and a capacity
that is not negative, `Add` of a key that is not resident returns; the cache
is then in the same order, and the new entry is resident when it fits the
capacity or the cache is unbounded. -/
theorem Add_new (c : CacheLRU) (key : String) (value : Value) (fuel : Nat) (hi : Inv c)
    (hx : c.nbytes = c.residentBytes) (hmax : 0 ≤ c.maxBytes)
    (hnew : c.cacheMap.lookup key = none) (hfuel : c.ll.length + 1 ≤ fuel) :
    ∃ c1, c.Add fuel key value = some c1 ∧ Inv c1 ∧ c1.nbytes = c1.residentBytes ∧
      c1.maxBytes = c.maxBytes ∧
      ((c.maxBytes = 0 ∨ len key + value.Len ≤ c.maxBytes) → (c1.Find key).2 = some value) := by
  have hsx : (c.store key value).nbytes = (c.store key value).residentBytes := by
    rw [store_miss_residentBytes c key value hi hnew, ← hx, store_miss c key value hnew]
  have hsl : (c.store key value).ll = c.ll ++ [c.next] := by
    rw [store_miss c key value hnew]
  have hsm : (c.store key value).maxBytes = c.maxBytes := store_maxBytes c key value
  have hsn : (c.store key value).mem c.next = ⟨key, value⟩ := by
    rw [store_miss c key value hnew]; simp
  obtain ⟨c1, h1⟩ := evict_terminates (c.store key value) hsx (by rw [hsm]; exact hmax)
  have hadd : c.Add fuel key value = some c1 :=
    evict_mono _ fuel _ c1 h1 (by rw [hsl]; simpa using hfuel)
  obtain ⟨n, -, hev, -⟩ := evict_spec _ _ _ h1
  have hi1 : Inv c1 := Inv_evict _ _ _ (Inv_store c key value hi) h1
  refine ⟨c1, hadd, hi1, ?_, by rw [hev.maxBytes, hsm], ?_⟩
  · rw [Evicts_nbytes _ _ _ hsx hev, residentBytes_eq, hev.ll, hev.mem]
  · intro hfit
    obtain ⟨hmem, hmm⟩ := evict_keeps_last _ _ c1 c.ll c.next hsx hsl
      (by rw [hsm, hsn]; exact hfit) h1
    have hlk := hi1.listed c.next hmem
    rw [hmm, hsn] at hlk
    simp only [CacheLRU.Find, hlk, hmm, hsn]

end lru

namespace distributedCache

theorem cache_find_miss (c : cache) (key : String) (h : (c.find key).2 = none) :
    (c.find key).1 = c := by
  obtain ⟨l, cb⟩ := c
  cases l with
  | none => rfl
  | some l =>
    have hl : (l.Find key).2 = none := h
    have := lru.Find_of_lookup_none l key ((lru.Find_lookup_none l key).1 hl)
    simp [cache.find, this]

theorem NewGroup_OK (name : String) (cacheBytes : Int) (getter : Getter) :
    (NewGroup name cacheBytes getter).mainCache.OK := by
  intro l hl
  cases hl

/-- The method `cache.add` on a cache in order, of capacity not negative, for
a key that misses: it returns, the cache stays in order, and the new entry is
found afterwards when it fits the capacity or the cache is unbounded. -/
theorem cache_add_miss (c : cache) (key : String) (value : ByteView) (fuel : Nat)
    (hok : c.OK) (hcap : 0 ≤ c.cacheBytes) (hmiss : (c.find key).2 = none)
    (hfuel : c.fuel ≤ fuel) :
    ∃ c1, c.add fuel key value = some c1 ∧ c1.OK ∧ c1.cacheBytes = c.cacheBytes ∧
      ((c.cacheBytes = 0 ∨ lru.len key + lru.Value.Len value ≤ c.cacheBytes) →
        (c1.find key).2 = some value) := by
  obtain ⟨l, cb⟩ := c
  cases l with
  | none =>
    obtain ⟨c1, h1, h2, h3, h4, h5⟩ := lru.Add_new (lru.New cb false) key value fuel
      (lru.Inv_New cb false) rfl hcap rfl hfuel
    refine ⟨⟨some c1, cb⟩, by simp [cache.add, h1], ?_, rfl, ?_⟩
    · intro l hl
      cases hl
      exact ⟨h2, h3, h4⟩
    · intro hfit
      exact h5 hfit
  | some l =>
    obtain ⟨hi, hx, hm⟩ := hok l rfl
    have hl : (l.Find key).2 = none := hmiss
    obtain ⟨c1, h1, h2, h3, h4, h5⟩ := lru.Add_new l key value fuel hi hx
      (by rw [hm]; exact hcap) ((lru.Find_lookup_none l key).1 hl) hfuel
    refine ⟨⟨some c1, cb⟩, by simp [cache.add, h1], ?_, rfl, ?_⟩
    · intro l1 hl1
      cases hl1
      exact ⟨h2, h3, by rw [h4]; exact hm⟩
    · intro hfit
      have hm2 : l.maxBytes = cb := hm
      exact h5 (by rw [hm2]; exact hfit)

/-- The function that `load` passes to `Do`, in terms of what the peers do:
the value of the peer when there is one, and otherwise the origin loader. -/
theorem loadFn_eq (fuel : Nat) (key : String) (g : Group) :
    g.loadFn fuel key =
      match g.peerOutcome key with
      | (evs, some (.ok v)) => some (.ok v, { g with events := g.events ++ evs })
      | (evs, _) => ({ g with events := g.events ++ evs }).getLocally fuel key := by
  obtain ⟨name, getter, mc, peers, loader, events⟩ := g
  unfold Group.loadFn Group.peerOutcome
  cases peers with
  | none => simp
  | some picker =>
    simp only
    cases hk : picker events key with
    | none => rfl
    | some peer =>
      simp only [Group.getFromPeer]
      cases hr : peer (events ++ [Event.pick key]) { Group := name, Key := key } with
      | error err => simp [List.append_assoc]
      | ok res => simp [List.append_assoc]

/-- A `Get` of a key that is not empty, misses the cache and has no call in
the coalescer runs the function of `load` once. -/
theorem Get_on_miss (fuel : Nat) (g : Group) (key : String) (hkey : key ≠ "")
    (hmiss : (g.mainCache.find key).2 = none) (hfree : g.loader.entries.lookup key = none) :
    g.Get fuel key =
      (g.loadFn fuel key).map (fun x => (x.1, { x.2 with loader := ⟨some g.loader.entries⟩ })) := by
  unfold Group.Get
  rw [if_neg hkey, hmiss, cache_find_miss _ key hmiss]
  simp only [Group.load]
  rw [singleFlight.Do_of_no_entry g.loader key (Group.loadFn fuel key) g hfree]
  cases g.loadFn fuel key with
  | none => rfl
  | some x => rfl

theorem getLocally_error (fuel : Nat) (g : Group) (key e : String)
    (h : g.getter g.events key = .error e) :
    g.getLocally fuel key =
      some (.error e, { g with events := g.events ++ [Event.load key] }) := by
  simp [Group.getLocally, h]

theorem getLocally_events (fuel : Nat) (g : Group) (key : String)
    (r : Except String ByteView) (g1 : Group) (h : g.getLocally fuel key = some (r, g1)) :
    g1.events = g.events ++ [Event.load key] := by
  unfold Group.getLocally at h
  cases hg : g.getter g.events key with
  | error err =>
    simp only [hg, Option.some.injEq, Prod.mk.injEq] at h
    rw [← h.2]
  | ok bytes =>
    simp only [hg, Group.populateCache] at h
    cases hadd : cache.add fuel g.mainCache key bytes with
    | none => simp [hadd] at h
    | some c1 =>
      simp only [hadd, Option.map_some', Option.some.injEq, Prod.mk.injEq] at h
      rw [← h.2]

/-- The origin path when the loader succeeds, on a cache in order of capacity
not negative and for a key that misses: the loader is asked once, its bytes
are returned and added to the cache. -/
theorem getLocally_ok (fuel : Nat) (g : Group) (key bytes : String)
    (h : g.getter g.events key = .ok bytes) (hok : g.mainCache.OK)
    (hcap : 0 ≤ g.mainCache.cacheBytes) (hmiss : (g.mainCache.find key).2 = none)
    (hfuel : g.mainCache.fuel ≤ fuel) :
    ∃ g1, g.getLocally fuel key = some (.ok bytes, g1) ∧
      g1.events = g.events ++ [Event.load key] ∧ g1.loader = g.loader ∧
      g.mainCache.add fuel key bytes = some g1.mainCache ∧ g1.mainCache.OK ∧
      g1.mainCache.cacheBytes = g.mainCache.cacheBytes ∧
      ((g.mainCache.cacheBytes = 0 ∨
          lru.len key + lru.Value.Len bytes ≤ g.mainCache.cacheBytes) →
        (g1.mainCache.find key).2 = some bytes) := by
  obtain ⟨c1, h1, h2, h3, h4⟩ := cache_add_miss g.mainCache key bytes fuel hok hcap hmiss hfuel
  refine ⟨{ g with events := g.events ++ [Event.load key], mainCache := c1 }, ?_, rfl, rfl,
    h1, h2, h3, h4⟩
  simp [Group.getLocally, h, Group.populateCache, h1]

/-- C13: for every group state, `Get("")` returns the error "key is required"
and leaves the group as it is: nothing is asked of the origin loader or of the
peers, and the cache is unchanged. -/
theorem Get_empty_key (fuel : Nat) (g : Group) :
    g.Get fuel "" = some (.error "key is required", g) ∧
      ∀ r g1, g.Get fuel "" = some (r, g1) →
        g1.events = g.events ∧ g1.mainCache.entries = g.mainCache.entries := by
  have h : g.Get fuel "" = some (.error "key is required", g) := by
    simp [Group.Get]
  refine ⟨h, ?_⟩
  intro r g1 h1
  rw [h] at h1
  cases h1
  exact ⟨rfl, rfl⟩

/-- C14: for every key that is not empty, misses the cache and has no call in
the coalescer, when no peer serves it and the origin loader returns the error
`e`, `Get(key)` returns exactly `e`; the cache is left as it was, the loader
has been asked once; and in the state reached the key misses again and has no
call in the coalescer, so that a later `Get(key)` that no peer serves asks the
loader again. -/
theorem Get_loader_error (fuel : Nat) (g : Group) (key e : String) (hkey : key ≠ "")
    (hmiss : (g.mainCache.find key).2 = none) (hfree : g.loader.entries.lookup key = none)
    (hpeer : ∀ v, (g.peerOutcome key).2 ≠ some (.ok v))
    (herr : g.getter (g.events ++ (g.peerOutcome key).1) key = .error e) :
    ∃ g1, g.Get fuel key = some (.error e, g1) ∧ g1.mainCache = g.mainCache ∧
      g1.events = g.events ++ (g.peerOutcome key).1 ++ [Event.load key] ∧
      (g1.mainCache.find key).2 = none ∧ g1.loader.entries.lookup key = none ∧
      ∀ r2 g2, (∀ v, (g1.peerOutcome key).2 ≠ some (.ok v)) →
        g1.Get fuel key = some (r2, g2) →
        g2.events = g1.events ++ (g1.peerOutcome key).1 ++ [Event.load key] := by
  have hget : ∀ (g : Group), (g.mainCache.find key).2 = none →
      g.loader.entries.lookup key = none → (∀ v, (g.peerOutcome key).2 ≠ some (.ok v)) →
      g.Get fuel key =
        (({ g with events := g.events ++ (g.peerOutcome key).1 }).getLocally fuel key).map
          (fun x : Except String ByteView × Group =>
            (x.1, { x.2 with loader := ⟨some g.loader.entries⟩ })) := by
    intro g hm hf hp
    rw [Get_on_miss fuel g key hkey hm hf, loadFn_eq]
    rcases hpo : g.peerOutcome key with ⟨evs, _ | _ | v⟩
    · rfl
    · rfl
    · exact absurd (by rw [hpo]) (hp v)
  refine ⟨{ g with loader := ⟨some g.loader.entries⟩,
                   events := g.events ++ (g.peerOutcome key).1 ++ [Event.load key] },
    ?_, rfl, rfl, hmiss, hfree, ?_⟩
  · rw [hget g hmiss hfree hpeer,
      getLocally_error fuel { g with events := g.events ++ (g.peerOutcome key).1 } key e herr]
    rfl
  · intro r2 g2 hp2 h2
    rw [hget { g with loader := ⟨some g.loader.entries⟩,
                      events := g.events ++ (g.peerOutcome key).1 ++ [Event.load key] }
      hmiss hfree hp2] at h2
    rw [Option.map_eq_some'] at h2
    obtain ⟨x, hx, hx2⟩ := h2
    simp only [Prod.mk.injEq] at hx2
    rw [← hx2.2]
    exact getLocally_events fuel _ key x.1 x.2 hx

theorem getLocally_cache_cases (fuel : Nat) (g : Group) (key : String)
    (r : Except String ByteView) (g1 : Group) (h : g.getLocally fuel key = some (r, g1)) :
    g1.mainCache = g.mainCache ∨
      ∃ bytes, g.getter g.events key = .ok bytes ∧ r = .ok bytes ∧
        g.mainCache.add fuel key bytes = some g1.mainCache := by
  unfold Group.getLocally at h
  cases hg : g.getter g.events key with
  | error err =>
    simp only [hg, Option.some.injEq, Prod.mk.injEq] at h
    left
    rw [← h.2]
  | ok bytes =>
    simp only [hg, Group.populateCache] at h
    cases hadd : cache.add fuel g.mainCache key bytes with
    | none => simp [hadd] at h
    | some c1 =>
      simp only [hadd, Option.map_some', Option.some.injEq, Prod.mk.injEq] at h
      right
      exact ⟨bytes, rfl, h.1.symm, by rw [← h.2]; exact hadd⟩

theorem loadFn_cache_cases (fuel : Nat) (g : Group) (key : String)
    (r : Except String ByteView) (g1 : Group) (h : g.loadFn fuel key = some (r, g1)) :
    g1.mainCache = g.mainCache ∨
      ∃ hist bytes, g.getter hist key = .ok bytes ∧ r = .ok bytes ∧
        g.mainCache.add fuel key bytes = some g1.mainCache := by
  rw [loadFn_eq] at h
  rcases hpo : g.peerOutcome key with ⟨evs, _ | _ | v⟩
  · rw [hpo] at h
    rcases getLocally_cache_cases fuel _ key r g1 h with h1 | ⟨bytes, h1, h2, h3⟩
    · exact Or.inl h1
    · exact Or.inr ⟨_, bytes, h1, h2, h3⟩
  · rw [hpo] at h
    rcases getLocally_cache_cases fuel _ key r g1 h with h1 | ⟨bytes, h1, h2, h3⟩
    · exact Or.inl h1
    · exact Or.inr ⟨_, bytes, h1, h2, h3⟩
  · rw [hpo] at h
    simp only [Option.some.injEq, Prod.mk.injEq] at h
    left
    rw [← h.2]

/-- In every `Get` that returns, the cache is left as it was, or as `find`
left it, or it received one `add`, of the bytes that the origin loader
returned for this key after a miss. -/
theorem Get_cache_cases (fuel : Nat) (g : Group) (key : String)
    (r : Except String ByteView) (g1 : Group) (h : g.Get fuel key = some (r, g1)) :
    g1.mainCache = g.mainCache ∨ g1.mainCache = (g.mainCache.find key).1 ∨
      ∃ hist bytes, g.getter hist key = .ok bytes ∧ r = .ok bytes ∧
        (g.mainCache.find key).2 = none ∧
        (g.mainCache.find key).1.add fuel key bytes = some g1.mainCache := by
  unfold Group.Get at h
  by_cases hkey : key = ""
  · rw [if_pos hkey] at h
    simp only [Option.some.injEq, Prod.mk.injEq] at h
    left
    rw [← h.2]
  · rw [if_neg hkey] at h
    cases hf : (g.mainCache.find key).2 with
    | some v =>
      simp only [hf, Option.some.injEq, Prod.mk.injEq] at h
      right; left
      rw [← h.2]
    | none =>
      simp only [hf, Group.load] at h
      cases hdo : g.loader.Do key (Group.loadFn fuel key)
          { g with mainCache := (g.mainCache.find key).1 } with
      | none =>
        have hdo2 : singleFlight.SingleFlight.Do
            ({ g with mainCache := (g.mainCache.find key).1 } : Group).loader key
            (Group.loadFn fuel key) { g with mainCache := (g.mainCache.find key).1 } = none := hdo
        rw [hdo2] at h
        cases h
      | some x =>
        obtain ⟨r0, sf0, g0⟩ := x
        have hdo2 : singleFlight.SingleFlight.Do
            ({ g with mainCache := (g.mainCache.find key).1 } : Group).loader key
            (Group.loadFn fuel key) { g with mainCache := (g.mainCache.find key).1 } =
            some (r0, sf0, g0) := hdo
        rw [hdo2] at h
        simp only [Option.some.injEq, Prod.mk.injEq] at h
        rcases singleFlight.Do_cases _ _ _ _ _ _ _ hdo with h1 | h1
        · right; left
          rw [← h.2, h1]
        · rcases loadFn_cache_cases fuel _ key r0 g0 h1 with h2 | ⟨hist, bytes, h2, h3, h4⟩
          · right; left
            rw [← h.2]
            exact h2
          · right; right
            refine ⟨hist, bytes, h2, by rw [← h.1]; exact h3, rfl, ?_⟩
            rw [← h.2]
            exact h4

/-- C15: for every key, on every group with no call in the coalescer for it:
when the key misses the cache, the picker names a peer for it and the `Get` of
that peer succeeds with the value `v`, the call `Get(key)` returns, the origin
loader is not invoked and the cache is left as it was; and when in this call
the picker is asked, the call returns `v`, the picker and the peer having been
asked once each. The picker is asked unless the key is empty: `Get` refuses the
empty key before it consults the cache, so that nothing is asked of anyone. In
every `Get` that returns, the cache is left as it was or as `find` left it, or
else it received one `add`, of the bytes that the origin loader returned for
the key. -/
theorem Get_peer_value_not_cached (fuel : Nat) (g : Group) (key : String) (v : ByteView)
    (picker : PeerPicker) (peer : PeerGetter)
    (hmiss : (g.mainCache.find key).2 = none)
    (hfree : g.loader.entries.lookup key = none)
    (hp : g.peers = some picker) (hpick : picker g.events key = some peer)
    (hv : peer (g.events ++ [Event.pick key]) { Group := g.name, Key := key } = .ok ⟨v⟩) :
    (∃ r g1, g.Get fuel key = some (r, g1) ∧ g1.mainCache = g.mainCache ∧
        (∀ k, Event.load k ∉ g1.events.drop g.events.length) ∧
        (Event.pick key ∈ g1.events.drop g.events.length →
          r = .ok v ∧ g1.events = g.events ++ [Event.pick key, Event.fetch g.name key]) ∧
        (Event.pick key ∈ g1.events.drop g.events.length ↔ key ≠ "") ∧
        (key = "" → r = .error "key is required" ∧ g1.events = g.events)) ∧
      ∀ fuel2 (g2 : Group) key2 r g3, g2.Get fuel2 key2 = some (r, g3) →
        g3.mainCache = g2.mainCache ∨ g3.mainCache = (g2.mainCache.find key2).1 ∨
          ∃ hist bytes, g2.getter hist key2 = .ok bytes ∧ r = .ok bytes ∧
            (g2.mainCache.find key2).2 = none ∧
            (g2.mainCache.find key2).1.add fuel2 key2 bytes = some g3.mainCache := by
  refine ⟨?_, fun fuel2 g2 key2 r g3 h => Get_cache_cases fuel2 g2 key2 r g3 h⟩
  by_cases hkey : key = ""
  · refine ⟨.error "key is required", g, by simp [Group.Get, hkey], rfl, ?_, ?_, ?_, ?_⟩
    · intro k hk
      simp at hk
    · intro hk
      simp at hk
    · simp [hkey]
    · intro _
      exact ⟨rfl, rfl⟩
  · have hpeer : g.peerOutcome key =
        ([Event.pick key, Event.fetch g.name key], some (.ok v)) := by
      simp [Group.peerOutcome, hp, hpick, hv]
    refine ⟨.ok v,
      { g with
        loader := ⟨some g.loader.entries⟩
        events := g.events ++ [Event.pick key, Event.fetch g.name key] },
      ?_, rfl, ?_, ?_, ?_, ?_⟩
    · rw [Get_on_miss fuel g key hkey hmiss hfree, loadFn_eq, hpeer]
      rfl
    · intro k hk
      simp at hk
    · intro _
      exact ⟨rfl, rfl⟩
    · simp [hkey]
    · intro h0
      exact absurd h0 hkey

/-- C15 on a group whose picker names a peer that answers "v" for every key:
`Get("Tom")` asks the picker and the peer, returns "v" and leaves the cache
empty; `Get("")` is refused and asks nothing. -/
theorem Get_peer_value_not_cached_witness :
    (∃ g1, ({ NewGroup "g" 2048 (fun _ key => .ok key) with
          peers := some (fun _ _ => some (fun _ _ => .ok ⟨"v"⟩)) } : Group).Get 1 "Tom" =
        some (.ok "v", g1) ∧
      g1.mainCache.entries = [] ∧
      g1.events = [Event.pick "Tom", Event.fetch "g" "Tom"]) ∧
      ∃ r g1, ({ NewGroup "g" 2048 (fun _ key => .ok key) with
          peers := some (fun _ _ => some (fun _ _ => .ok ⟨"v"⟩)) } : Group).Get 1 "" =
        some (r, g1) ∧
      g1.mainCache.entries = [] ∧ g1.events = [] := by
  obtain ⟨r, g1, h1, h2, -, h4, h5, -⟩ :=
    (Get_peer_value_not_cached 1
      ({ NewGroup "g" 2048 (fun _ key => .ok key) with
          peers := some (fun _ _ => some (fun _ _ => .ok ⟨"v"⟩)) } : Group)
      "Tom" "v" (fun _ _ => some (fun _ _ => .ok ⟨"v"⟩)) (fun _ _ => .ok ⟨"v"⟩)
      rfl rfl rfl rfl rfl).1
  obtain ⟨r2, g2, k1, k2, -, -, -, k6⟩ :=
    (Get_peer_value_not_cached 1
      ({ NewGroup "g" 2048 (fun _ key => .ok key) with
          peers := some (fun _ _ => some (fun _ _ => .ok ⟨"v"⟩)) } : Group)
      "" "v" (fun _ _ => some (fun _ _ => .ok ⟨"v"⟩)) (fun _ _ => .ok ⟨"v"⟩)
      rfl rfl rfl rfl rfl).1
  have h6 := h4 (h5.2 (by decide))
  refine ⟨⟨g1, ?_, by rw [h2]; rfl, h6.2⟩, r2, g2, k1, by rw [k2]; rfl, (k6 rfl).2⟩
  rw [h1, h6.1]

/-- The guard on the empty key comes before the cache and the peers: on a
group with a picker that names a peer for every key, the peer answering "v",
`Get("")` returns the error "key is required" and asks nothing. -/
theorem Get_empty_key_with_peers :
    (({ NewGroup "g" 2048 (fun _ key => .ok key) with
          peers := some (fun _ _ => some (fun _ _ => .ok ⟨"v"⟩)) } : Group).Get 1 "").map
        (fun x => (x.1, x.2.events)) = some (.error "key is required", []) :=
  rfl

/-- C16 (the counterexample): a group with a picker that names a peer for
every key, the peer failing with "down", and a loader that succeeds on every
key. `Get("")` returns the error "key is required" and the loader is not
asked. With a capacity of 5, `Get("Tom")` returns the loader's "Tom" and the
value is not in the cache afterwards. -/
theorem fallback_on_empty_key_or_small_cache :
    ({ NewGroup "g" 2048 (fun _ key => .ok key) with
          peers := some (fun _ _ => some (fun _ _ => .error "down")) } : Group).peerOutcome "" =
        ([Event.pick "", Event.fetch "g" ""], some (.error "down")) ∧
      (({ NewGroup "g" 2048 (fun _ key => .ok key) with
          peers := some (fun _ _ => some (fun _ _ => .error "down")) } : Group).Get 1 "").map
        (fun x => (x.1, x.2.events)) = some (.error "key is required", []) ∧
      (({ NewGroup "g" 5 (fun _ key => .ok key) with
          peers := some (fun _ _ => some (fun _ _ => .error "down")) } : Group).Get 1 "Tom").map
        (fun x => (x.1, x.2.mainCache.entries, (x.2.mainCache.find "Tom").2)) =
        some (.ok "Tom", [], none) :=
  ⟨rfl, rfl, rfl⟩

/-- C16 (as amended): for every key that is not empty, misses the cache and
has no call in the coalescer, when the picker names a peer and the peer's
`Get` fails, `Get(key)` returns exactly what the origin path returns. When the
loader fails with `e`, `Get` returns `e`, never the error of the peer. When the
loader succeeds, on a cache in order of capacity not negative, `Get` returns
the loader's bytes, the loader was asked once, the bytes were added to the
cache, and they are found there afterwards when they fit the capacity or the
cache is unbounded. -/
theorem Get_peer_fallback (fuel : Nat) (g : Group) (key pe : String) (evs : List Event)
    (hkey : key ≠ "") (hmiss : (g.mainCache.find key).2 = none)
    (hfree : g.loader.entries.lookup key = none)
    (hpeer : g.peerOutcome key = (evs, some (.error pe))) :
    g.Get fuel key =
        (({ g with events := g.events ++ evs }).getLocally fuel key).map
          (fun x : Except String ByteView × Group =>
            (x.1, { x.2 with loader := ⟨some g.loader.entries⟩ })) ∧
      (∀ e, g.getter (g.events ++ evs) key = .error e →
        ∃ g1, g.Get fuel key = some (.error e, g1) ∧ g1.mainCache = g.mainCache ∧
          g1.events = g.events ++ evs ++ [Event.load key]) ∧
      (∀ bytes, g.getter (g.events ++ evs) key = .ok bytes → g.mainCache.OK →
        0 ≤ g.mainCache.cacheBytes → g.mainCache.fuel ≤ fuel →
        ∃ g1, g.Get fuel key = some (.ok bytes, g1) ∧
          g1.events = g.events ++ evs ++ [Event.load key] ∧
          g.mainCache.add fuel key bytes = some g1.mainCache ∧
          ((g.mainCache.cacheBytes = 0 ∨
              lru.len key + lru.Value.Len bytes ≤ g.mainCache.cacheBytes) →
            (g1.mainCache.find key).2 = some bytes)) := by
  have hget : g.Get fuel key =
      (({ g with events := g.events ++ evs }).getLocally fuel key).map
        (fun x : Except String ByteView × Group =>
          (x.1, { x.2 with loader := ⟨some g.loader.entries⟩ })) := by
    rw [Get_on_miss fuel g key hkey hmiss hfree, loadFn_eq, hpeer]
  refine ⟨hget, ?_, ?_⟩
  · intro e he
    refine ⟨{ g with loader := ⟨some g.loader.entries⟩,
                     events := g.events ++ evs ++ [Event.load key] }, ?_, rfl, rfl⟩
    rw [hget, getLocally_error fuel { g with events := g.events ++ evs } key e he]
    rfl
  · intro bytes hb hok hcap hfuel
    obtain ⟨g1, h1, h2, -, h4, -, -, h7⟩ :=
      getLocally_ok fuel { g with events := g.events ++ evs } key bytes hb hok hcap hmiss hfuel
    refine ⟨{ g1 with loader := ⟨some g.loader.entries⟩ }, ?_, h2, h4, h7⟩
    rw [hget, h1]
    rfl

/-- C16 (as amended) on a group of capacity 2048 whose peer fails with
"down": `Get("Tom")` returns the loader's "Tom", asks the loader once and
leaves the value in the cache. -/
theorem Get_peer_fallback_witness :
    ∃ g1, ({ NewGroup "g" 2048 (fun _ key => .ok key) with
          peers := some (fun _ _ => some (fun _ _ => .error "down")) } : Group).Get 1 "Tom" =
        some (.ok "Tom", g1) ∧
      g1.events = [Event.pick "Tom", Event.fetch "g" "Tom", Event.load "Tom"] ∧
      (g1.mainCache.find "Tom").2 = some "Tom" := by
  obtain ⟨g1, h1, h2, -, h4⟩ :=
    (Get_peer_fallback 1
      ({ NewGroup "g" 2048 (fun _ key => .ok key) with
          peers := some (fun _ _ => some (fun _ _ => .error "down")) } : Group)
      "Tom" "down" [Event.pick "Tom", Event.fetch "g" "Tom"] (by decide) rfl rfl rfl).2.2
      "Tom" rfl (NewGroup_OK "g" 2048 (fun _ key => .ok key)) (by decide) (by decide)
  exact ⟨g1, h1, h2, h4 (Or.inr (by decide))⟩

theorem Get_on_hit (fuel : Nat) (g : Group) (key : String) (v : ByteView) (hkey : key ≠ "")
    (hhit : (g.mainCache.find key).2 = some v) :
    g.Get fuel key = some (.ok v, { g with mainCache := (g.mainCache.find key).1 }) := by
  unfold Group.Get
  rw [if_neg hkey, hhit]

/-- C12 (the counterexample): on a group with no peers whose loader succeeds
on every key, `Get("")` returns the error "key is required" and the loader is
not asked. -/
theorem empty_key_wins_over_loader :
    (NewGroup "g" 2048 (fun _ key => .ok key)).peers.isNone = true ∧
      (NewGroup "g" 2048 (fun _ key => .ok key)).getter [] "" = .ok "" ∧
      ((NewGroup "g" 2048 (fun _ key => .ok key)).Get 1 "").map
        (fun x => (x.1, x.2.events)) = some (.error "key is required", []) :=
  ⟨rfl, rfl, rfl⟩

/-- C12 (as amended): for a group with no peers registered, a cache in order
of capacity not negative, and every key that is not empty, misses the cache,
has no call in the coalescer and for which the origin loader succeeds,
`Get(key)` asks the loader exactly once and returns the loader's bytes. When
the bytes fit the capacity (or the cache is unbounded), the following
`Get(key)` returns the same bytes and does not ask the loader. In every
state in which the key is in the cache, `Get(key)` returns the cached value
without asking anything. -/
theorem Get_miss_then_hit (fuel : Nat) (g : Group) (key bytes : String)
    (hpeers : g.peers = none) (hkey : key ≠ "") (hmiss : (g.mainCache.find key).2 = none)
    (hfree : g.loader.entries.lookup key = none) (hload : g.getter g.events key = .ok bytes)
    (hok : g.mainCache.OK) (hcap : 0 ≤ g.mainCache.cacheBytes)
    (hfuel : g.mainCache.fuel ≤ fuel) :
    ∃ g1, g.Get fuel key = some (.ok bytes, g1) ∧
      g1.events = g.events ++ [Event.load key] ∧
      ((g.mainCache.cacheBytes = 0 ∨
          lru.len key + lru.Value.Len bytes ≤ g.mainCache.cacheBytes) →
        ∃ g2, g1.Get fuel key = some (.ok bytes, g2) ∧ g2.events = g1.events) ∧
      ∀ fuel2 (g3 : Group) v, (g3.mainCache.find key).2 = some v →
        ∃ g4, g3.Get fuel2 key = some (.ok v, g4) ∧ g4.events = g3.events := by
  have hpo : g.peerOutcome key = ([], none) := by
    simp [Group.peerOutcome, hpeers]
  have hg : ({ g with events := g.events ++ [] } : Group) = g := by
    simp
  obtain ⟨g1, h1, h2, -, -, -, -, h7⟩ := getLocally_ok fuel g key bytes hload hok hcap hmiss hfuel
  have hhit : ∀ fuel2 (g3 : Group) v, (g3.mainCache.find key).2 = some v →
      ∃ g4, g3.Get fuel2 key = some (.ok v, g4) ∧ g4.events = g3.events :=
    fun fuel2 g3 v hv => ⟨_, Get_on_hit fuel2 g3 key v hkey hv, rfl⟩
  refine ⟨{ g1 with loader := ⟨some g.loader.entries⟩ }, ?_, h2, ?_, hhit⟩
  · rw [Get_on_miss fuel g key hkey hmiss hfree, loadFn_eq, hpo]
    simp only
    rw [hg, h1]
    rfl
  · intro hfit
    exact hhit fuel _ bytes (h7 hfit)

/-- C12 (as amended) on the group of the test `TestGet`: the first
`Get("Tom")` returns "630" and asks the loader once; the second returns
"630" and the loader has still been asked once. -/
theorem Get_miss_then_hit_witness :
    ∃ g1 g2, (NewGroup "scores" 2048 testGetter).Get 1 "Tom" = some (.ok "630", g1) ∧
      g1.events = [Event.load "Tom"] ∧
      g1.Get 1 "Tom" = some (.ok "630", g2) ∧ g2.events = [Event.load "Tom"] := by
  obtain ⟨g1, h1, h2, h3, -⟩ :=
    Get_miss_then_hit 1 (NewGroup "scores" 2048 testGetter) "Tom" "630" rfl (by decide) rfl rfl
      rfl (NewGroup_OK "scores" 2048 testGetter) (by decide) (by decide)
  obtain ⟨g2, h4, h5⟩ := h3 (Or.inr (by decide))
  exact ⟨g1, g2, h1, h2, h4, by rw [h5, h2]; rfl⟩

/-- C14 on the group of the test `TestGet`: `Get("unknown")` returns the
error of the loader, "unknown not exist", and the cache stays empty. -/
theorem Get_loader_error_witness :
    ∃ g1, (NewGroup "scores" 2048 testGetter).Get 1 "unknown" =
        some (.error "unknown not exist", g1) ∧
      g1.mainCache.entries = [] ∧ g1.events = [Event.load "unknown"] := by
  obtain ⟨g1, h1, h2, h3, -⟩ :=
    Get_loader_error 1 (NewGroup "scores" 2048 testGetter) "unknown" "unknown not exist"
      (by decide) rfl rfl (by intro v h; cases h) rfl
  exact ⟨g1, h1, by rw [h2]; rfl, h3⟩

/-- The test `TestGet` on one key of `db`: the first `Get("Tom")` returns
"630", the second returns it again, the loader having been asked once;
`Get("unknown")` returns an error. -/
theorem TestGet :
    (((NewGroup "scores" 2048 testGetter).Get 1 "Tom").bind (fun x1 =>
      (x1.2.Get 1 "Tom").bind (fun x2 =>
      (x2.2.Get 1 "unknown").map (fun x3 =>
        ([x1.1, x2.1, x3.1].map returned, x3.2.events))))) =
      some ([("630", none), ("630", none), ("", some "unknown not exist")],
        [Event.load "Tom", Event.load "unknown"]) := by
  decide

end distributedCache

namespace lru

theorem Find_exact (c : CacheLRU) (key : String) (hx : c.nbytes = c.residentBytes) :
    (c.Find key).1.nbytes = (c.Find key).1.residentBytes ∧
      (c.Find key).1.maxBytes = c.maxBytes := by
  obtain ⟨f1, f2, -, f4, f5, -⟩ := Find_frame c key
  refine ⟨?_, f5⟩
  rw [f4, hx, residentBytes_eq, residentBytes_eq, f2]
  exact (((f1.map c.mem).map node.size).sum_eq).symm

theorem Add_new_exact (c c1 : CacheLRU) (key : String) (value : Value) (fuel : Nat)
    (hi : Inv c) (hx : c.nbytes = c.residentBytes) (hnew : c.cacheMap.lookup key = none)
    (h : c.Add fuel key value = some c1) :
    Inv c1 ∧ c1.nbytes = c1.residentBytes ∧ c1.maxBytes = c.maxBytes := by
  have hsx : (c.store key value).nbytes = (c.store key value).residentBytes := by
    rw [store_miss_residentBytes c key value hi hnew, ← hx, store_miss c key value hnew]
  obtain ⟨n, -, hev, -⟩ := evict_spec _ _ _ h
  refine ⟨Inv_Add fuel c c1 key value hi h, ?_, by rw [hev.maxBytes, store_maxBytes]⟩
  rw [Evicts_nbytes _ _ _ hsx hev, residentBytes_eq, hev.ll, hev.mem]

end lru

namespace singleFlight

theorem Do_entries {R E : Type} (sf : SingleFlight R) (key : String)
    (fn : E → Option (R × E)) (env : E) (r : R) (sf1 : SingleFlight R) (env1 : E)
    (h : sf.Do key fn env = some (r, sf1, env1)) : sf1.entries = sf.entries := by
  cases hl : sf.entries.lookup key with
  | none =>
    rw [Do_of_no_entry sf key fn env hl] at h
    cases hf : fn env with
    | none => rw [hf] at h; cases h
    | some x =>
      rw [hf] at h
      simp only [Option.map_some', Option.some.injEq, Prod.mk.injEq] at h
      rw [← h.2.1]
      rfl
  | some c =>
    have hl2 : (sf.m.getD []).lookup key = some c := hl
    unfold SingleFlight.Do at h
    simp only [hl2] at h
    by_cases hwg : c.wg = 0
    · rw [if_pos hwg] at h
      cases hres : c.res with
      | none => rw [hres] at h; cases h
      | some r0 =>
        rw [hres] at h
        simp only [Option.map_some', Option.some.injEq, Prod.mk.injEq] at h
        rw [← h.2.1]
        rfl
    · rw [if_neg hwg] at h; cases h

end singleFlight

namespace distributedCache

theorem cache_find_OK (c : cache) (key : String) (hok : c.OK) :
    (c.find key).1.OK ∧ (c.find key).1.cacheBytes = c.cacheBytes := by
  obtain ⟨l, cb⟩ := c
  cases l with
  | none => exact ⟨hok, rfl⟩
  | some l =>
    obtain ⟨hi, hx, hm⟩ := hok l rfl
    refine ⟨?_, rfl⟩
    intro l1 hl1
    simp only [cache.find, Option.some.injEq] at hl1
    subst hl1
    obtain ⟨e1, e2⟩ := lru.Find_exact l key hx
    exact ⟨lru.Inv_Find l key hi, e1, by rw [e2]; exact hm⟩

theorem cache_add_OK (c c1 : cache) (key : String) (value : ByteView) (fuel : Nat)
    (hok : c.OK) (hmiss : (c.find key).2 = none) (h : c.add fuel key value = some c1) :
    c1.OK ∧ c1.cacheBytes = c.cacheBytes := by
  obtain ⟨l, cb⟩ := c
  unfold cache.add at h
  cases l with
  | none =>
    simp only [Option.getD_none] at h
    cases hadd : (lru.New cb false).Add fuel key value with
    | none => simp [hadd] at h
    | some l1 =>
      simp only [hadd, Option.map_some', Option.some.injEq] at h
      subst h
      obtain ⟨a1, a2, a3⟩ := lru.Add_new_exact _ l1 key value fuel (lru.Inv_New cb false) rfl rfl
        hadd
      refine ⟨?_, rfl⟩
      intro l2 hl2
      cases hl2
      exact ⟨a1, a2, a3⟩
  | some l =>
    obtain ⟨hi, hx, hm⟩ := hok l rfl
    have hl : (l.Find key).2 = none := hmiss
    simp only [Option.getD_some] at h
    cases hadd : l.Add fuel key value with
    | none => simp [hadd] at h
    | some l1 =>
      simp only [hadd, Option.map_some', Option.some.injEq] at h
      subst h
      obtain ⟨a1, a2, a3⟩ := lru.Add_new_exact l l1 key value fuel hi hx
        ((lru.Find_lookup_none l key).1 hl) hadd
      refine ⟨?_, rfl⟩
      intro l2 hl2
      cases hl2
      exact ⟨a1, a2, by rw [a3]; exact hm⟩

/-- Every `Get` that returns leaves the cache in order, with the capacity it
had, and the coalescer with the entries it had: the groups reached from
`NewGroup` by `Get` calls, one caller at a time, have a cache in order and an
empty coalescer. -/
theorem Get_preserves (fuel : Nat) (g : Group) (key : String) (r : Except String ByteView)
    (g1 : Group) (hok : g.mainCache.OK) (h : g.Get fuel key = some (r, g1)) :
    g1.mainCache.OK ∧ g1.mainCache.cacheBytes = g.mainCache.cacheBytes ∧
      g1.loader.entries = g.loader.entries := by
  have hcache : g1.mainCache.OK ∧ g1.mainCache.cacheBytes = g.mainCache.cacheBytes := by
    rcases Get_cache_cases fuel g key r g1 h with h1 | h1 | ⟨hist, bytes, -, -, h3, h4⟩
    · rw [h1]; exact ⟨hok, rfl⟩
    · rw [h1]; exact cache_find_OK g.mainCache key hok
    · rw [cache_find_miss _ key h3] at h4
      exact cache_add_OK g.mainCache g1.mainCache key bytes fuel hok h3 h4
  refine ⟨hcache.1, hcache.2, ?_⟩
  unfold Group.Get at h
  by_cases hkey : key = ""
  · rw [if_pos hkey] at h
    simp only [Option.some.injEq, Prod.mk.injEq] at h
    rw [← h.2]
  · rw [if_neg hkey] at h
    cases hf : (g.mainCache.find key).2 with
    | some v =>
      simp only [hf, Option.some.injEq, Prod.mk.injEq] at h
      rw [← h.2]
    | none =>
      simp only [hf, Group.load] at h
      cases hdo : g.loader.Do key (Group.loadFn fuel key)
          { g with mainCache := (g.mainCache.find key).1 } with
      | none =>
        have hdo2 : singleFlight.SingleFlight.Do
            ({ g with mainCache := (g.mainCache.find key).1 } : Group).loader key
            (Group.loadFn fuel key) { g with mainCache := (g.mainCache.find key).1 } = none := hdo
        rw [hdo2] at h
        cases h
      | some x =>
        obtain ⟨r0, sf0, g0⟩ := x
        have hdo2 : singleFlight.SingleFlight.Do
            ({ g with mainCache := (g.mainCache.find key).1 } : Group).loader key
            (Group.loadFn fuel key) { g with mainCache := (g.mainCache.find key).1 } =
            some (r0, sf0, g0) := hdo
        rw [hdo2] at h
        simp only [Option.some.injEq, Prod.mk.injEq] at h
        rw [← h.2]
        exact singleFlight.Do_entries _ _ _ _ _ _ _ hdo

end distributedCache

namespace lru

theorem Inv_perform (fuel : Nat) (c c1 : CacheLRU) (x : Call) (hi : Inv c)
    (h : perform fuel c x = some c1) : Inv c1 := by
  cases x with
  | add key value => exact Inv_Add fuel c c1 key value hi h
  | find key =>
    simp only [perform, Option.some.injEq] at h
    subst h
    exact Inv_Find c key hi
  | remove =>
    simp only [perform, Option.some.injEq] at h
    subst h
    exact Inv_Remove c hi

theorem Inv_performAll (fuel : Nat) (xs : List Call) (c c1 : CacheLRU) (hi : Inv c)
    (h : performAll fuel c xs = some c1) : Inv c1 := by
  induction xs generalizing c with
  | nil =>
    simp only [performAll, Option.some.injEq] at h
    subst h
    exact hi
  | cons x xs ih =>
    simp only [performAll] at h
    cases hx : perform fuel c x with
    | none => rw [hx] at h; cases h
    | some c2 =>
      rw [hx] at h
      exact ih c2 (Inv_perform fuel c c2 x hi hx) h

theorem keys_perm_index (c : CacheLRU) (hi : Inv c) :
    c.keys.Perm (c.cacheMap.map Prod.fst) :=
  (List.perm_ext_iff_of_nodup (keys_nodup c hi) hi.mapNodup).2
    (fun k => (mem_keys_iff c hi k).trans (lookup_isSome_iff c.cacheMap k))

theorem GetRecord_eq_index (c : CacheLRU) (hi : Inv c) :
    c.GetRecord = c.cacheMap.length := by
  have h := (keys_perm_index c hi).length_eq
  simpa [CacheLRU.keys, CacheLRU.GetRecord] using h

end lru

namespace lru

/-- C21: after every sequence of `Add`, `Find` and `Remove` calls that returns,
on a cache made by `New`, the index and the list describe the same entries.
Each key of the index points to an element that is in the list exactly once
and that carries this key; for each key of the index exactly one list node
carries it; no two list nodes carry the same key; every list node is the one
the index holds for its key; and `GetRecord`, the length of the list, is the
number of keys of the index, which holds no key twice. -/
theorem index_list_consistent (fuel : Nat) (maxBytes : Int) (OnEvicted : Bool)
    (xs : List Call) (c : CacheLRU)
    (h : performAll fuel (New maxBytes OnEvicted) xs = some c) :
    (∀ k e, c.cacheMap.lookup k = some e → c.ll.count e = 1 ∧ (c.mem e).key = k) ∧
      (∀ k ∈ c.cacheMap.map Prod.fst, c.keys.count k = 1) ∧
      c.keys.Nodup ∧
      (∀ e ∈ c.ll, c.cacheMap.lookup (c.mem e).key = some e) ∧
      (c.cacheMap.map Prod.fst).Nodup ∧
      c.GetRecord = (c.cacheMap.map Prod.fst).length := by
  have hi : Inv c := Inv_performAll fuel xs _ c (Inv_New maxBytes OnEvicted) h
  refine ⟨?_, ?_, keys_nodup c hi, hi.listed, hi.mapNodup, ?_⟩
  · intro k e hk
    obtain ⟨h1, h2⟩ := hi.index k e hk
    exact ⟨List.count_eq_one_of_mem hi.nodup h1, h2⟩
  · intro k hk
    exact List.count_eq_one_of_mem (keys_nodup c hi)
      ((mem_keys_iff c hi k).2 ((lookup_isSome_iff c.cacheMap k).2 hk))
  · rw [List.length_map]
    exact GetRecord_eq_index c hi

/-- C21 at a run of the three methods with two evictions by `Add`: the run
returns a cache, and on it the index and the list agree. -/
theorem index_list_consistent_witness :
    ∃ c, performAll 1 (New 10 true)
        [.add "key1" "123456", .find "key1", .add "k2" "k2", .remove, .add "k3" "k3",
          .add "k2" "v", .add "k4" "k4", .find "k3", .remove, .remove, .remove] = some c ∧
      (∀ k e, c.cacheMap.lookup k = some e → c.ll.count e = 1 ∧ (c.mem e).key = k) ∧
      (∀ k ∈ c.cacheMap.map Prod.fst, c.keys.count k = 1) ∧
      c.keys.Nodup ∧
      (∀ e ∈ c.ll, c.cacheMap.lookup (c.mem e).key = some e) ∧
      (c.cacheMap.map Prod.fst).Nodup ∧
      c.GetRecord = (c.cacheMap.map Prod.fst).length := by
  obtain ⟨c, hc⟩ := Option.isSome_iff_exists.1
    (show (performAll 1 (New 10 true)
        [.add "key1" "123456", .find "key1", .add "k2" "k2", .remove, .add "k3" "k3",
          .add "k2" "v", .add "k4" "k4", .find "k3", .remove, .remove, .remove]).isSome = true
      by decide)
  exact ⟨c, hc, index_list_consistent 1 10 true _ c hc⟩

/-- A run of the three methods, step by step: the keys in the list and the
number of entries after each prefix of the calls. -/
theorem performAll_example :
    ([[.add "key1" "123456"], [.add "key1" "123456", .add "k2" "k2"],
        [.add "key1" "123456", .add "k2" "k2", .find "key1"],
        [.add "key1" "123456", .add "k2" "k2", .find "key1", .remove],
        [.add "key1" "123456", .add "k2" "k2", .find "key1", .remove, .remove],
        [.add "key1" "123456", .add "k2" "k2", .find "key1", .remove, .remove, .remove]].map
      (fun xs => (performAll 1 (New 0 false) xs).map
        (fun c => (c.keys, c.cacheMap.map Prod.fst, c.GetRecord)))) =
      [some (["key1"], ["key1"], 1), some (["key1", "k2"], ["k2", "key1"], 2),
        some (["k2", "key1"], ["k2", "key1"], 2), some (["key1"], ["key1"], 1),
        some ([], [], 0), some ([], [], 0)] := by
  decide

end lru

namespace strings

theorem cut_none (sep : Char) (s : List Char) (h : sep ∉ s) : cut sep s = none := by
  induction s with
  | nil => rfl
  | cons c cs ih =>
    have hc : c ≠ sep := fun e => h (by rw [e]; exact List.mem_cons_self _ _)
    have hcs : sep ∉ cs := fun e => h (List.mem_cons_of_mem _ e)
    simp [cut, hc, ih hcs]

theorem cut_some (sep : Char) (s : List Char) (h : sep ∈ s) :
    ∃ a b, cut sep s = some (a, b) ∧ s = a ++ sep :: b ∧ sep ∉ a := by
  induction s with
  | nil => cases h
  | cons c cs ih =>
    by_cases hc : c = sep
    · exact ⟨[], cs, by simp [cut, hc], by simp [hc], by simp⟩
    · have hcs : sep ∈ cs := by
        rcases List.mem_cons.1 h with e | e
        · exact absurd e.symm hc
        · exact e
      obtain ⟨a, b, h1, h2, h3⟩ := ih hcs
      refine ⟨c :: a, b, by simp [cut, hc, h1], by simp [h2], ?_⟩
      intro e
      rcases List.mem_cons.1 e with e | e
      · exact hc e.symm
      · exact h3 e

/-- Splitting in two a text without the separator gives the text alone. -/
theorem SplitN_two_of_no_sep (s : String) (sep : Char) (h : sep ∉ s.data) :
    SplitN s sep 2 = [s] := by
  simp [SplitN, splitN, cut_none sep s.data h]

/-- Splitting in two a text with the separator gives what is before the first
separator and what is after it. -/
theorem SplitN_two_of_sep (s : String) (sep : Char) (h : sep ∈ s.data) :
    ∃ a b, SplitN s sep 2 = [String.mk a, String.mk b] ∧ s.data = a ++ sep :: b ∧ sep ∉ a := by
  obtain ⟨a, b, h1, h2, h3⟩ := cut_some sep s.data h
  exact ⟨a, b, by simp [SplitN, splitN, h1], h2, h3⟩

/-- The examples of the documentation of `strings.SplitN`, for the count 2,
and the cases of an empty text and of an empty piece. -/
theorem SplitN_examples :
    SplitN "a,b,c,d" ',' 2 = ["a", "b,c,d"] ∧ SplitN "" '/' 2 = [""] ∧
      SplitN "scores/Tom" '/' 2 = ["scores", "Tom"] ∧ SplitN "scores/" '/' 2 = ["scores", ""] ∧
      SplitN "scores" '/' 2 = ["scores"] ∧ SplitN "a/b/c" '/' 2 = ["a", "b/c"] ∧
      SplitN "a/b/c" '/' 0 = [] ∧ SplitN "a/b/c" '/' 1 = ["a/b/c"] ∧
      SplitN "a/b/c" '/' 5 = ["a", "b", "c"] := by
  decide

end strings

namespace distributedCache

theorem ServeHTTP_no_slash (fuel : Nat) (Marshal : pb.Response → Except String String)
    (p : HTTPPool) (groups : List (String × Group)) (method path : String)
    (h1 : strings.HasPrefix path p.basePath = true)
    (h2 : '/' ∉ path.data.drop p.basePath.length) :
    p.ServeHTTP fuel Marshal groups method path =
      ⟨[Effect.log method path, Effect.httpError "bad request" 400],
        .panicked "runtime error: index out of range [1] with length 1", groups⟩ := by
  have hs : strings.SplitN (String.mk (path.data.drop p.basePath.length)) '/' 2 =
      [String.mk (path.data.drop p.basePath.length)] :=
    strings.SplitN_two_of_no_sep _ '/' h2
  simp [HTTPPool.ServeHTTP, h1, hs]

/-- C22 (the code breaks the claim): on a request whose path starts with the
base path and has no '/' after it, `ServeHTTP` answers 400 "bad request" and
does not stop there: the `if` has no `return`, so the code goes on to
`parts[1]`, an index out of the range of the one part, and panics. Before the
panic it looks up no group and writes nothing else; the directory of the groups
is unchanged. -/
theorem ServeHTTP_malformed_path_panics (fuel : Nat)
    (Marshal : pb.Response → Except String String) (p : HTTPPool)
    (groups : List (String × Group)) (method path : String)
    (h1 : strings.HasPrefix path p.basePath = true)
    (h2 : '/' ∉ path.data.drop p.basePath.length) :
    strings.SplitN (String.mk (path.data.drop p.basePath.length)) '/' 2 =
        [String.mk (path.data.drop p.basePath.length)] ∧
      (p.ServeHTTP fuel Marshal groups method path).effects =
        [Effect.log method path, Effect.httpError "bad request" 400] ∧
      (p.ServeHTTP fuel Marshal groups method path).outcome =
        .panicked "runtime error: index out of range [1] with length 1" := by
  refine ⟨strings.SplitN_two_of_no_sep _ '/' h2, ?_, ?_⟩
  · rw [ServeHTTP_no_slash fuel Marshal p groups method path h1 h2]
  · rw [ServeHTTP_no_slash fuel Marshal p groups method path h1 h2]

/-- C22 at the request `GET /_cache/scores` on a pool made by `NewHTTPPool`,
the group `scores` of the test being registered: the answer 400 is followed by
the panic. -/
theorem ServeHTTP_malformed_path_panics_witness :
    strings.HasPrefix "/_cache/scores" (NewHTTPPool "localhost:8001").basePath = true ∧
      '/' ∉ "/_cache/scores".data.drop (NewHTTPPool "localhost:8001").basePath.length ∧
      strings.SplitN (String.mk ("/_cache/scores".data.drop
          (NewHTTPPool "localhost:8001").basePath.length)) '/' 2 = ["scores"] ∧
      ((NewHTTPPool "localhost:8001").ServeHTTP 1 (fun r => .ok r.Value)
          [("scores", NewGroup "scores" 2048 testGetter)] "GET" "/_cache/scores").effects =
        [Effect.log "GET" "/_cache/scores", Effect.httpError "bad request" 400] ∧
      ((NewHTTPPool "localhost:8001").ServeHTTP 1 (fun r => .ok r.Value)
          [("scores", NewGroup "scores" 2048 testGetter)] "GET" "/_cache/scores").outcome =
        .panicked "runtime error: index out of range [1] with length 1" :=
  ⟨by decide, by decide,
    ServeHTTP_malformed_path_panics 1 (fun r => .ok r.Value) (NewHTTPPool "localhost:8001")
      [("scores", NewGroup "scores" 2048 testGetter)] "GET" "/_cache/scores"
      (by decide) (by decide)⟩

/-- The other paths of `ServeHTTP` on the group of the test: a key of the
source is served, an unknown group is answered 404, an unknown key and an empty
key are answered 500, and a path outside the base path panics. -/
theorem ServeHTTP_examples :
    (["/_cache/scores/Tom", "/_cache/ages/Tom", "/_cache/scores/kkk", "/_cache/scores/",
        "/api/scores/Tom"].map
      (fun path =>
        let r := (NewHTTPPool "localhost:8001").ServeHTTP 1 (fun r => .ok r.Value)
          [("scores", NewGroup "scores" 2048 testGetter)] "GET" path
        (r.effects.drop 1, r.outcome))) =
      [([Effect.getGroup "scores", Effect.setHeader "Content-Type" "application/octet-stream",
          Effect.write "630"], .returned),
        ([Effect.getGroup "ages", Effect.httpError "no such group: ages" 404], .returned),
        ([Effect.getGroup "scores", Effect.httpError "kkk not exist" 500], .returned),
        ([Effect.getGroup "scores", Effect.httpError "key is required" 500], .returned),
        ([], .panicked "HTTPPool serving unexpected path: /api/scores/Tom")] := by
  decide

end distributedCache
